import Mathlib

/-!
# A directed, weighted graph: mutation, topological sort and longest path

Shallow embedding of `graph.go` (package `utils`).

Modelling conventions.

* A Go `Node` is an interface value: it is `nil` or a concrete node. The only
  concrete node type of the package is `IntNode`.
* A Go `map[Node]V` is an association list with at most one entry per key
  (`GoMap V`). Reading a missing key yields the zero value of `V`, which is
  what `GoMap.getD` is called with at every use.
* Go does not specify the order in which `range` visits the keys of a map.
  The only place where that order is observable is `ComputeSourceAndSink`;
  the order in which the node map is visited is therefore an explicit
  argument `it` of `ComputeSourceAndSink`, `TopoSort` and `LongestPath`.
* Go `int` is a 64 bit integer (on a 64 bit platform). The additions of the
  dynamic program of `LongestPath` wrap around (`wrap64`). The degree counters
  change by one per call; they are modelled by `Int` without wrap-around.
* A Go panic is an `Except.error`. Methods with a pointer receiver that change
  the receiver return the new graph.
* Where the question is whether two graphs share storage (`Clone`), the
  mutating methods are repeated on an explicit heap (`Heap`): a map is a
  reference to a map object, a slice is a header into a backing array.
-/

namespace Graphs

/-- Go interface value of type `Node`: `nil`, or an `IntNode`. -/
inductive Node where
  | nil : Node
  | IntNode (i : Int) : Node
  deriving DecidableEq, Repr

/-- Go `type Nodes []Node`. -/
abbrev Nodes := List Node

/-- Ways in which a call can fail to return normally. -/
inductive Fault where
  /-- `panic("Not a DAG")` in `TopoSort`. -/
  | notDAG : Fault
  /-- Go runtime panic "slice bounds out of range" (`out[1:]` on an empty slice). -/
  | sliceBounds : Fault
  /-- The iteration budget of a loop of the model is used up (the Go loop does not stop). -/
  | outOfFuel : Fault
  deriving DecidableEq, Repr

/-- Go map keyed by `Node`, as an association list. -/
abbrev GoMap (ν : Type) := List (Node × ν)

namespace GoMap

variable {ν : Type}

/-- Lookup with presence information (`v, ok := m[k]`). -/
def get? : GoMap ν → Node → Option ν
  | [], _ => none
  | (k, v) :: m, x => if k = x then some v else get? m x

/-- Lookup `m[k]`, with `d` the zero value of the value type. -/
def getD (m : GoMap ν) (k : Node) (d : ν) : ν :=
  match m.get? k with
  | some v => v
  | none => d

/-- Assignment `m[k] = v`. -/
def set : GoMap ν → Node → ν → GoMap ν
  | [], x, v => [(x, v)]
  | (k, u) :: m, x, v => if k = x then (x, v) :: m else (k, u) :: set m x v

/-- Deletion `delete(m, k)`. -/
def del : GoMap ν → Node → GoMap ν
  | [], _ => []
  | (k, u) :: m, x => if k = x then del m x else (k, u) :: del m x

/-- The keys of a map. -/
def keys (m : GoMap ν) : List Node := m.map Prod.fst

end GoMap

/-- Go `type NodeMap map[Node]bool`. -/
abbrev NodeMap := GoMap Bool

/-- Go `type intMap map[Node]int`. -/
abbrev intMap := GoMap Int

/-- Go `type Graph struct`. -/
structure Graph where
  Nodes : NodeMap
  Source : List Node
  Sink : List Node
  Edges : GoMap (List Node)
  Weights : GoMap intMap
  InDegree : intMap
  OutDegree : intMap
  deriving DecidableEq, Repr

/-- Go `GraphNew`. -/
def GraphNew : Graph :=
  { Nodes := [], Source := [], Sink := [], Edges := [], Weights := [],
    InDegree := [], OutDegree := [] }

/-- Go `(g *Graph) AddEdge(src, dst Node, opts ...int)`. -/
def Graph.AddEdge (g : Graph) (src dst : Node) (opts : List Int) : Graph :=
  let weight : Int :=
    match opts with
    | [] => 1
    | w :: _ => w
  { g with
    Nodes := (g.Nodes.set src true).set dst true
    InDegree := g.InDegree.set dst (g.InDegree.getD dst 0 + 1)
    OutDegree := g.OutDegree.set src (g.OutDegree.getD src 0 + 1)
    Edges := g.Edges.set src (g.Edges.getD src [] ++ [dst])
    Weights :=
      match g.Weights.get? src with
      | none => g.Weights.set src [(dst, weight)]
      | some wm => g.Weights.set src (wm.set dst weight) }

/-- Index of the first element of `n` equal to `node` (where the `range` loop of
`Nodes.Remove` breaks). -/
def firstIdx (node : Node) : List Node → Option Nat
  | [] => none
  | v :: n => if v = node then some 0 else (firstIdx node n).map (· + 1)

/-- Go `(n Nodes) Remove(node Node)`: copy, swap the first match with position 0,
drop position 0. -/
def Nodes.Remove (n : List Node) (node : Node) : Except Fault (List Node) :=
  let out : Nodes :=
    match firstIdx node n with
    | some k => (n.set k (n.getD 0 Node.nil)).set 0 (n.getD k Node.nil)
    | none => n
  match out with
  | [] => Except.error Fault.sliceBounds
  | _ :: rest => Except.ok rest

/-- Go `(g *Graph) RemoveEdge(src, dst Node)`. -/
def Graph.RemoveEdge (g : Graph) (src dst : Node) : Except Fault Graph :=
  match Nodes.Remove (g.Edges.getD src []) dst with
  | Except.error f => Except.error f
  | Except.ok rest =>
    Except.ok { g with
      Edges := if rest.length = 0 then g.Edges.del src else g.Edges.set src rest
      InDegree := g.InDegree.set dst (g.InDegree.getD dst 0 - 1)
      OutDegree := g.OutDegree.set src (g.OutDegree.getD src 0 - 1) }

/-- Go `(g *Graph) HasEdge(src, dst Node) bool`. -/
def Graph.HasEdge (g : Graph) (src dst : Node) : Bool :=
  (g.Edges.getD src []).any (fun node => decide (node = dst))

/-- Go `(n Nodes) Clone()`. -/
def Nodes.Clone (n : List Node) : List Node := n.map id

/-- Go `(wm intMap) Clone()`. -/
def intMap.Clone (wm : intMap) : intMap := wm.map (fun kv => (kv.1, kv.2))

/-- Go `NodesClone`. -/
def Graph.NodesClone (g : Graph) : NodeMap := g.Nodes.map (fun kv => (kv.1, kv.2))

/-- Go `EdgesClone`. -/
def Graph.EdgesClone (g : Graph) : GoMap (List Node) := g.Edges.map (fun kv => (kv.1, Nodes.Clone kv.2))

/-- Go `WeightsClone`. -/
def Graph.WeightsClone (g : Graph) : GoMap intMap :=
  g.Weights.map (fun kv => (kv.1, intMap.Clone kv.2))

/-- Go `InDegreeClone`. -/
def Graph.InDegreeClone (g : Graph) : intMap := g.InDegree.map (fun kv => (kv.1, kv.2))

/-- Go `OutDegreeClone`. -/
def Graph.OutDegreeClone (g : Graph) : intMap := g.OutDegree.map (fun kv => (kv.1, kv.2))

/-- Go `SourceClone`. -/
def Graph.SourceClone (g : Graph) : List Node := g.Source.map id

/-- Go `SinkClone`. -/
def Graph.SinkClone (g : Graph) : List Node := g.Sink.map id

/-- Go `(g *Graph) Clone()`. -/
def Graph.Clone (g : Graph) : Graph :=
  { Nodes := g.NodesClone, Edges := g.EdgesClone, Weights := g.WeightsClone,
    InDegree := g.InDegreeClone, OutDegree := g.OutDegreeClone,
    Source := g.SourceClone, Sink := g.SinkClone }

/-- Go `(g *Graph) ComputeSourceAndSink()`; `it` is the order in which
`range g.Nodes` visits the keys of the node map. -/
def Graph.ComputeSourceAndSink (g : Graph) (it : List Node) : Graph :=
  { g with
    Source := it.filter (fun n => decide (g.InDegree.getD n 0 = 0))
    Sink := it.filter (fun n => decide (g.OutDegree.getD n 0 = 0)) }

/-- Inner loop of `TopoSort`: `for _, m := range g.Edges[n]`, on the working copy `h`
and the queue `s`. -/
def topoInner (n : Node) : List Node → Graph → List Node → Except Fault (Graph × List Node)
  | [], h, s => Except.ok (h, s)
  | m :: ms, h, s =>
    match h.RemoveEdge n m with
    | Except.error f => Except.error f
    | Except.ok h1 =>
      topoInner n ms h1 (if h1.InDegree.getD m 0 = 0 then s ++ [m] else s)

/-- Outer loop of `TopoSort`: `for len(s) > 0`, with an iteration budget. -/
def topoLoop (g : Graph) : Nat → Graph → List Node → List Node → Except Fault (Graph × List Node)
  | _, h, [], ts => Except.ok (h, ts)
  | 0, _, _ :: _, _ => Except.error Fault.outOfFuel
  | fuel + 1, h, n :: s, ts =>
    match topoInner n (g.Edges.getD n []) h s with
    | Except.error f => Except.error f
    | Except.ok (h1, s1) => topoLoop g fuel h1 s1 (ts ++ [n])

/-- Number of edges stored in an edge map. -/
def edgeCount (e : GoMap (List Node)) : Nat := (e.map (fun kv => kv.2.length)).sum

/-- Go `(g *Graph) TopoSort()`. The first component is the receiver after the call
(its `Source` and `Sink` are recomputed), the second the returned order or the panic.
Every pass of the outer loop takes one node from the queue and every edge removal adds
at most one, so `len(source) + number of edges` passes are enough. -/
def Graph.TopoSort (g : Graph) (it : List Node) : Graph × Except Fault (List Node) :=
  let h := g.Clone
  let g1 := g.ComputeSourceAndSink it
  let s := g1.SourceClone
  (g1,
    match topoLoop g1 (s.length + edgeCount g1.Edges) h s [] with
    | Except.error f => Except.error f
    | Except.ok (h1, ts) =>
      if h1.Edges.length > 0 then Except.error Fault.notDAG else Except.ok ts)

/-- First loop of `LongestPath`: `ts = ts[k:]` at the first `k` with `ts[k] == src`. -/
def sliceFrom (src : Node) (ts : List Node) : List Node :=
  match firstIdx src ts with
  | some k => ts.drop k
  | none => ts

/-- Second loop of `LongestPath`: `ts = ts[:k+1]` at the first `k` with `ts[k] == dst`. -/
def sliceTo (dst : Node) (ts : List Node) : List Node :=
  match firstIdx dst ts with
  | some k => ts.take (k + 1)
  | none => ts

/-- Go `+` on `int` (64 bit): the sum of two `int` values, wrapped into the range from
`-2^63` to `2^63 - 1`. -/
def wrap64 (x : Int) : Int := (x + 2 ^ 63) % 2 ^ 64 - 2 ^ 63

/-- Body of the inner loop of the dynamic program of `LongestPath`, for positions
`j < i`; the state is `(max, back)`. -/
def lpInnerStep (g : Graph) (ts : List Node) (dist : intMap) (i : Nat)
    (st : Int × GoMap Node) (j : Nat) : Int × GoMap Node :=
  let v := ts.getD j Node.nil
  let w := ts.getD i Node.nil
  if g.HasEdge v w = false then st
  else
    let curr := wrap64 (dist.getD v 0 + (g.Weights.getD v []).getD w 0)
    if curr > st.1 then (curr, st.2.set w v) else st

/-- Body of the outer loop of the dynamic program; the state is `(dist, back)`. -/
def lpOuterStep (g : Graph) (ts : List Node) (st : intMap × GoMap Node) (i : Nat) :
    intMap × GoMap Node :=
  let r := (List.range i).foldl (lpInnerStep g ts st.1 i) (0, st.2)
  (st.1.set (ts.getD i Node.nil) r.1, r.2)

/-- The dynamic program of `LongestPath`: `for i := 1; i < len(ts); i++`. -/
def lpTable (g : Graph) (ts : List Node) : intMap × GoMap Node :=
  (List.range' 1 (ts.length - 1)).foldl (lpOuterStep g ts) ([], [])

/-- Path reconstruction loop of `LongestPath` (`for len(back) > 0`), with an
iteration budget. -/
def lpWalk (back : GoMap Node) (src : Node) : Nat → Node → List Node → Except Fault (List Node)
  | 0, _, _ => Except.error Fault.outOfFuel
  | fuel + 1, curr, path =>
    let prev := back.getD curr Node.nil
    if prev = Node.nil ∨ prev = src then Except.ok (prev :: path)
    else lpWalk back src fuel prev (prev :: path)

/-- Go `(g *Graph) LongestPath(src, dst Node) (l int, path Nodes)`. The walk along the
back pointers either stops within `len(back) + 1` steps or runs into a loop of back
pointers and never stops. -/
def Graph.LongestPath (g : Graph) (it : List Node) (src dst : Node) :
    Graph × Except Fault (Int × List Node) :=
  let r := g.TopoSort it
  (r.1,
    match r.2 with
    | Except.error f => Except.error f
    | Except.ok ts0 =>
      let ts := sliceTo dst (sliceFrom src ts0)
      let tb := lpTable r.1 ts
      let l := tb.1.getD dst 0
      if tb.2.length > 0 then
        match lpWalk tb.2 src (tb.2.length + 1) dst [dst] with
        | Except.error f => Except.error f
        | Except.ok path => Except.ok (l, path)
      else Except.ok (l, [dst]))

/-! ## Definitions used to state the properties -/

/-- Sum of `f` over the adjacency lists stored in an edge map. -/
def wsum (f : List Node → Nat) (e : GoMap (List Node)) : Nat := (e.map (fun kv => f kv.2)).sum

/-- Number of occurrences of `m` in all adjacency lists. -/
def occ (e : GoMap (List Node)) (m : Node) : Nat := wsum (fun l => l.count m) e

/-- The edge relation of a graph: `v` occurs in `g.Edges[u]`. -/
def Edge (g : Graph) (u v : Node) : Prop := v ∈ GoMap.getD g.Edges u []

/-- The graph contains a directed cycle (a self-loop counts). -/
def Cyclic (g : Graph) : Prop := ∃ u, Relation.TransGen (Edge g) u u

/-- The graph contains no directed cycle. -/
def Acyclic (g : Graph) : Prop := ¬ Cyclic g

/-- Graphs reached from `GraphNew` by `AddEdge` calls and by `RemoveEdge` calls that
target an edge present at the time of the call. -/
inductive WellFormed : Graph → Prop
  | new : WellFormed GraphNew
  | addEdge {g : Graph} (src dst : Node) (opts : List Int) :
      WellFormed g → WellFormed (g.AddEdge src dst opts)
  | removeEdge {g g1 : Graph} (src dst : Node) :
      WellFormed g → g.HasEdge src dst = true → g.RemoveEdge src dst = Except.ok g1 →
      WellFormed g1

/-- Consistency of the edge map with the in-degree counters. -/
structure EdgesOK (h : Graph) : Prop where
  nodupKeys : (GoMap.keys h.Edges).Nodup
  nonempty : ∀ kv ∈ h.Edges, kv.2 ≠ []
  indeg : ∀ m, GoMap.getD h.InDegree m 0 = (occ h.Edges m : Int)

/-- The invariant of well-formed graphs. -/
structure Inv (g : Graph) : Prop where
  edgesOK : EdgesOK g
  outdeg : ∀ m, GoMap.getD g.OutDegree m 0 = ((GoMap.getD g.Edges m []).length : Int)
  nodupNodes : (GoMap.keys g.Nodes).Nodup
  closed : ∀ u v, Edge g u v → u ∈ GoMap.keys g.Nodes ∧ v ∈ GoMap.keys g.Nodes

/-- Invariant of the outer loop of `TopoSort`: `h` is the working copy, `s` the queue
and `ts` the output so far. -/
structure Kahn (g h : Graph) (s ts : List Node) : Prop where
  ok : EdgesOK h
  nodup : (ts ++ s).Nodup
  done : ∀ n ∈ ts, GoMap.get? h.Edges n = none
  rest : ∀ n, n ∉ ts → GoMap.get? h.Edges n = GoMap.get? g.Edges n
  ready : ∀ m ∈ GoMap.keys g.Nodes, (m ∈ ts ++ s ↔ GoMap.getD h.InDegree m 0 = 0)
  sub : ∀ m ∈ ts ++ s, m ∈ GoMap.keys g.Nodes
  order : ∀ u v, Edge g u v → v ∈ ts → ∃ a b, ts = a ++ v :: b ∧ u ∈ a

/-- Invariant of the inner loop of `TopoSort`, while the edges `ms` of `n` are still to
be removed from the working copy. -/
structure KahnIn (g h : Graph) (n : Node) (ms s ts : List Node) : Prop where
  ok : EdgesOK h
  nodup : (ts ++ s).Nodup
  mem : n ∈ ts
  done : ∀ k ∈ ts, k ≠ n → GoMap.get? h.Edges k = none
  cur : (GoMap.getD h.Edges n []).Perm ms
  rest : ∀ k, k ∉ ts → GoMap.get? h.Edges k = GoMap.get? g.Edges k
  ready : ∀ m ∈ GoMap.keys g.Nodes, (m ∈ ts ++ s ↔ GoMap.getD h.InDegree m 0 = 0)
  sub : ∀ m ∈ ts ++ s, m ∈ GoMap.keys g.Nodes
  order : ∀ u v, Edge g u v → v ∈ ts → ∃ a b, ts = a ++ v :: b ∧ u ∈ a

/-- A list in which every edge points forward. -/
def Forward (g : Graph) (ts : List Node) : Prop :=
  ∀ u v, Edge g u v → ts.indexOf u < ts.indexOf v

/-- The node A of the worked examples. -/
def nA : Node := Node.IntNode 0

/-- The node B of the worked examples. -/
def nB : Node := Node.IntNode 1

/-- The node C of the worked examples. -/
def nC : Node := Node.IntNode 2

/-- The node D of the worked examples. -/
def nD : Node := Node.IntNode 3

/-- The graph A→B (2), B→D (3), A→C (1), C→D (5). -/
def diamond : Graph :=
  (((GraphNew.AddEdge nA nB [2]).AddEdge nB nD [3]).AddEdge nA nC [1]).AddEdge nC nD [5]

/-- The graph A→B, B→A. -/
def twoCycle : Graph := (GraphNew.AddEdge nA nB []).AddEdge nB nA []

/-- The weight `AddEdge` stores: the first optional argument, or 1 when there is none. -/
def givenWeight (opts : List Int) : Int :=
  match opts with
  | [] => 1
  | w :: _ => w

/-- The receiver after a call of `RemoveEdge`: the new graph when the call returns; when
the call panics the graph is as before, because the panic is raised by `Nodes.Remove` in
the first statement, before any field is assigned. -/
def Graph.afterRemoveEdge (g : Graph) (src dst : Node) : Graph :=
  match g.RemoveEdge src dst with
  | Except.ok g1 => g1
  | Except.error _ => g

/-- The graph with the single edge A→B. -/
def oneEdge : Graph := GraphNew.AddEdge nA nB []

/-- The graph of the worked example on four arbitrary nodes. -/
def diamondOn (a b c d : Node) : Graph :=
  (((GraphNew.AddEdge a b [2]).AddEdge b d [3]).AddEdge a c [1]).AddEdge c d [5]

/-- Sum of the stored weights `weights[u][v]` along a node sequence. -/
def pathWeight (g : Graph) : List Node → Int
  | [] => 0
  | [_] => 0
  | u :: v :: rest => GoMap.getD (GoMap.getD g.Weights u []) v 0 + pathWeight g (v :: rest)

/-- The node sequence `p` is a directed path of `g` from `src` to `dst`. -/
def IsPathFromTo (g : Graph) (src dst : Node) (p : List Node) : Prop :=
  p.head? = some src ∧ p.getLast? = some dst ∧ List.Chain' (Edge g) p

/-- The graph C→B (1), B→D (5), A→D (1): the only path from A to D is the edge A→D. -/
def detour : Graph := ((GraphNew.AddEdge nC nB [1]).AddEdge nB nD [5]).AddEdge nA nD [1]

/-- The graph `g` with its weight map replaced. -/
def withWeights (g : Graph) (w : GoMap intMap) : Graph := { g with Weights := w }

/-- The graph `g` with only the stored weight of the pair `(u, v)` replaced by `w1`. -/
def Graph.setWeight (g : Graph) (u v : Node) (w1 : Int) : Graph :=
  withWeights g (GoMap.set g.Weights u (GoMap.set (GoMap.getD g.Weights u []) v w1))

/-- Back pointers point to strictly earlier positions of `ts`. -/
def BackOK (ts : List Node) (back : GoMap Node) : Prop :=
  ∀ w v, GoMap.get? back w = some v → ts.indexOf v < ts.indexOf w

/-- One mutating call on a graph. -/
inductive Op where
  | add (src dst : Node) (opts : List Int) : Op
  | remove (src dst : Node) : Op

/-- The graph `g` is reached from `GraphNew` by the calls `ops` (latest call first), where
every `RemoveEdge` targets an edge present at the time of the call. -/
inductive Reached : List Op → Graph → Prop
  | new : Reached [] GraphNew
  | addEdge {ops : List Op} {g : Graph} (src dst : Node) (opts : List Int) :
      Reached ops g → Reached (Op.add src dst opts :: ops) (g.AddEdge src dst opts)
  | removeEdge {ops : List Op} {g g1 : Graph} (src dst : Node) :
      Reached ops g → g.HasEdge src dst = true → g.RemoveEdge src dst = Except.ok g1 →
      Reached (Op.remove src dst :: ops) g1

/-- Number of `AddEdge` calls in a history. -/
def addCount : List Op → Nat
  | [] => 0
  | Op.add _ _ _ :: ops => addCount ops + 1
  | Op.remove _ _ :: ops => addCount ops

/-- Number of `RemoveEdge` calls in a history. -/
def removeCount : List Op → Nat
  | [] => 0
  | Op.add _ _ _ :: ops => removeCount ops
  | Op.remove _ _ :: ops => removeCount ops + 1

/-- The pair `(src, dst)` was the argument of some `AddEdge` call of the history. -/
def wasAdded (src dst : Node) : List Op → Prop
  | [] => False
  | Op.add s d _ :: ops => (s = src ∧ d = dst) ∨ wasAdded src dst ops
  | Op.remove _ _ :: ops => wasAdded src dst ops

/-- Sum of a degree map over all nodes of the graph. -/
def degreeSum (g : Graph) (m : intMap) : Int :=
  ((GoMap.keys g.Nodes).map (fun n => GoMap.getD m n 0)).sum

/-- The graph A→B after `RemoveEdge(A, B)`. -/
def oneEdgeRemoved : Graph := oneEdge.afterRemoveEdge nA nB

/-- Candidate distance `dist[v] + weights[v][w]` (a 64 bit addition) that the dynamic
program of `LongestPath` computes for the node `w` at position `i` and its predecessor `v`
at position `j`. -/
def candAt (g : Graph) (ts : List Node) (dist : intMap) (i j : Nat) : Int :=
  wrap64 (GoMap.getD dist (ts.getD j Node.nil) 0
    + GoMap.getD (GoMap.getD g.Weights (ts.getD j Node.nil) []) (ts.getD i Node.nil) 0)

/-- There is an edge from the node at position `j` to the node at position `i`. -/
def edgeAt (g : Graph) (ts : List Node) (i j : Nat) : Prop :=
  g.HasEdge (ts.getD j Node.nil) (ts.getD i Node.nil) = true

/-- What the inner loop of the dynamic program has established after the positions below
`m`: the maximum so far and the back pointer of the node `w` at position `i`. -/
structure InnerOK (g : Graph) (ts : List Node) (dist : intMap) (i : Nat) (back0 : GoMap Node)
    (m : Nat) (r : Int × GoMap Node) : Prop where
  nonneg : 0 ≤ r.1
  bound : ∀ j, j < m → edgeAt g ts i j → candAt g ts dist i j ≤ r.1
  other : ∀ k, k ≠ ts.getD i Node.nil → GoMap.get? r.2 k = GoMap.get? back0 k
  best : (r.1 = 0 ∧ r.2 = back0) ∨
    ∃ j, j < m ∧ edgeAt g ts i j ∧ candAt g ts dist i j = r.1 ∧ 0 < r.1 ∧
      (∀ j1, j1 < j → edgeAt g ts i j1 → candAt g ts dist i j1 < r.1) ∧
      GoMap.get? r.2 (ts.getD i Node.nil) = some (ts.getD j Node.nil)

/-- The back pointer of the node at position `i` is the earliest predecessor with the
maximal candidate distance, whenever that distance is positive. -/
def TieBreak (g : Graph) (ts : List Node) (dist : intMap) (back : GoMap Node) (i : Nat) : Prop :=
  ∀ j, j < i → edgeAt g ts i j → 0 < candAt g ts dist i j →
    (∀ j1, j1 < i → edgeAt g ts i j1 → candAt g ts dist i j1 ≤ candAt g ts dist i j) →
    (∀ j1, j1 < j → edgeAt g ts i j1 → candAt g ts dist i j1 < candAt g ts dist i j) →
    GoMap.get? back (ts.getD i Node.nil) = some (ts.getD j Node.nil)

/-- What the dynamic program has established for the positions `1, …, n`. -/
structure TableOK (g : Graph) (ts : List Node) (n : Nat) (st : intMap × GoMap Node) : Prop where
  nonneg : ∀ x, 0 ≤ GoMap.getD st.1 x 0
  bound : ∀ i j, 1 ≤ i → i ≤ n → j < i → edgeAt g ts i j →
    candAt g ts st.1 i j ≤ GoMap.getD st.1 (ts.getD i Node.nil) 0
  tie : ∀ i, 1 ≤ i → i ≤ n → TieBreak g ts st.1 st.2 i
  attained : ∀ i, 1 ≤ i → i ≤ n → GoMap.getD st.1 (ts.getD i Node.nil) 0 = 0 ∨
    ∃ j, j < i ∧ edgeAt g ts i j ∧
      candAt g ts st.1 i j = GoMap.getD st.1 (ts.getD i Node.nil) 0
  fresh : ∀ i, n < i → i < ts.length → GoMap.get? st.1 (ts.getD i Node.nil) = none ∧
    GoMap.get? st.2 (ts.getD i Node.nil) = none

/-- The graph A→B, A→C, B→D, C→D with all weights 1. -/
def tieGraph : Graph :=
  (((GraphNew.AddEdge nA nB []).AddEdge nA nC []).AddEdge nB nD []).AddEdge nC nD []

/-- The graph A→C, B→C with both weights 0. -/
def zeroTie : Graph := (GraphNew.AddEdge nA nC [0]).AddEdge nB nC [0]

/-! ## A model with references, for questions of sharing

In Go a map is a reference to a map object, and a slice is a header (backing array,
offset, length, capacity) into an array that other slices may share. The definitions
below repeat `GraphNew`, `AddEdge`, `RemoveEdge` and `Clone` on an explicit heap of map
objects and backing arrays. An address is an index into the list of objects of its kind;
allocation appends to the list. -/

/-- Address of a heap object. -/
abbrev Addr := Nat

/-- Go slice header of a `Nodes` value: backing array, offset into it, length and
capacity. -/
structure Slice where
  arr : Addr
  off : Nat
  len : Nat
  cap : Nat
  deriving DecidableEq, Repr

/-- Go nil slice (also what reading a missing key of `map[Node]Nodes` yields). -/
def Slice.nil : Slice := { arr := 0, off := 0, len := 0, cap := 0 }

/-- The heap: backing arrays of slices and the map objects of the four map types of the
package (`weightMaps` holds `map[Node]intMap` objects, whose values are references to
`intMap` objects). -/
structure Heap where
  arrays : List (List Node)
  nodeMaps : List NodeMap
  intMaps : List intMap
  edgeMaps : List (GoMap Slice)
  weightMaps : List (GoMap Addr)
  deriving DecidableEq, Repr

/-- The fields of a Go `Graph` struct as they are stored: references to map objects and
slice headers. -/
structure GraphRef where
  Nodes : Addr
  Source : Slice
  Sink : Slice
  Edges : Addr
  Weights : Addr
  InDegree : Addr
  OutDegree : Addr
  deriving DecidableEq, Repr

/-- Assignment to an element of the array store. -/
def Heap.setArray (σ : Heap) (a : Addr) (v : List Node) : Heap :=
  { σ with arrays := σ.arrays.set a v }

/-- Allocation of a backing array. -/
def Heap.allocArray (σ : Heap) (v : List Node) : Heap := { σ with arrays := σ.arrays ++ [v] }

/-- Update of a `NodeMap` object. -/
def Heap.setNodeMap (σ : Heap) (a : Addr) (m : NodeMap) : Heap :=
  { σ with nodeMaps := σ.nodeMaps.set a m }

/-- Allocation of a `NodeMap` object. -/
def Heap.allocNodeMap (σ : Heap) (m : NodeMap) : Heap := { σ with nodeMaps := σ.nodeMaps ++ [m] }

/-- Update of an `intMap` object. -/
def Heap.setIntMap (σ : Heap) (a : Addr) (m : intMap) : Heap :=
  { σ with intMaps := σ.intMaps.set a m }

/-- Allocation of an `intMap` object. -/
def Heap.allocIntMap (σ : Heap) (m : intMap) : Heap := { σ with intMaps := σ.intMaps ++ [m] }

/-- Update of a `map[Node]Nodes` object. -/
def Heap.setEdgeMap (σ : Heap) (a : Addr) (m : GoMap Slice) : Heap :=
  { σ with edgeMaps := σ.edgeMaps.set a m }

/-- Allocation of a `map[Node]Nodes` object. -/
def Heap.allocEdgeMap (σ : Heap) (m : GoMap Slice) : Heap :=
  { σ with edgeMaps := σ.edgeMaps ++ [m] }

/-- Update of a `map[Node]intMap` object. -/
def Heap.setWeightMap (σ : Heap) (a : Addr) (m : GoMap Addr) : Heap :=
  { σ with weightMaps := σ.weightMaps.set a m }

/-- Allocation of a `map[Node]intMap` object. -/
def Heap.allocWeightMap (σ : Heap) (m : GoMap Addr) : Heap :=
  { σ with weightMaps := σ.weightMaps ++ [m] }

/-- The elements of a slice. -/
def Heap.readSlice (σ : Heap) (s : Slice) : List Node :=
  ((σ.arrays.getD s.arr []).drop s.off).take s.len

/-- Go `append(s, x)`: writes into the backing array when the capacity allows, and
otherwise copies the elements into a new, larger array (`grow` is the spare capacity the
runtime adds). -/
def Heap.append (grow : Nat → Nat) (σ : Heap) (s : Slice) (x : Node) : Heap × Slice :=
  if s.len < s.cap then
    (σ.setArray s.arr ((σ.arrays.getD s.arr []).set (s.off + s.len) x),
      { s with len := s.len + 1 })
  else
    (σ.allocArray (σ.readSlice s ++ x :: List.replicate (grow s.len) Node.nil),
      { arr := σ.arrays.length, off := 0, len := s.len + 1, cap := s.len + 1 + grow s.len })

/-- Go `GraphNew` on the heap: five new empty maps and two empty slices. -/
def Heap.GraphNew (σ : Heap) : Heap × GraphRef :=
  (((((σ.allocNodeMap []).allocEdgeMap []).allocWeightMap []).allocIntMap []).allocIntMap [],
    { Nodes := σ.nodeMaps.length, Edges := σ.edgeMaps.length, Weights := σ.weightMaps.length,
      InDegree := σ.intMaps.length, OutDegree := σ.intMaps.length + 1,
      Source := Slice.nil, Sink := Slice.nil })

/-- The statements of `AddEdge` up to the update of the degree maps. -/
def Heap.addCounters (σ : Heap) (g : GraphRef) (src dst : Node) : Heap :=
  let σ1 := σ.setNodeMap g.Nodes
    (GoMap.set (GoMap.set (σ.nodeMaps.getD g.Nodes []) src true) dst true)
  let σ2 := σ1.setIntMap g.InDegree
    (GoMap.set (σ1.intMaps.getD g.InDegree []) dst
      (GoMap.getD (σ1.intMaps.getD g.InDegree []) dst 0 + 1))
  σ2.setIntMap g.OutDegree
    (GoMap.set (σ2.intMaps.getD g.OutDegree []) src
      (GoMap.getD (σ2.intMaps.getD g.OutDegree []) src 0 + 1))

/-- The statement `g.Edges[src] = append(g.Edges[src], dst)` of `AddEdge`. -/
def Heap.addToEdges (grow : Nat → Nat) (σ : Heap) (g : GraphRef) (src dst : Node) : Heap :=
  let r := σ.append grow (GoMap.getD (σ.edgeMaps.getD g.Edges []) src Slice.nil) dst
  r.1.setEdgeMap g.Edges (GoMap.set (r.1.edgeMaps.getD g.Edges []) src r.2)

/-- The weight part of `AddEdge`: a new inner map when `g.Weights[src]` is nil, an update
of the inner map otherwise. -/
def Heap.addWeight (σ : Heap) (g : GraphRef) (src dst : Node) (weight : Int) : Heap :=
  match GoMap.get? (σ.weightMaps.getD g.Weights []) src with
  | none =>
    (σ.allocIntMap [(dst, weight)]).setWeightMap g.Weights
      (GoMap.set (σ.weightMaps.getD g.Weights []) src σ.intMaps.length)
  | some a => σ.setIntMap a (GoMap.set (σ.intMaps.getD a []) dst weight)

/-- Go `AddEdge` on the heap. -/
def Heap.AddEdge (grow : Nat → Nat) (σ : Heap) (g : GraphRef) (src dst : Node)
    (opts : List Int) : Heap :=
  let weight : Int :=
    match opts with
    | [] => 1
    | w :: _ => w
  ((σ.addCounters g src dst).addToEdges grow g src dst).addWeight g src dst weight

/-- The statements of `RemoveEdge` that change the edge map: `Nodes.Remove` copies the
list into a new array, swaps and returns the slice `out[1:]` of that array, which is
stored under `src` (or the key is deleted). The second component is the panic, if any
(the heap then holds the new array and is otherwise as before). -/
def Heap.removeFromEdges (σ : Heap) (g : GraphRef) (src dst : Node) : Heap × Option Fault :=
  let n := σ.readSlice (GoMap.getD (σ.edgeMaps.getD g.Edges []) src Slice.nil)
  let out : List Node :=
    match firstIdx dst n with
    | some k => (n.set k (n.getD 0 Node.nil)).set 0 (n.getD k Node.nil)
    | none => n
  let σ1 := σ.allocArray out
  if out.length = 0 then (σ1, some Fault.sliceBounds)
  else
    let rest : Slice :=
      { arr := σ.arrays.length, off := 1, len := out.length - 1, cap := out.length - 1 }
    (σ1.setEdgeMap g.Edges
        (if rest.len = 0 then GoMap.del (σ1.edgeMaps.getD g.Edges []) src
         else GoMap.set (σ1.edgeMaps.getD g.Edges []) src rest),
      none)

/-- The statements `g.InDegree[dst]--` and `g.OutDegree[src]--` of `RemoveEdge`. -/
def Heap.subCounters (σ : Heap) (g : GraphRef) (src dst : Node) : Heap :=
  let σ1 := σ.setIntMap g.InDegree
    (GoMap.set (σ.intMaps.getD g.InDegree []) dst
      (GoMap.getD (σ.intMaps.getD g.InDegree []) dst 0 - 1))
  σ1.setIntMap g.OutDegree
    (GoMap.set (σ1.intMaps.getD g.OutDegree []) src
      (GoMap.getD (σ1.intMaps.getD g.OutDegree []) src 0 - 1))

/-- Go `RemoveEdge` on the heap. -/
def Heap.RemoveEdge (σ : Heap) (g : GraphRef) (src dst : Node) : Heap × Option Fault :=
  match σ.removeFromEdges g src dst with
  | (σ1, some f) => (σ1, some f)
  | (σ1, none) => (σ1.subCounters g src dst, none)

/-- Go `(n Nodes) Clone()` on the heap: `make` a new array of the length of `n` and copy. -/
def Heap.cloneSlice (σ : Heap) (s : Slice) : Heap × Slice :=
  (σ.allocArray (σ.readSlice s),
    { arr := σ.arrays.length, off := 0, len := s.len, cap := s.len })

/-- The loop of `EdgesClone`: every adjacency list is cloned into a new array. -/
def Heap.cloneEdges (σ : Heap) : GoMap Slice → Heap × GoMap Slice
  | [] => (σ, [])
  | (k, s) :: m =>
    let r := σ.cloneSlice s
    let r2 := Heap.cloneEdges r.1 m
    (r2.1, (k, r.2) :: r2.2)

/-- The loop of `WeightsClone`: every inner map is cloned into a new map object. -/
def Heap.cloneWeights (σ : Heap) : GoMap Addr → Heap × GoMap Addr
  | [] => (σ, [])
  | (k, a) :: m =>
    let r2 := Heap.cloneWeights (σ.allocIntMap (intMap.Clone (σ.intMaps.getD a []))) m
    (r2.1, (k, σ.intMaps.length) :: r2.2)

/-- Go `NodesClone` on the heap: a new map object with the same entries. -/
def Heap.NodesClone (σ : Heap) (g : GraphRef) : Heap × Addr :=
  (σ.allocNodeMap (σ.nodeMaps.getD g.Nodes []), σ.nodeMaps.length)

/-- Go `EdgesClone` on the heap: a new map object whose adjacency lists are clones. -/
def Heap.EdgesClone (σ : Heap) (g : GraphRef) : Heap × Addr :=
  let e := Heap.cloneEdges σ (σ.edgeMaps.getD g.Edges [])
  (e.1.allocEdgeMap e.2, e.1.edgeMaps.length)

/-- Go `WeightsClone` on the heap: a new map object whose inner maps are clones. -/
def Heap.WeightsClone (σ : Heap) (g : GraphRef) : Heap × Addr :=
  let w := Heap.cloneWeights σ (σ.weightMaps.getD g.Weights [])
  (w.1.allocWeightMap w.2, w.1.weightMaps.length)

/-- Go `InDegreeClone` on the heap. -/
def Heap.InDegreeClone (σ : Heap) (g : GraphRef) : Heap × Addr :=
  (σ.allocIntMap (σ.intMaps.getD g.InDegree []), σ.intMaps.length)

/-- Go `OutDegreeClone` on the heap. -/
def Heap.OutDegreeClone (σ : Heap) (g : GraphRef) : Heap × Addr :=
  (σ.allocIntMap (σ.intMaps.getD g.OutDegree []), σ.intMaps.length)

/-- Go `Clone` on the heap: `GraphNew`, then every field is replaced by a clone in a new
object (the map objects that `GraphNew` made are dropped). -/
def Heap.Clone (σ : Heap) (g : GraphRef) : Heap × GraphRef :=
  let r0 := σ.GraphNew
  let n := r0.1.NodesClone g
  let e := n.1.EdgesClone g
  let w := e.1.WeightsClone g
  let i := w.1.InDegreeClone g
  let o := i.1.OutDegreeClone g
  let so := o.1.cloneSlice g.Source
  let si := so.1.cloneSlice g.Sink
  (si.1,
    { Nodes := n.2, Edges := e.2, Weights := w.2, InDegree := i.2, OutDegree := o.2,
      Source := so.2, Sink := si.2 })

/-- Runs a list of mutating calls (first call first) on the graph `g`; a panic ends the
run. -/
def Heap.run (grow : Nat → Nat) (σ : Heap) (g : GraphRef) : List Op → Heap
  | [] => σ
  | Op.add src dst opts :: ops => Heap.run grow (σ.AddEdge grow g src dst opts) g ops
  | Op.remove src dst :: ops =>
    match σ.RemoveEdge g src dst with
    | (σ1, none) => Heap.run grow σ1 g ops
    | (σ1, some _) => σ1

/-- The content of the graph behind `g`: what the methods of the package read. -/
def Heap.content (σ : Heap) (g : GraphRef) : Graph :=
  { Nodes := σ.nodeMaps.getD g.Nodes []
    Source := σ.readSlice g.Source
    Sink := σ.readSlice g.Sink
    Edges := (σ.edgeMaps.getD g.Edges []).map (fun kv => (kv.1, σ.readSlice kv.2))
    Weights := (σ.weightMaps.getD g.Weights []).map (fun kv => (kv.1, σ.intMaps.getD kv.2 []))
    InDegree := σ.intMaps.getD g.InDegree []
    OutDegree := σ.intMaps.getD g.OutDegree [] }

/-- Addresses of the `intMap` objects reachable from `g`. -/
def Heap.intsOf (σ : Heap) (g : GraphRef) : List Addr :=
  g.InDegree :: g.OutDegree :: (σ.weightMaps.getD g.Weights []).map (fun kv => kv.2)

/-- Addresses of the backing arrays of the adjacency lists of `g`. -/
def Heap.arrsOf (σ : Heap) (g : GraphRef) : List Addr :=
  (σ.edgeMaps.getD g.Edges []).map (fun kv => kv.2.arr)

/-- Every reference reachable from `g` points to an allocated object. -/
def Heap.Valid (σ : Heap) (g : GraphRef) : Prop :=
  g.Nodes < σ.nodeMaps.length ∧ g.Edges < σ.edgeMaps.length ∧
    g.Weights < σ.weightMaps.length ∧ (∀ a ∈ σ.intsOf g, a < σ.intMaps.length) ∧
    (∀ a ∈ σ.arrsOf g, a < σ.arrays.length)

/-- The objects reachable from `t` and from `o` are different objects. -/
def Heap.Disjoint (σ : Heap) (t o : GraphRef) : Prop :=
  t.Nodes ≠ o.Nodes ∧ t.Edges ≠ o.Edges ∧ t.Weights ≠ o.Weights ∧
    (∀ a ∈ σ.intsOf t, a ∉ σ.intsOf o) ∧ (∀ a ∈ σ.arrsOf t, a ∉ σ.arrsOf o)

/-- The objects reachable from `o` are the same in both heaps. -/
def Heap.Same (σ σ1 : Heap) (o : GraphRef) : Prop :=
  σ1.nodeMaps.getD o.Nodes [] = σ.nodeMaps.getD o.Nodes [] ∧
    σ1.edgeMaps.getD o.Edges [] = σ.edgeMaps.getD o.Edges [] ∧
    σ1.weightMaps.getD o.Weights [] = σ.weightMaps.getD o.Weights [] ∧
    (∀ a ∈ σ.intsOf o, σ1.intMaps.getD a [] = σ.intMaps.getD a []) ∧
    (∀ a ∈ σ.arrsOf o, σ1.arrays.getD a [] = σ.arrays.getD a [])

/-- The heap grows: no object is deallocated. -/
def Heap.Le (σ σ1 : Heap) : Prop :=
  σ.arrays.length ≤ σ1.arrays.length ∧ σ.nodeMaps.length ≤ σ1.nodeMaps.length ∧
    σ.intMaps.length ≤ σ1.intMaps.length ∧ σ.edgeMaps.length ≤ σ1.edgeMaps.length ∧
    σ.weightMaps.length ≤ σ1.weightMaps.length

/-- The empty heap. -/
def Heap.empty : Heap :=
  { arrays := [], nodeMaps := [], intMaps := [], edgeMaps := [], weightMaps := [] }

/-- Every store of `σ1` starts with the objects of `σ`: the step from `σ` to `σ1` only
allocates. -/
def Heap.Extends (σ σ1 : Heap) : Prop :=
  (∃ t, σ1.arrays = σ.arrays ++ t) ∧ (∃ t, σ1.nodeMaps = σ.nodeMaps ++ t) ∧
    (∃ t, σ1.intMaps = σ.intMaps ++ t) ∧ (∃ t, σ1.edgeMaps = σ.edgeMaps ++ t) ∧
    (∃ t, σ1.weightMaps = σ.weightMaps ++ t)

/-- The step from `σ` to `σ1` is a mutation through `t`: it writes only to objects
reachable from `t` and to new objects, and whatever is reachable from `t` afterwards was
reachable before or is new. -/
structure Heap.Mutates (σ σ1 : Heap) (t : GraphRef) : Prop where
  le : σ.Le σ1
  nodes : ∀ a, a ≠ t.Nodes → σ1.nodeMaps.getD a [] = σ.nodeMaps.getD a []
  edges : ∀ a, a ≠ t.Edges → σ1.edgeMaps.getD a [] = σ.edgeMaps.getD a []
  weights : ∀ a, a ≠ t.Weights → σ1.weightMaps.getD a [] = σ.weightMaps.getD a []
  ints : ∀ a, a < σ.intMaps.length → a ∉ σ.intsOf t →
    σ1.intMaps.getD a [] = σ.intMaps.getD a []
  arrs : ∀ a, a < σ.arrays.length → a ∉ σ.arrsOf t →
    σ1.arrays.getD a [] = σ.arrays.getD a []
  intsNew : ∀ a ∈ σ1.intsOf t, a ∈ σ.intsOf t ∨ σ.intMaps.length ≤ a
  arrsNew : ∀ a ∈ σ1.arrsOf t, a ∈ σ.arrsOf t ∨ σ.arrays.length ≤ a

/-- What the frame argument needs of a graph `o` that is observed while `t` is mutated:
the objects of `o` are allocated and none of them is reachable from `t`. -/
structure Heap.Frame (σ : Heap) (t o : GraphRef) : Prop where
  ints : ∀ a ∈ σ.intsOf o, a < σ.intMaps.length
  arrs : ∀ a ∈ σ.arrsOf o, a < σ.arrays.length
  disjoint : σ.Disjoint t o

/-- The growth policy of the examples: `append` on a full slice of length `n` leaves
room for `n + 1` more elements. -/
def growExample (n : Nat) : Nat := n + 1

/-- A heap with one graph, built by `GraphNew` and two calls of `AddEdge`; the second
call appends in place. -/
def heapTwo : Heap × GraphRef :=
  ((Heap.empty.GraphNew.1.AddEdge growExample Heap.empty.GraphNew.2 nA nB [2]).AddEdge
      growExample Heap.empty.GraphNew.2 nA nC [1],
    Heap.empty.GraphNew.2)

/-- The clone of the graph of `heapTwo`. -/
def cloneTwo : Heap × GraphRef := heapTwo.1.Clone heapTwo.2

/-- A run of calls: one appends to an existing list, one removes, one adds a new key. -/
def opsExample : List Op := [Op.add nA nD [3], Op.remove nA nB, Op.add nB nC []]

/-- The integer `x` is a value of Go `int` on a 64 bit platform. -/
def InRange64 (x : Int) : Prop := -2 ^ 63 ≤ x ∧ x < 2 ^ 63

/-- No sum of stored weights along a directed path of `g` leaves the 64 bit range. -/
def NoOverflow (g : Graph) : Prop :=
  ∀ p : List Node, List.Chain' (Edge g) p → InRange64 (pathWeight g p)

/-- The graph A→B (1), A→C (5), C→B (5), B→D (9223372036854775802). -/
def heavyEnd : Graph :=
  (((GraphNew.AddEdge nA nB [1]).AddEdge nA nC [5]).AddEdge nC nB [5]).AddEdge nB nD
    [9223372036854775802]

/-- The graph A→B (9223372036854775807), B→C (0). -/
def heavyChain : Graph := (GraphNew.AddEdge nA nB [9223372036854775807]).AddEdge nB nC [0]

/-- Go `s[i]`: the element at position `i` of a slice (no bounds check in the model). -/
def Heap.index (σ : Heap) (s : Slice) (i : Nat) : Node :=
  (σ.arrays.getD s.arr []).getD (s.off + i) Node.nil

/-- Go `s[1:]` on a slice header. -/
def Slice.tail (s : Slice) : Slice :=
  { s with off := s.off + 1, len := s.len - 1, cap := s.cap - 1 }

/-- Body of the loop of `ComputeSourceAndSink` for the node `n`; the state is the heap
and the slices `g.Source` and `g.Sink`. -/
def Heap.sourceSinkStep (grow : Nat → Nat) (g : GraphRef) (st : Heap × Slice × Slice)
    (n : Node) : Heap × Slice × Slice :=
  let r1 : Heap × Slice :=
    if GoMap.getD (st.1.intMaps.getD g.InDegree []) n 0 = 0 then st.1.append grow st.2.1 n
    else (st.1, st.2.1)
  let r2 : Heap × Slice :=
    if GoMap.getD (r1.1.intMaps.getD g.OutDegree []) n 0 = 0 then r1.1.append grow st.2.2 n
    else (r1.1, st.2.2)
  (r2.1, r1.2, r2.2)

/-- Go `ComputeSourceAndSink` on the heap: `g.Source` and `g.Sink` start as `Nodes{}` (no
capacity) and grow by `append`; `it` is the order in which `range g.Nodes` visits the
keys. -/
def Heap.ComputeSourceAndSink (grow : Nat → Nat) (σ : Heap) (g : GraphRef) (it : List Node) :
    Heap × GraphRef :=
  let r := it.foldl (Heap.sourceSinkStep grow g) (σ, Slice.nil, Slice.nil)
  (r.1, { g with Source := r.2.1, Sink := r.2.2 })

/-- Inner loop of `TopoSort` on the heap: `for _, m := range g.Edges[n]`, where `e` is the
slice header `g.Edges[n]` (evaluated once), `c` the number of positions still to visit
and `k` the next position; the elements are read from the heap as the loop goes. -/
def Heap.topoInner (grow : Nat → Nat) (h : GraphRef) (n : Node) (e : Slice) :
    Nat → Nat → Heap → Slice → Heap × Slice × Option Fault
  | 0, _, σ, s => (σ, s, none)
  | c + 1, k, σ, s =>
    match σ.RemoveEdge h n (σ.index e k) with
    | (σ1, some f) => (σ1, s, some f)
    | (σ1, none) =>
      let r : Heap × Slice :=
        if GoMap.getD (σ1.intMaps.getD h.InDegree []) (σ.index e k) 0 = 0 then
          σ1.append grow s (σ.index e k)
        else (σ1, s)
      Heap.topoInner grow h n e c (k + 1) r.1 r.2

/-- Outer loop of `TopoSort` on the heap: `for len(s) > 0`; `fuel` bounds the number of
passes that are run. -/
def Heap.topoLoop (grow : Nat → Nat) (g h : GraphRef) :
    Nat → Heap → Slice → Slice → Heap × Except Fault Slice
  | 0, σ, s, ts => if s.len = 0 then (σ, Except.ok ts) else (σ, Except.error Fault.outOfFuel)
  | fuel + 1, σ, s, ts =>
    if s.len = 0 then (σ, Except.ok ts)
    else
      let a := σ.append grow ts (σ.index s 0)
      let e := GoMap.getD (a.1.edgeMaps.getD g.Edges []) (σ.index s 0) Slice.nil
      match Heap.topoInner grow h (σ.index s 0) e e.len 0 a.1 s.tail with
      | (σ1, _, some f) => (σ1, Except.error f)
      | (σ1, s1, none) => Heap.topoLoop grow g h fuel σ1 s1 a.2

/-- Go `TopoSort` on the heap. The components of the result are the heap after the call,
the receiver after the call (its fields `Source` and `Sink` are assigned) and the returned
slice or the panic. The working copy `h` is a local variable of the call. -/
def Heap.TopoSort (grow : Nat → Nat) (σ : Heap) (g : GraphRef) (it : List Node) (fuel : Nat) :
    Heap × GraphRef × Except Fault Slice :=
  let c := σ.Clone g
  let cs := c.1.ComputeSourceAndSink grow g it
  let s := cs.1.cloneSlice cs.2.Source
  let r := Heap.topoLoop grow cs.2 c.2 fuel s.1 s.2 Slice.nil
  (r.1, cs.2,
    match r.2 with
    | Except.error f => Except.error f
    | Except.ok ts =>
      if (r.1.edgeMaps.getD c.2.Edges []).length > 0 then Except.error Fault.notDAG
      else Except.ok ts)

/-- An `append` to the slice `s` does not write to an array of the heap `σ0`: the slice
has no spare capacity, or its backing array was allocated after `σ0`. -/
def Slice.Fresh (σ0 : Heap) (s : Slice) : Prop := s.cap ≤ s.len ∨ σ0.arrays.length ≤ s.arr

/-- A heap with the graph `diamond`, built by `GraphNew` and four calls of `AddEdge`. -/
def heapDiamond : Heap × GraphRef :=
  ((((Heap.empty.GraphNew.1.AddEdge growExample Heap.empty.GraphNew.2 nA nB [2]).AddEdge
      growExample Heap.empty.GraphNew.2 nB nD [3]).AddEdge
      growExample Heap.empty.GraphNew.2 nA nC [1]).AddEdge
      growExample Heap.empty.GraphNew.2 nC nD [5],
    Heap.empty.GraphNew.2)

/-- A heap with the graph `twoCycle`, built by `GraphNew` and two calls of `AddEdge`. -/
def heapCycle : Heap × GraphRef :=
  ((Heap.empty.GraphNew.1.AddEdge growExample Heap.empty.GraphNew.2 nA nB []).AddEdge
      growExample Heap.empty.GraphNew.2 nB nA [],
    Heap.empty.GraphNew.2)

/-! ## Association-list maps -/

namespace GoMap

variable {ν : Type}

theorem get?_set (m : GoMap ν) (k x : Node) (v : ν) :
    get? (set m k v) x = if k = x then some v else get? m x := by
  induction m with
  | nil => simp [set, get?]
  | cons p m ih =>
    obtain ⟨k0, u⟩ := p
    by_cases h : k0 = k
    · subst h
      by_cases hx : k0 = x <;> simp [set, get?, hx]
    · by_cases hx : k0 = x
      · subst hx
        have hk : ¬ k = k0 := fun e => h e.symm
        simp [set, get?, h, hk]
      · simp [set, get?, h, hx, ih]

theorem get?_del (m : GoMap ν) (k x : Node) :
    get? (del m k) x = if k = x then none else get? m x := by
  induction m with
  | nil => simp [del, get?]
  | cons p m ih =>
    obtain ⟨k0, u⟩ := p
    by_cases h : k0 = k
    · subst h
      by_cases hx : k0 = x
      · subst hx
        simp [del, ih]
      · simp [del, get?, hx, ih]
    · by_cases hx : k0 = x
      · subst hx
        have hk : ¬ k = k0 := fun e => h e.symm
        simp [del, get?, h, hk]
      · simp [del, get?, h, hx, ih]

theorem getD_set (m : GoMap ν) (k x : Node) (v d : ν) :
    getD (set m k v) x d = if k = x then v else getD m x d := by
  unfold getD
  rw [get?_set]
  by_cases h : k = x <;> simp [h]

theorem getD_del (m : GoMap ν) (k x : Node) (d : ν) :
    getD (del m k) x d = if k = x then d else getD m x d := by
  unfold getD
  rw [get?_del]
  by_cases h : k = x <;> simp [h]

theorem mem_of_get? {m : GoMap ν} {k : Node} {v : ν} (h : get? m k = some v) :
    (k, v) ∈ m := by
  induction m with
  | nil => simp [get?] at h
  | cons p m ih =>
    obtain ⟨k0, u⟩ := p
    by_cases hk : k0 = k
    · subst hk
      simp [get?] at h
      simp [h]
    · simp [get?, hk] at h
      exact List.mem_cons_of_mem _ (ih h)

theorem get?_of_mem {m : GoMap ν} {k : Node} {v : ν} (hn : (keys m).Nodup)
    (h : (k, v) ∈ m) : get? m k = some v := by
  induction m with
  | nil => simp at h
  | cons p m ih =>
    obtain ⟨k0, u⟩ := p
    simp only [keys, List.map_cons, List.nodup_cons] at hn
    rcases List.mem_cons.1 h with e | e
    · cases e
      simp [get?]
    · have hk : k0 ≠ k := by
        intro e'
        subst e'
        exact hn.1 (List.mem_map_of_mem Prod.fst e)
      simp only [get?, hk, if_false]
      exact ih hn.2 e

theorem get?_eq_none_iff {m : GoMap ν} {k : Node} : get? m k = none ↔ k ∉ keys m := by
  induction m with
  | nil => simp [get?, keys]
  | cons p m ih =>
    obtain ⟨k0, u⟩ := p
    by_cases hk : k0 = k
    · simp [get?, keys, hk]
    · have hk2 : ¬ k = k0 := fun e => hk e.symm
      simp only [get?, hk, if_false, ih, keys, List.map_cons, List.mem_cons, hk2, false_or]

theorem mem_keys_iff {m : GoMap ν} {k : Node} : k ∈ keys m ↔ ∃ v, get? m k = some v := by
  rw [← not_iff_not, ← get?_eq_none_iff]
  cases get? m k <;> simp

theorem mem_keys_set {m : GoMap ν} {k x : Node} {v : ν} :
    x ∈ keys (set m k v) ↔ x = k ∨ x ∈ keys m := by
  rw [mem_keys_iff, mem_keys_iff, get?_set]
  by_cases h : k = x
  · simp [h]
  · have h2 : ¬ x = k := fun e => h e.symm
    simp [h, h2]

theorem mem_keys_del {m : GoMap ν} {k x : Node} :
    x ∈ keys (del m k) ↔ x ≠ k ∧ x ∈ keys m := by
  rw [mem_keys_iff, mem_keys_iff, get?_del]
  by_cases h : k = x
  · simp [h]
  · have h2 : ¬ x = k := fun e => h e.symm
    simp [h, h2]

theorem nodup_keys_set {m : GoMap ν} (k : Node) (v : ν) (hn : (keys m).Nodup) :
    (keys (set m k v)).Nodup := by
  induction m with
  | nil => simp [set, keys]
  | cons p m ih =>
    obtain ⟨k0, u⟩ := p
    have hn0 : k0 ∉ keys m ∧ (keys m).Nodup := by
      simpa [keys] using hn
    by_cases h : k0 = k
    · subst h
      simpa [set, keys] using hn
    · have h1 : k0 ∉ keys (set m k v) := by
        rw [mem_keys_set]
        simp [h, hn0.1]
      have h2 := ih hn0.2
      simp only [set, h, if_false, keys, List.map_cons, List.nodup_cons]
      exact ⟨h1, h2⟩

theorem nodup_keys_del {m : GoMap ν} (k : Node) (hn : (keys m).Nodup) :
    (keys (del m k)).Nodup := by
  induction m with
  | nil => simp [del, keys]
  | cons p m ih =>
    obtain ⟨k0, u⟩ := p
    have hn0 : k0 ∉ keys m ∧ (keys m).Nodup := by
      simpa [keys] using hn
    by_cases h : k0 = k
    · simpa [del, h] using ih hn0.2
    · have h1 : k0 ∉ keys (del m k) := by
        rw [mem_keys_del]
        simp [hn0.1]
      have h2 := ih hn0.2
      simp only [del, h, if_false, keys, List.map_cons, List.nodup_cons]
      exact ⟨h1, h2⟩

theorem mem_set {m : GoMap ν} {k : Node} {v : ν} {p : Node × ν} (h : p ∈ set m k v) :
    p = (k, v) ∨ p ∈ m := by
  induction m with
  | nil => simpa [set] using h
  | cons q m ih =>
    obtain ⟨k0, u⟩ := q
    by_cases hk : k0 = k
    · simp only [set, hk, if_true, List.mem_cons] at h
      rcases h with h | h
      · exact Or.inl h
      · exact Or.inr (List.mem_cons_of_mem _ h)
    · simp only [set, hk, if_false, List.mem_cons] at h
      rcases h with h | h
      · exact Or.inr (by simp [h])
      · rcases ih h with h | h
        · exact Or.inl h
        · exact Or.inr (List.mem_cons_of_mem _ h)

theorem mem_del {m : GoMap ν} {k : Node} {p : Node × ν} (h : p ∈ del m k) : p ∈ m := by
  induction m with
  | nil => simp [del] at h
  | cons q m ih =>
    obtain ⟨k0, u⟩ := q
    by_cases hk : k0 = k
    · simp only [del, hk, if_true] at h
      exact List.mem_cons_of_mem _ (ih h)
    · simp only [del, hk, if_false, List.mem_cons] at h
      rcases h with h | h
      · simp [h]
      · exact List.mem_cons_of_mem _ (ih h)

end GoMap

/-! ## Sums over the adjacency lists of an edge map -/

theorem edgeCount_eq_wsum (e : GoMap (List Node)) : edgeCount e = wsum List.length e := rfl

theorem wsum_set (f : List Node → Nat) (hf : f [] = 0) (e : GoMap (List Node)) (k : Node)
    (l : List Node) : wsum f (GoMap.set e k l) + f (GoMap.getD e k []) = wsum f e + f l := by
  induction e with
  | nil => simp [GoMap.set, GoMap.getD, GoMap.get?, wsum, hf]
  | cons p e ih =>
    obtain ⟨k0, u⟩ := p
    by_cases h : k0 = k
    · simp only [GoMap.set, GoMap.getD, GoMap.get?, wsum, h, if_true, List.map_cons, List.sum_cons]
      omega
    · simp only [GoMap.set, GoMap.getD, GoMap.get?, wsum, h, if_false, List.map_cons,
        List.sum_cons] at ih ⊢
      omega

theorem wsum_del (f : List Node → Nat) (hf : f [] = 0) (e : GoMap (List Node)) (k : Node)
    (hn : (GoMap.keys e).Nodup) : wsum f (GoMap.del e k) + f (GoMap.getD e k []) = wsum f e := by
  induction e with
  | nil => simp [GoMap.del, GoMap.getD, GoMap.get?, wsum, hf]
  | cons p e ih =>
    obtain ⟨k0, u⟩ := p
    have hn0 : k0 ∉ GoMap.keys e ∧ (GoMap.keys e).Nodup := by
      simpa [GoMap.keys] using hn
    by_cases h : k0 = k
    · subst h
      have h1 := ih hn0.2
      have h2 : GoMap.get? e k0 = none := GoMap.get?_eq_none_iff.2 hn0.1
      simp only [GoMap.getD, h2] at h1
      simp only [GoMap.del, GoMap.getD, GoMap.get?, wsum, if_true, List.map_cons,
        List.sum_cons] at h1 ⊢
      omega
    · have h1 := ih hn0.2
      simp only [GoMap.del, GoMap.getD, GoMap.get?, wsum, h, if_false, List.map_cons,
        List.sum_cons] at h1 ⊢
      omega

theorem wsum_pos_of_mem (f : List Node → Nat) {e : GoMap (List Node)} {k : Node}
    {l : List Node} (h : (k, l) ∈ e) (hl : 0 < f l) : 0 < wsum f e := by
  induction e with
  | nil => simp at h
  | cons p e ih =>
    rcases List.mem_cons.1 h with h1 | h1
    · subst h1
      simp only [wsum, List.map_cons, List.sum_cons]
      omega
    · have := ih h1
      simp only [wsum, List.map_cons, List.sum_cons] at this ⊢
      omega

theorem exists_mem_of_wsum_pos (f : List Node → Nat) {e : GoMap (List Node)}
    (h : 0 < wsum f e) : ∃ kv ∈ e, 0 < f kv.2 := by
  induction e with
  | nil => simp [wsum] at h
  | cons p e ih =>
    simp only [wsum, List.map_cons, List.sum_cons] at h
    by_cases hp : 0 < f p.2
    · exact ⟨p, List.mem_cons_self _ _, hp⟩
    · have h2 : 0 < wsum f e := by
        simp only [wsum]
        omega
      obtain ⟨kv, hkv, hpos⟩ := ih h2
      exact ⟨kv, List.mem_cons_of_mem _ hkv, hpos⟩

theorem occ_pos_of_edge {e : GoMap (List Node)} {u v : Node}
    (h : v ∈ GoMap.getD e u []) : 0 < occ e v := by
  unfold GoMap.getD at h
  cases hg : GoMap.get? e u with
  | none => simp [hg] at h
  | some l =>
    simp only [hg] at h
    exact wsum_pos_of_mem _ (GoMap.mem_of_get? hg) (List.count_pos_iff.2 h)

theorem edge_of_occ_pos {e : GoMap (List Node)} {v : Node} (hn : (GoMap.keys e).Nodup)
    (h : 0 < occ e v) : ∃ u, v ∈ GoMap.getD e u [] := by
  obtain ⟨kv, hkv, hpos⟩ := exists_mem_of_wsum_pos _ h
  obtain ⟨k, l⟩ := kv
  refine ⟨k, ?_⟩
  have hg := GoMap.get?_of_mem hn hkv
  simp only [GoMap.getD, hg]
  exact List.count_pos_iff.1 hpos

/-! ## `Nodes.Remove` -/

theorem firstIdx_none {node : Node} {n : List Node} :
    firstIdx node n = none ↔ node ∉ n := by
  induction n with
  | nil => simp [firstIdx]
  | cons v n ih =>
    by_cases h : v = node
    · simp [firstIdx, h]
    · have h2 : ¬ node = v := fun e => h e.symm
      simp [firstIdx, h, h2, ih]

theorem firstIdx_some {node : Node} {n : List Node} {k : Nat}
    (h : firstIdx node n = some k) : n[k]? = some node ∧ node ∉ n.take k := by
  induction n generalizing k with
  | nil => simp [firstIdx] at h
  | cons v n ih =>
    by_cases hv : v = node
    · simp only [firstIdx, hv, if_true, Option.some.injEq] at h
      subst h
      simp [hv]
    · simp only [firstIdx, hv, if_false, Option.map_eq_some'] at h
      obtain ⟨j, hj, rfl⟩ := h
      have := ih hj
      have h2 : ¬ node = v := fun e => hv e.symm
      simp [this.1, this.2, h2]

/-- Removing a node that occurs in the list: the result is the list without one
occurrence of the node, up to the order of the elements. -/
theorem Remove_of_mem {n : List Node} {node : Node} (h : node ∈ n) :
    ∃ rest, Nodes.Remove n node = Except.ok rest ∧ rest.Perm (n.erase node) := by
  cases n with
  | nil => simp at h
  | cons v t =>
    by_cases hv : v = node
    · subst hv
      refine ⟨t, ?_, ?_⟩
      · simp [Nodes.Remove, firstIdx]
      · simp
    · have hmem : node ∈ t := by
        rcases List.mem_cons.1 h with e | e
        · exact absurd e.symm hv
        · exact e
      cases hi : firstIdx node t with
      | none => exact absurd hmem (firstIdx_none.1 hi)
      | some j =>
        obtain ⟨hj, hnot⟩ := firstIdx_some hi
        refine ⟨t.set j v, ?_, ?_⟩
        · simp [Nodes.Remove, firstIdx, hv, hi]
        · have hne : ¬ (v == node) = true := by simpa using hv
          rw [List.erase_cons_tail hne]
          have hjlt : j < t.length := by
            by_contra hge
            have : t[j]? = none := List.getElem?_eq_none (by omega)
            rw [this] at hj
            cases hj
          have ht : t = t.take j ++ node :: t.drop (j + 1) := by
            have hget : t[j] = node := by
              have := List.getElem?_eq_getElem hjlt
              rw [this] at hj
              exact Option.some.inj hj
            conv_lhs => rw [← List.take_append_drop j t]
            rw [List.drop_eq_getElem_cons hjlt, hget]
          have hlen : (t.take j).length = j := by
            simp [List.length_take]; omega
          have hset : t.set j v = t.take j ++ v :: t.drop (j + 1) := by
            conv_lhs => rw [ht]
            rw [List.set_append_right _ _ (by omega)]
            simp [hlen]
          have herase : t.erase node = t.take j ++ t.drop (j + 1) := by
            conv_lhs => rw [ht]
            rw [List.erase_append_right _ hnot]
            simp
          rw [hset, herase]
          exact List.perm_middle

/-- Removing a node that does not occur in a non-empty list drops the first element. -/
theorem Remove_of_not_mem {v : Node} {t : List Node} {node : Node} (h : node ∉ v :: t) :
    Nodes.Remove (v :: t) node = Except.ok t := by
  have hi : firstIdx node (v :: t) = none := firstIdx_none.2 h
  simp [Nodes.Remove, hi]

theorem Remove_nil (node : Node) : Nodes.Remove [] node = Except.error Fault.sliceBounds := rfl

/-- Whenever `Nodes.Remove` returns, the result is one element shorter. -/
theorem Remove_length {n rest : List Node} {node : Node}
    (h : Nodes.Remove n node = Except.ok rest) : rest.length + 1 = n.length := by
  by_cases hm : node ∈ n
  · obtain ⟨r, hr, hp⟩ := Remove_of_mem hm
    rw [hr] at h
    cases h
    rw [hp.length_eq, List.length_erase_of_mem hm]
    have : 0 < n.length := List.length_pos_of_mem hm
    omega
  · cases n with
    | nil => simp [Remove_nil] at h
    | cons v t =>
      rw [Remove_of_not_mem hm] at h
      cases h
      simp

/-! ## Well-formed graphs and their invariant -/

theorem HasEdge_iff (g : Graph) (u v : Node) : g.HasEdge u v = true ↔ Edge g u v := by
  simp [Graph.HasEdge, Edge]

theorem getD_eq_nil_iff {h : Graph} (hok : EdgesOK h) (n : Node) :
    GoMap.getD h.Edges n [] = [] ↔ GoMap.get? h.Edges n = none := by
  constructor
  · intro hd
    cases hg : GoMap.get? h.Edges n with
    | none => rfl
    | some l =>
      simp only [GoMap.getD, hg] at hd
      exact absurd hd (hok.nonempty _ (GoMap.mem_of_get? hg))
  · intro hg
    simp [GoMap.getD, hg]

/-- What `RemoveEdge` does when the edge is present. -/
theorem RemoveEdge_spec {h : Graph} {n m : Node} (hok : EdgesOK h) (he : Edge h n m) :
    ∃ h1, h.RemoveEdge n m = Except.ok h1 ∧ EdgesOK h1 ∧
      (GoMap.getD h1.Edges n []).Perm ((GoMap.getD h.Edges n []).erase m) ∧
      (∀ k, k ≠ n → GoMap.get? h1.Edges k = GoMap.get? h.Edges k) ∧
      (∀ x, GoMap.getD h1.InDegree x 0 = GoMap.getD h.InDegree x 0 - if x = m then 1 else 0) ∧
      (∀ x, GoMap.getD h1.OutDegree x 0 = GoMap.getD h.OutDegree x 0 - if x = n then 1 else 0) ∧
      edgeCount h1.Edges + 1 = edgeCount h.Edges ∧
      h1.Nodes = h.Nodes ∧ h1.Weights = h.Weights ∧ h1.Source = h.Source ∧ h1.Sink = h.Sink := by
  obtain ⟨rest, hrest, hperm⟩ := Remove_of_mem he
  have hlen := Remove_length hrest
  refine ⟨{ h with
      Edges := if rest.length = 0 then GoMap.del h.Edges n else GoMap.set h.Edges n rest
      InDegree := GoMap.set h.InDegree m (GoMap.getD h.InDegree m 0 - 1)
      OutDegree := GoMap.set h.OutDegree n (GoMap.getD h.OutDegree n 0 - 1) },
    by simp only [Graph.RemoveEdge, hrest], ?_, ?_, ?_, ?_, ?_, ?_, rfl, rfl, rfl, rfl⟩
  · -- EdgesOK
    have hsum : ∀ f : List Node → Nat, f [] = 0 →
        wsum f (if rest.length = 0 then GoMap.del h.Edges n else GoMap.set h.Edges n rest)
          + f (GoMap.getD h.Edges n []) = wsum f h.Edges + f rest := by
      intro f hf
      by_cases hr : rest.length = 0
      · have hnil : rest = [] := List.length_eq_zero.1 hr
        simp only [hr, if_true, hnil, hf, Nat.add_zero]
        exact wsum_del f hf _ _ hok.nodupKeys
      · simp only [hr, if_false]
        exact wsum_set f hf _ _ _
    constructor
    · by_cases hr : rest.length = 0
      · simp only [hr, if_true]
        exact GoMap.nodup_keys_del _ hok.nodupKeys
      · simp only [hr, if_false]
        exact GoMap.nodup_keys_set _ _ hok.nodupKeys
    · intro kv hkv
      by_cases hr : rest.length = 0
      · simp only [hr, if_true] at hkv
        exact hok.nonempty _ (GoMap.mem_del hkv)
      · simp only [hr, if_false] at hkv
        rcases GoMap.mem_set hkv with e | e
        · subst e
          intro hnil
          have hnil2 : rest = [] := hnil
          exact hr (by simp [hnil2])
        · exact hok.nonempty _ e
    · intro x
      have hs := hsum (fun l => l.count x) (by simp)
      simp only [] at hs
      have hc : rest.count x = ((GoMap.getD h.Edges n []).erase m).count x := hperm.count_eq x
      have hi := hok.indeg x
      simp only [occ] at hi ⊢
      by_cases hx : m = x
      · subst hx
        rw [List.count_erase_self] at hc
        have hpos : 0 < (GoMap.getD h.Edges n []).count m := List.count_pos_iff.2 he
        rw [GoMap.getD_set, if_pos rfl]
        omega
      · rw [List.count_erase_of_ne (fun e => hx e.symm)] at hc
        rw [GoMap.getD_set, if_neg hx]
        omega
  · -- adjacency list of n
    by_cases hr : rest.length = 0
    · have hnil : rest = [] := List.length_eq_zero.1 hr
      simp only [hr, if_true, GoMap.getD_del]
      rw [hnil] at hperm
      exact hperm
    · simp only [hr, if_false, GoMap.getD_set, if_true]
      exact hperm
  · intro k hk
    have hk2 : ¬ n = k := fun e => hk e.symm
    by_cases hr : rest.length = 0
    · simp only [hr, if_true, GoMap.get?_del, hk2, if_false]
    · simp only [hr, if_false, GoMap.get?_set, hk2]
  · intro x
    rw [GoMap.getD_set]
    by_cases hx : m = x
    · subst hx
      simp
    · have hx2 : ¬ x = m := fun e => hx e.symm
      simp [hx, hx2]
  · intro x
    rw [GoMap.getD_set]
    by_cases hx : n = x
    · subst hx
      simp
    · have hx2 : ¬ x = n := fun e => hx e.symm
      simp [hx, hx2]
  · have hl : (GoMap.getD h.Edges n []).length = rest.length + 1 := hlen.symm
    by_cases hr : rest.length = 0
    · have hs := wsum_del List.length rfl h.Edges n hok.nodupKeys
      simp only [hr, if_true, edgeCount_eq_wsum]
      omega
    · have hs := wsum_set List.length rfl h.Edges n rest
      simp only [hr, if_false, edgeCount_eq_wsum]
      omega

theorem getD_congr {ν : Type} {a b : GoMap ν} {k : Node} (d : ν)
    (h : GoMap.get? a k = GoMap.get? b k) : GoMap.getD a k d = GoMap.getD b k d := by
  simp only [GoMap.getD, h]

theorem Inv_GraphNew : Inv GraphNew := by
  refine ⟨⟨?_, ?_, ?_⟩, ?_, ?_, ?_⟩
  · simp [GraphNew, GoMap.keys]
  · simp [GraphNew]
  · intro m
    simp [GraphNew, GoMap.getD, GoMap.get?, occ, wsum]
  · intro m
    simp [GraphNew, GoMap.getD, GoMap.get?]
  · simp [GraphNew, GoMap.keys]
  · intro u v h
    simp [Edge, GraphNew, GoMap.getD, GoMap.get?] at h

theorem AddEdge_Edges (g : Graph) (src dst : Node) (opts : List Int) :
    (g.AddEdge src dst opts).Edges
      = GoMap.set g.Edges src (GoMap.getD g.Edges src [] ++ [dst]) := rfl

theorem AddEdge_Nodes (g : Graph) (src dst : Node) (opts : List Int) :
    (g.AddEdge src dst opts).Nodes = GoMap.set (GoMap.set g.Nodes src true) dst true := rfl

theorem AddEdge_InDegree (g : Graph) (src dst : Node) (opts : List Int) :
    (g.AddEdge src dst opts).InDegree
      = GoMap.set g.InDegree dst (GoMap.getD g.InDegree dst 0 + 1) := rfl

theorem AddEdge_OutDegree (g : Graph) (src dst : Node) (opts : List Int) :
    (g.AddEdge src dst opts).OutDegree
      = GoMap.set g.OutDegree src (GoMap.getD g.OutDegree src 0 + 1) := rfl

theorem Inv_AddEdge {g : Graph} (hg : Inv g) (src dst : Node) (opts : List Int) :
    Inv (g.AddEdge src dst opts) := by
  refine ⟨⟨?_, ?_, ?_⟩, ?_, ?_, ?_⟩
  · rw [AddEdge_Edges]
    exact GoMap.nodup_keys_set _ _ hg.edgesOK.nodupKeys
  · intro kv hkv
    rw [AddEdge_Edges] at hkv
    rcases GoMap.mem_set hkv with e | e
    · subst e
      simp
    · exact hg.edgesOK.nonempty _ e
  · intro x
    rw [AddEdge_Edges, AddEdge_InDegree, GoMap.getD_set]
    have hs := wsum_set (fun l => l.count x) (by simp) g.Edges src
      (GoMap.getD g.Edges src [] ++ [dst])
    have hi := hg.edgesOK.indeg
    simp only [occ, List.count_append, List.count_singleton] at hs hi ⊢
    by_cases hx : dst = x
    · subst hx
      simp only [if_true, hi, beq_self_eq_true] at hs ⊢
      omega
    · have hx2 : (dst == x) = false := by simpa using hx
      simp only [hx, if_false, hi, hx2, Bool.false_eq_true] at hs ⊢
      have := hi x
      omega
  · intro x
    rw [AddEdge_Edges, AddEdge_OutDegree, GoMap.getD_set, GoMap.getD_set]
    by_cases hx : src = x
    · subst hx
      simp [hg.outdeg]
    · simp [hx, hg.outdeg]
  · rw [AddEdge_Nodes]
    exact GoMap.nodup_keys_set _ _ (GoMap.nodup_keys_set _ _ hg.nodupNodes)
  · intro u v he
    simp only [Edge, AddEdge_Edges, GoMap.getD_set] at he
    simp only [AddEdge_Nodes, GoMap.mem_keys_set]
    by_cases hx : src = u
    · subst hx
      simp only [if_true, List.mem_append, List.mem_singleton] at he
      rcases he with he | he
      · have := hg.closed src v he
        exact ⟨Or.inr (Or.inl rfl), Or.inr (Or.inr this.2)⟩
      · exact ⟨Or.inr (Or.inl rfl), Or.inl he⟩
    · simp only [hx, if_false] at he
      have := hg.closed u v he
      exact ⟨Or.inr (Or.inr this.1), Or.inr (Or.inr this.2)⟩

theorem Inv_RemoveEdge {g g1 : Graph} (hg : Inv g) {src dst : Node} (he : Edge g src dst)
    (hr : g.RemoveEdge src dst = Except.ok g1) : Inv g1 := by
  obtain ⟨h1, h1eq, hok, hperm, hother, _, hout, _, hnodes, _, _, _⟩ :=
    RemoveEdge_spec hg.edgesOK he
  rw [h1eq] at hr
  cases hr
  have hsub : ∀ u v, Edge g1 u v → Edge g u v := by
    intro u v huv
    by_cases hu : u = src
    · subst hu
      exact List.mem_of_mem_erase (hperm.subset huv)
    · have := getD_congr [] (hother u hu)
      simp only [Edge] at huv ⊢
      rw [← this]
      exact huv
  refine ⟨hok, ?_, ?_, ?_⟩
  · intro x
    rw [hout, hg.outdeg]
    by_cases hx : x = src
    · subst hx
      have h1 := hperm.length_eq
      rw [List.length_erase_of_mem he] at h1
      have h2 : 0 < (GoMap.getD g.Edges x []).length := List.length_pos_of_mem he
      simp only [if_true, h1]
      omega
    · simp [hx, getD_congr [] (hother x hx)]
  · rw [hnodes]
    exact hg.nodupNodes
  · intro u v huv
    rw [hnodes]
    exact hg.closed u v (hsub u v huv)

/-- Every well-formed graph satisfies the invariant. -/
theorem WellFormed.inv {g : Graph} (h : WellFormed g) : Inv g := by
  induction h with
  | new => exact Inv_GraphNew
  | addEdge src dst opts _ ih => exact Inv_AddEdge ih src dst opts
  | removeEdge src dst _ he hr ih => exact Inv_RemoveEdge ih ((HasEdge_iff _ _ _).1 he) hr

/-- A clone has the same content as the graph it was made from. -/
theorem Clone_eq (g : Graph) : g.Clone = g := by
  have hid : ∀ {ν : Type} (m : GoMap ν), m.map (fun kv => (kv.1, kv.2)) = m := by
    intro ν m
    induction m with
    | nil => rfl
    | cons p m ih => simp
  cases g
  simp [Graph.Clone, Graph.NodesClone, Graph.EdgesClone, Graph.WeightsClone,
    Graph.InDegreeClone, Graph.OutDegreeClone, Graph.SourceClone, Graph.SinkClone,
    Nodes.Clone, intMap.Clone]

/-! ## The loops of `TopoSort` -/

theorem topoInner_spec (g : Graph) (n : Node) (ms : List Node) :
    ∀ (h : Graph) (s ts : List Node), KahnIn g h n ms s ts →
      (∀ m ∈ ms, m ∈ GoMap.keys g.Nodes) →
      ∃ h1 s1, topoInner n ms h s = Except.ok (h1, s1) ∧ KahnIn g h1 n [] s1 ts ∧
        edgeCount h1.Edges + s1.length ≤ edgeCount h.Edges + s.length := by
  induction ms with
  | nil =>
    intro h s ts hk _
    exact ⟨h, s, rfl, hk, le_refl _⟩
  | cons m ms ih =>
    intro h s ts hk hms
    have hmem : Edge h n m := hk.cur.symm.subset (List.mem_cons_self _ _)
    obtain ⟨h1, h1eq, hok1, hperm, hother, hin, _, hcount, _, _, _, _⟩ :=
      RemoveEdge_spec hk.ok hmem
    have hmnodes : m ∈ GoMap.keys g.Nodes := hms m (List.mem_cons_self _ _)
    have hpos : GoMap.getD h.InDegree m 0 ≠ 0 := by
      rw [hk.ok.indeg]
      have := occ_pos_of_edge hmem
      omega
    have hnotin : m ∉ ts ++ s := fun hin2 => hpos ((hk.ready m hmnodes).1 hin2)
    have hstep : KahnIn g h1 n ms
        (if GoMap.getD h1.InDegree m 0 = 0 then s ++ [m] else s) ts := by
      refine ⟨hok1, ?_, hk.mem, ?_, ?_, ?_, ?_, ?_, hk.order⟩
      · split
        · rw [← List.append_assoc]
          refine List.Nodup.append hk.nodup (List.nodup_singleton m) ?_
          intro x hx1 hx2
          rw [List.mem_singleton] at hx2
          subst hx2
          exact hnotin hx1
        · exact hk.nodup
      · intro k hk1 hk2
        rw [hother k hk2]
        exact hk.done k hk1 hk2
      · have h2 := (hk.cur.erase m)
        rw [List.erase_cons_head] at h2
        exact hperm.trans h2
      · intro k hk1
        have hkn : k ≠ n := fun e => hk1 (e ▸ hk.mem)
        rw [hother k hkn]
        exact hk.rest k hk1
      · intro x hx
        rw [hin x]
        by_cases hxm : x = m
        · subst hxm
          simp only [if_true]
          split
          · rename_i h0
            rw [hin x] at h0
            simp only [if_true] at h0
            simp [h0]
          · rename_i h0
            rw [hin x] at h0
            simp only [if_true] at h0
            constructor
            · intro hc
              exact absurd hc hnotin
            · intro hc
              exact absurd hc h0
        · simp only [hxm, if_false, sub_zero]
          rw [← hk.ready x hx]
          split
          · simp [hxm]
          · rfl
      · intro x hx
        split at hx
        · rw [← List.append_assoc, List.mem_append, List.mem_singleton] at hx
          rcases hx with hx | hx
          · exact hk.sub x hx
          · rw [hx]
            exact hmnodes
        · exact hk.sub x hx
    obtain ⟨h2, s2, h2eq, hk2, hle⟩ := ih h1 _ ts hstep
      (fun x hx => hms x (List.mem_cons_of_mem _ hx))
    refine ⟨h2, s2, ?_, hk2, ?_⟩
    · simp only [topoInner, h1eq]
      exact h2eq
    · have : (if GoMap.getD h1.InDegree m 0 = 0 then s ++ [m] else s).length ≤ s.length + 1 := by
        split <;> simp
      omega

theorem KahnIn.finish {g h : Graph} {n : Node} {s ts : List Node}
    (hk : KahnIn g h n [] s ts) : Kahn g h s ts := by
  refine ⟨hk.ok, hk.nodup, ?_, hk.rest, hk.ready, hk.sub, hk.order⟩
  intro k hk1
  by_cases hkn : k = n
  · subst hkn
    exact (getD_eq_nil_iff hk.ok k).1 (List.Perm.eq_nil hk.cur)
  · exact hk.done k hk1 hkn

theorem Kahn.start {g h : Graph} {n : Node} {s ts : List Node}
    (hk : Kahn g h (n :: s) ts) :
    KahnIn g h n (GoMap.getD g.Edges n []) s (ts ++ [n]) := by
  have hnd : (ts ++ n :: s).Nodup := hk.nodup
  have hn_notin : n ∉ ts := by
    intro hin
    have := List.nodup_append.1 hnd
    exact this.2.2 hin (List.mem_cons_self _ _)
  have hmemeq : ∀ x, x ∈ (ts ++ [n]) ++ s ↔ x ∈ ts ++ n :: s := by
    intro x
    simp
  refine ⟨hk.ok, ?_, by simp, ?_, ?_, ?_, ?_, ?_, ?_⟩
  · simpa using hnd
  · intro k hk1 hk2
    rcases List.mem_append.1 hk1 with h1 | h1
    · exact hk.done k h1
    · exact absurd (List.mem_singleton.1 h1) hk2
  · rw [getD_congr [] (hk.rest n hn_notin)]
  · intro k hk1
    exact hk.rest k (fun hin => hk1 (List.mem_append_left _ hin))
  · intro m hm
    rw [hmemeq]
    exact hk.ready m hm
  · intro m hm
    exact hk.sub m ((hmemeq m).1 hm)
  · intro u v huv hv
    rcases List.mem_append.1 hv with h1 | h1
    · obtain ⟨a, b, hab, hu⟩ := hk.order u v huv h1
      exact ⟨a, b ++ [n], by rw [hab]; simp, hu⟩
    · rw [List.mem_singleton] at h1
      subst h1
      refine ⟨ts, [], rfl, ?_⟩
      by_contra hu
      have hv_nodes : v ∈ GoMap.keys g.Nodes := hk.sub v (by simp)
      have h0 : GoMap.getD h.InDegree v 0 = 0 := (hk.ready v hv_nodes).1 (by simp)
      rw [hk.ok.indeg] at h0
      have hedge : Edge h u v := by
        simp only [Edge] at huv ⊢
        rw [getD_congr [] (hk.rest u hu)]
        exact huv
      have := occ_pos_of_edge hedge
      omega

theorem topoLoop_spec (g : Graph) (hg : Inv g) :
    ∀ (fuel : Nat) (h : Graph) (s ts : List Node), Kahn g h s ts →
      edgeCount h.Edges + s.length ≤ fuel →
      ∃ h1 ts1, topoLoop g fuel h s ts = Except.ok (h1, ts1) ∧ Kahn g h1 [] ts1 := by
  intro fuel
  induction fuel with
  | zero =>
    intro h s ts hk hf
    have hs : s = [] := List.length_eq_zero.1 (by omega)
    subst hs
    exact ⟨h, ts, by simp [topoLoop], hk⟩
  | succ fuel ih =>
    intro h s ts hk hf
    cases s with
    | nil => exact ⟨h, ts, by simp [topoLoop], hk⟩
    | cons n s =>
      have hin := hk.start
      obtain ⟨h1, s1, h1eq, hk1, hle⟩ := topoInner_spec g n _ h s _ hin
        (fun m hm => (hg.closed n m hm).2)
      simp only [List.length_cons] at hf
      obtain ⟨h2, ts2, h2eq, hk2⟩ := ih h1 s1 _ hk1.finish (by omega)
      refine ⟨h2, ts2, ?_, hk2⟩
      simp only [topoLoop, h1eq]
      exact h2eq

/-! ## The iteration budget of `TopoSort` is never used up -/

theorem RemoveEdge_error {h : Graph} {n m : Node} {f : Fault}
    (hr : h.RemoveEdge n m = Except.error f) : f = Fault.sliceBounds := by
  unfold Graph.RemoveEdge at hr
  cases hl : GoMap.getD h.Edges n [] with
  | nil =>
    rw [hl, Remove_nil] at hr
    cases hr
    rfl
  | cons v t =>
    rw [hl] at hr
    by_cases hm : m ∈ v :: t
    · obtain ⟨rest, hrest, _⟩ := Remove_of_mem hm
      rw [hrest] at hr
      cases hr
    · rw [Remove_of_not_mem hm] at hr
      cases hr

theorem RemoveEdge_edgeCount {h h1 : Graph} {n m : Node} (hn : (GoMap.keys h.Edges).Nodup)
    (hr : h.RemoveEdge n m = Except.ok h1) :
    (GoMap.keys h1.Edges).Nodup ∧ edgeCount h1.Edges + 1 = edgeCount h.Edges := by
  unfold Graph.RemoveEdge at hr
  cases hrem : Nodes.Remove (GoMap.getD h.Edges n []) m with
  | error f =>
    rw [hrem] at hr
    cases hr
  | ok rest =>
    rw [hrem] at hr
    cases hr
    have hlen := Remove_length hrem
    by_cases h0 : rest.length = 0
    · have hs := wsum_del List.length rfl h.Edges n hn
      simp only [h0, if_true, edgeCount_eq_wsum]
      exact ⟨GoMap.nodup_keys_del _ hn, by omega⟩
    · have hs := wsum_set List.length rfl h.Edges n rest
      simp only [h0, if_false, edgeCount_eq_wsum]
      exact ⟨GoMap.nodup_keys_set _ _ hn, by omega⟩

theorem topoInner_budget (n : Node) (ms : List Node) :
    ∀ (h : Graph) (s : List Node), (GoMap.keys h.Edges).Nodup →
      (∀ f, topoInner n ms h s = Except.error f → f = Fault.sliceBounds) ∧
      (∀ h1 s1, topoInner n ms h s = Except.ok (h1, s1) →
        (GoMap.keys h1.Edges).Nodup ∧
          edgeCount h1.Edges + s1.length ≤ edgeCount h.Edges + s.length) := by
  induction ms with
  | nil =>
    intro h s hn
    constructor
    · intro f hf
      cases hf
    · intro h1 s1 hr
      cases hr
      exact ⟨hn, le_refl _⟩
  | cons m ms ih =>
    intro h s hn
    simp only [topoInner]
    cases hr : h.RemoveEdge n m with
    | error f0 =>
      constructor
      · intro f hf
        cases hf
        exact RemoveEdge_error hr
      · intro h1 s1 hf
        cases hf
    | ok h0 =>
      obtain ⟨hn0, hc0⟩ := RemoveEdge_edgeCount hn hr
      have hih := ih h0 (if GoMap.getD h0.InDegree m 0 = 0 then s ++ [m] else s) hn0
      have hlen : (if GoMap.getD h0.InDegree m 0 = 0 then s ++ [m] else s).length
          ≤ s.length + 1 := by
        split <;> simp
      constructor
      · exact hih.1
      · intro h1 s1 hf
        obtain ⟨hn1, hc1⟩ := hih.2 h1 s1 hf
        exact ⟨hn1, by omega⟩

theorem topoLoop_budget (g : Graph) :
    ∀ (fuel : Nat) (h : Graph) (s ts : List Node), (GoMap.keys h.Edges).Nodup →
      edgeCount h.Edges + s.length ≤ fuel →
      topoLoop g fuel h s ts ≠ Except.error Fault.outOfFuel := by
  intro fuel
  induction fuel with
  | zero =>
    intro h s ts _ hf
    have hs : s = [] := List.length_eq_zero.1 (by omega)
    subst hs
    simp [topoLoop]
  | succ fuel ih =>
    intro h s ts hn hf
    cases s with
    | nil => simp [topoLoop]
    | cons n s =>
      simp only [topoLoop]
      have hb := topoInner_budget n (GoMap.getD g.Edges n []) h s hn
      cases hr : topoInner n (GoMap.getD g.Edges n []) h s with
      | error f =>
        have := hb.1 f hr
        subst this
        simp
      | ok r =>
        obtain ⟨h1, s1⟩ := r
        obtain ⟨hn1, hc1⟩ := hb.2 h1 s1 hr
        simp only [List.length_cons] at hf
        exact ih h1 s1 _ hn1 (by omega)

/-- In every graph whose edge map has one entry per key (every Go map has), the
iteration budget of the model of `TopoSort` is not used up: the loop of `TopoSort` stops. -/
theorem TopoSort_budget (g : Graph) (it : List Node) (hn : (GoMap.keys g.Edges).Nodup) :
    (g.TopoSort it).2 ≠ Except.error Fault.outOfFuel := by
  have h := topoLoop_budget (g.ComputeSourceAndSink it)
    ((g.ComputeSourceAndSink it).SourceClone.length + edgeCount (g.ComputeSourceAndSink it).Edges)
    g.Clone (g.ComputeSourceAndSink it).SourceClone []
    (by rw [Clone_eq]; exact hn)
    (by rw [Clone_eq]; exact le_of_eq (Nat.add_comm _ _))
  simp only [Graph.TopoSort]
  cases hr : topoLoop (g.ComputeSourceAndSink it)
      ((g.ComputeSourceAndSink it).SourceClone.length + edgeCount (g.ComputeSourceAndSink it).Edges)
      g.Clone (g.ComputeSourceAndSink it).SourceClone [] with
  | error f =>
    rw [hr] at h
    simpa using h
  | ok r =>
    obtain ⟨h1, ts⟩ := r
    simp only []
    split <;> simp

/-! ## Cycles -/

/-- In a finite non-empty set of nodes in which every node has a predecessor inside
the set, the relation has a cycle. -/
theorem exists_cycle_of_pred_closed {α : Type} (r : α → α → Prop) (R : List α)
    (hne : R ≠ []) (hpred : ∀ x ∈ R, ∃ u ∈ R, r u x) : ∃ x, Relation.TransGen r x x := by
  by_contra hno
  have hirr : ∀ x, ¬ Relation.TransGen r x x := fun x hx => hno ⟨x, hx⟩
  let S := { x : α // x ∈ R }
  let r1 : S → S → Prop := fun a b => Relation.TransGen r a.1 b.1
  haveI : Finite S := List.finite_toSet R
  haveI : IsTrans S r1 := ⟨fun a b c hab hbc => Relation.TransGen.trans hab hbc⟩
  haveI : IsIrrefl S r1 := ⟨fun a ha => hirr a.1 ha⟩
  have hwf : WellFounded r1 := Finite.wellFounded_of_trans_of_irrefl r1
  obtain ⟨x0, hx0⟩ := List.exists_mem_of_ne_nil R hne
  obtain ⟨a, _, hmin⟩ := hwf.has_min Set.univ ⟨⟨x0, hx0⟩, trivial⟩
  obtain ⟨u, hu, hua⟩ := hpred a.1 a.2
  exact hmin ⟨u, hu⟩ trivial (Relation.TransGen.single hua)

theorem Forward.transGen {g : Graph} {ts : List Node} (hf : Forward g ts) {u v : Node}
    (h : Relation.TransGen (Edge g) u v) : ts.indexOf u < ts.indexOf v := by
  induction h with
  | single h1 => exact hf _ _ h1
  | tail _ h2 ih => exact lt_trans ih (hf _ _ h2)

theorem Forward.acyclic {g : Graph} {ts : List Node} (hf : Forward g ts) : Acyclic g := by
  rintro ⟨u, hu⟩
  exact lt_irrefl _ (hf.transGen hu)

/-! ## `TopoSort` on graphs that satisfy the invariant -/

theorem Inv.computeSourceAndSink {g : Graph} (hg : Inv g) (it : List Node) :
    Inv (g.ComputeSourceAndSink it) :=
  ⟨⟨hg.edgesOK.nodupKeys, hg.edgesOK.nonempty, hg.edgesOK.indeg⟩, hg.outdeg, hg.nodupNodes,
    hg.closed⟩

/-- The state in which the outer loop of `TopoSort` starts satisfies the loop invariant. -/
theorem TopoSort_start {g : Graph} {it : List Node} (hg : Inv g)
    (hit : it.Perm (GoMap.keys g.Nodes)) :
    Kahn (g.ComputeSourceAndSink it) g.Clone (g.ComputeSourceAndSink it).SourceClone [] := by
  rw [Clone_eq]
  have hsrc : (g.ComputeSourceAndSink it).SourceClone
      = it.filter (fun n => decide (GoMap.getD g.InDegree n 0 = 0)) := by
    simp [Graph.SourceClone, Graph.ComputeSourceAndSink]
  rw [hsrc]
  refine ⟨hg.edgesOK, ?_, ?_, ?_, ?_, ?_, ?_⟩
  · simp only [List.nil_append]
    exact (hit.nodup_iff.2 hg.nodupNodes).filter _
  · intro n hn
    simp at hn
  · intro n _
    rfl
  · intro m hm
    have hm2 : m ∈ it := hit.mem_iff.2 hm
    simp [List.mem_filter, hm2]
  · intro m hm
    simp only [List.nil_append, List.mem_filter] at hm
    exact hit.mem_iff.1 hm.1
  · intro u v _ hv
    simp at hv

/-- On a graph that satisfies the invariant the loops of `TopoSort` run to the end:
no edge removal fails and the iteration budget is not used up. -/
theorem TopoSort_run {g : Graph} {it : List Node} (hg : Inv g)
    (hit : it.Perm (GoMap.keys g.Nodes)) :
    ∃ h1 ts, (g.TopoSort it).2
        = (if h1.Edges.length > 0 then Except.error Fault.notDAG else Except.ok ts) ∧
      Kahn (g.ComputeSourceAndSink it) h1 [] ts := by
  have hg1 := hg.computeSourceAndSink it
  have hstart : Kahn (g.ComputeSourceAndSink it) g.Clone
      (g.ComputeSourceAndSink it).SourceClone [] := TopoSort_start hg hit
  have hfuel : edgeCount g.Clone.Edges + (g.ComputeSourceAndSink it).SourceClone.length
      ≤ (g.ComputeSourceAndSink it).SourceClone.length
        + edgeCount (g.ComputeSourceAndSink it).Edges := by
    rw [Clone_eq]
    exact le_of_eq (Nat.add_comm _ _)
  obtain ⟨h1, ts, heq, hk⟩ := topoLoop_spec _ hg1 _ _ _ _ hstart hfuel
  refine ⟨h1, ts, ?_, hk⟩
  simp only [Graph.TopoSort, heq]

theorem Kahn.forward {g h : Graph} {ts : List Node} (hg : Inv g) (hk : Kahn g h [] ts)
    (hall : ∀ m ∈ GoMap.keys g.Nodes, m ∈ ts) : Forward g ts := by
  intro u v huv
  have hv : v ∈ ts := hall v (hg.closed u v huv).2
  obtain ⟨a, b, hab, hu⟩ := hk.order u v huv hv
  have hnd : ts.Nodup := by simpa using hk.nodup
  rw [hab] at hnd ⊢
  have hva : v ∉ a := by
    intro hva
    have := (List.nodup_append.1 hnd).2.2 hva (List.mem_cons_self _ _)
    exact this
  rw [List.indexOf_append_of_mem hu, List.indexOf_append_of_not_mem hva,
    List.indexOf_cons_self]
  have := List.indexOf_lt_length.2 hu
  omega

theorem Kahn.all_of_no_edges {g h : Graph} {ts : List Node} (hk : Kahn g h [] ts)
    (he : h.Edges = []) : ∀ m ∈ GoMap.keys g.Nodes, m ∈ ts := by
  intro m hm
  have h0 : GoMap.getD h.InDegree m 0 = 0 := by
    rw [hk.ok.indeg, he]
    simp [occ, wsum]
  simpa using (hk.ready m hm).2 h0

theorem Kahn.perm {g h : Graph} {ts : List Node} (hg : Inv g) (hk : Kahn g h [] ts)
    (hall : ∀ m ∈ GoMap.keys g.Nodes, m ∈ ts) : ts.Perm (GoMap.keys g.Nodes) := by
  have hnd : ts.Nodup := by simpa using hk.nodup
  refine (List.perm_ext_iff_of_nodup hnd hg.nodupNodes).2 ?_
  intro m
  exact ⟨fun hm => hk.sub m (by simpa using hm), hall m⟩

/-- When edges are left in the working copy after the queue has emptied, the graph
has a cycle. -/
theorem Kahn.cyclic {g h : Graph} {ts : List Node} (hg : Inv g) (hk : Kahn g h [] ts)
    (he : h.Edges ≠ []) : Cyclic g := by
  -- the nodes that were never put out
  have hrest : ∀ u v, Edge h u v → u ∉ ts ∧ v ∉ ts ∧ Edge g u v := by
    intro u v huv
    have hu : u ∉ ts := by
      intro hu
      have := hk.done u hu
      simp [Edge, GoMap.getD, this] at huv
    have hguv : Edge g u v := by
      simp only [Edge] at huv ⊢
      rw [← getD_congr [] (hk.rest u hu)]
      exact huv
    refine ⟨hu, ?_, hguv⟩
    intro hv
    have h0 := (hk.ready v (hg.closed u v hguv).2).1 (by simpa using hv)
    rw [hk.ok.indeg] at h0
    have := occ_pos_of_edge huv
    omega
  let R := (GoMap.keys g.Nodes).filter (fun x => decide (x ∉ ts))
  have hR : ∀ x, x ∈ R ↔ x ∈ GoMap.keys g.Nodes ∧ x ∉ ts := by
    intro x
    simp [R, List.mem_filter]
  have hne : R ≠ [] := by
    cases hE : h.Edges with
    | nil => exact absurd hE he
    | cons p e =>
      obtain ⟨k, l⟩ := p
      have hl : l ≠ [] := hk.ok.nonempty (k, l) (by rw [hE]; exact List.mem_cons_self _ _)
      obtain ⟨v, hv⟩ := List.exists_mem_of_ne_nil l hl
      have hkv : Edge h k v := by
        simp only [Edge, GoMap.getD, hE, GoMap.get?, if_true]
        exact hv
      obtain ⟨hk1, _, hk3⟩ := hrest k v hkv
      exact List.ne_nil_of_mem ((hR k).2 ⟨(hg.closed k v hk3).1, hk1⟩)
  apply exists_cycle_of_pred_closed (Edge g) R hne
  intro x hx
  obtain ⟨hx1, hx2⟩ := (hR x).1 hx
  have hpos : 0 < occ h.Edges x := by
    have h0 : GoMap.getD h.InDegree x 0 ≠ 0 := fun h0 =>
      hx2 (by simpa using (hk.ready x hx1).2 h0)
    rw [hk.ok.indeg] at h0
    omega
  obtain ⟨u, hu⟩ := edge_of_occ_pos hk.ok.nodupKeys hpos
  obtain ⟨hu1, _, hu3⟩ := hrest u x hu
  exact ⟨u, (hR u).2 ⟨(hg.closed u x hu3).1, hu1⟩, hu3⟩

/-- On a well-formed graph `TopoSort` either returns an order in which every node
occurs once and every edge points forward, or panics with "Not a DAG" on a graph
that has a cycle. -/
theorem TopoSort_cases {g : Graph} {it : List Node} (hwf : WellFormed g)
    (hit : it.Perm (GoMap.keys g.Nodes)) :
    (∃ ts, (g.TopoSort it).2 = Except.ok ts ∧ ts.Perm (GoMap.keys g.Nodes) ∧ Forward g ts) ∨
    ((g.TopoSort it).2 = Except.error Fault.notDAG ∧ Cyclic g) := by
  have hg := hwf.inv
  have hg1 := hg.computeSourceAndSink it
  obtain ⟨h1, ts, heq, hk⟩ := TopoSort_run hg hit
  by_cases he : h1.Edges = []
  · left
    have hall := hk.all_of_no_edges he
    have hperm := Kahn.perm hg1 hk hall
    have hfw := Kahn.forward hg1 hk hall
    refine ⟨ts, ?_, hperm, hfw⟩
    rw [heq]
    simp [he]
  · right
    have hcyc := Kahn.cyclic hg1 hk he
    refine ⟨?_, hcyc⟩
    rw [heq]
    have : 0 < h1.Edges.length := List.length_pos.2 he
    simp [this]

theorem diamond_wf : WellFormed diamond :=
  WellFormed.addEdge _ _ _ (WellFormed.addEdge _ _ _ (WellFormed.addEdge _ _ _
    (WellFormed.addEdge _ _ _ WellFormed.new)))

theorem twoCycle_wf : WellFormed twoCycle :=
  WellFormed.addEdge _ _ _ (WellFormed.addEdge _ _ _ WellFormed.new)

theorem twoCycle_cyclic : Cyclic twoCycle :=
  ⟨nA, Relation.TransGen.tail
    (Relation.TransGen.single ((HasEdge_iff twoCycle nA nB).1 rfl))
    ((HasEdge_iff twoCycle nB nA).1 rfl)⟩

/-- C1: on a well-formed graph on which `TopoSort` returns, the returned sequence
is a permutation of the node set (every node exactly once, so its length is the number
of nodes), and for every edge `u → v` of the graph `u` stands at a strictly smaller index
than `v`. -/
theorem TopoSort_permutation_and_order (g : Graph) (it ts : List Node)
    (hwf : WellFormed g) (hit : it.Perm (GoMap.keys g.Nodes))
    (hret : (g.TopoSort it).2 = Except.ok ts) :
    ts.Perm (GoMap.keys g.Nodes) ∧ ts.Nodup ∧ (∀ n, n ∈ ts ↔ n ∈ GoMap.keys g.Nodes) ∧
      ts.length = (GoMap.keys g.Nodes).length ∧
      ∀ u v, g.HasEdge u v = true → ts.indexOf u < ts.indexOf v := by
  rcases TopoSort_cases hwf hit with ⟨ts1, h1, hperm, hfw⟩ | ⟨h1, _⟩
  · rw [h1] at hret
    cases hret
    refine ⟨hperm, hperm.nodup_iff.2 hwf.inv.nodupNodes, fun n => hperm.mem_iff, hperm.length_eq, ?_⟩
    intro u v huv
    exact hfw u v ((HasEdge_iff g u v).1 huv)
  · rw [h1] at hret
    cases hret

theorem TopoSort_permutation_and_order_witness :
    (WellFormed diamond ∧ [nA, nB, nD, nC].Perm (GoMap.keys diamond.Nodes) ∧
      (diamond.TopoSort [nA, nB, nD, nC]).2 = Except.ok [nA, nB, nC, nD]) ∧
    ([nA, nB, nC, nD].Perm (GoMap.keys diamond.Nodes) ∧ [nA, nB, nC, nD].Nodup ∧
      (∀ n, n ∈ [nA, nB, nC, nD] ↔ n ∈ GoMap.keys diamond.Nodes) ∧
      [nA, nB, nC, nD].length = (GoMap.keys diamond.Nodes).length ∧
      ∀ u v, diamond.HasEdge u v = true →
        [nA, nB, nC, nD].indexOf u < [nA, nB, nC, nD].indexOf v) :=
  ⟨⟨diamond_wf, List.Perm.refl _, rfl⟩,
    TopoSort_permutation_and_order diamond [nA, nB, nD, nC] [nA, nB, nC, nD] diamond_wf
      (List.Perm.refl _) rfl⟩

/-- C2: on a graph built by `AddEdge` calls (more generally, on every well-formed
graph) that contains a directed cycle, a self-loop included, `TopoSort` does not return
a node sequence: it fails with the "Not a DAG" panic. -/
theorem TopoSort_cycle_fails (g : Graph) (it : List Node) (hwf : WellFormed g)
    (hit : it.Perm (GoMap.keys g.Nodes)) (hcyc : Cyclic g) :
    (g.TopoSort it).2 = Except.error Fault.notDAG := by
  rcases TopoSort_cases hwf hit with ⟨ts1, _, _, hfw⟩ | ⟨h1, _⟩
  · exact absurd hcyc hfw.acyclic
  · exact h1

theorem TopoSort_cycle_fails_witness :
    (WellFormed twoCycle ∧ [nB, nA].Perm (GoMap.keys twoCycle.Nodes) ∧ Cyclic twoCycle) ∧
      (twoCycle.TopoSort [nB, nA]).2 = Except.error Fault.notDAG :=
  ⟨⟨twoCycle_wf, by decide, twoCycle_cyclic⟩,
    TopoSort_cycle_fails twoCycle [nB, nA] twoCycle_wf (by decide) twoCycle_cyclic⟩

/-- C3: on a well-formed graph `TopoSort` fails only on cyclic input: every
failure is the "Not a DAG" panic and the graph then contains a directed cycle, and on an
acyclic graph `TopoSort` returns an order. -/
theorem TopoSort_fails_only_on_cycle (g : Graph) (it : List Node) (hwf : WellFormed g)
    (hit : it.Perm (GoMap.keys g.Nodes)) :
    (∀ f, (g.TopoSort it).2 = Except.error f → f = Fault.notDAG ∧ Cyclic g) ∧
      (Acyclic g → ∃ ts, (g.TopoSort it).2 = Except.ok ts) := by
  rcases TopoSort_cases hwf hit with ⟨ts1, h1, _, _⟩ | ⟨h1, hc⟩
  · refine ⟨?_, fun _ => ⟨ts1, h1⟩⟩
    intro f hf
    rw [h1] at hf
    cases hf
  · refine ⟨?_, fun ha => absurd hc ha⟩
    intro f hf
    rw [h1] at hf
    cases hf
    exact ⟨rfl, hc⟩

theorem diamond_acyclic : Acyclic diamond := by
  rcases @TopoSort_cases diamond [nA, nB, nD, nC] diamond_wf (List.Perm.refl _) with
    ⟨ts1, _, _, hfw⟩ | ⟨h1, _⟩
  · exact hfw.acyclic
  · have h2 : (diamond.TopoSort [nA, nB, nD, nC]).2 = Except.ok [nA, nB, nC, nD] := rfl
    rw [h2] at h1
    cases h1

theorem TopoSort_fails_only_on_cycle_witness :
    (WellFormed diamond ∧ [nD, nC, nB, nA].Perm (GoMap.keys diamond.Nodes) ∧ Acyclic diamond) ∧
      ∃ ts, (diamond.TopoSort [nD, nC, nB, nA]).2 = Except.ok ts :=
  ⟨⟨diamond_wf, by decide, diamond_acyclic⟩,
    (TopoSort_fails_only_on_cycle diamond [nD, nC, nB, nA] diamond_wf (by decide)).2
      diamond_acyclic⟩

/-! ## `AddEdge` and `RemoveEdge` -/

theorem AddEdge_Weights (g : Graph) (src dst : Node) (opts : List Int) :
    GoMap.getD (g.AddEdge src dst opts).Weights src []
      = GoMap.set (GoMap.getD g.Weights src []) dst (givenWeight opts) := by
  have h : (g.AddEdge src dst opts).Weights
      = match GoMap.get? g.Weights src with
        | none => GoMap.set g.Weights src [(dst, givenWeight opts)]
        | some wm => GoMap.set g.Weights src (GoMap.set wm dst (givenWeight opts)) := by
    cases opts <;> rfl
  rw [h]
  cases hw : GoMap.get? g.Weights src with
  | none =>
    simp only []
    rw [GoMap.getD_set, if_pos rfl]
    simp [GoMap.getD, hw, GoMap.set]
  | some wm =>
    simp only []
    rw [GoMap.getD_set, if_pos rfl]
    simp [GoMap.getD, hw]

theorem AddEdge_Weights_other (g : Graph) (src dst : Node) (opts : List Int) (a : Node)
    (ha : a ≠ src) :
    GoMap.get? (g.AddEdge src dst opts).Weights a = GoMap.get? g.Weights a := by
  have h : (g.AddEdge src dst opts).Weights
      = match GoMap.get? g.Weights src with
        | none => GoMap.set g.Weights src [(dst, givenWeight opts)]
        | some wm => GoMap.set g.Weights src (GoMap.set wm dst (givenWeight opts)) := by
    cases opts <;> rfl
  have ha2 : ¬ src = a := fun e => ha e.symm
  rw [h]
  cases hw : GoMap.get? g.Weights src with
  | none => simp [GoMap.get?_set, ha2]
  | some wm => simp [GoMap.get?_set, ha2]

/-- C10: `AddEdge` always returns, and afterwards `src` and `dst` are nodes,
`edges[src]` is the previous list with `dst` appended at the end, `inDegree[dst]` and
`outDegree[src]` are one larger, `weights[src][dst]` is the given weight (1 when omitted),
and every other adjacency list, weight entry, degree entry and node is as before. Adding
the same edge twice makes `dst` occur twice more at the end of `edges[src]`, while the
weight map keeps one entry for the pair, with the weight of the second call. -/
theorem AddEdge_effect (g : Graph) (src dst : Node) (opts : List Int) :
    (src ∈ GoMap.keys (g.AddEdge src dst opts).Nodes ∧
      dst ∈ GoMap.keys (g.AddEdge src dst opts).Nodes ∧
      (∀ n, n ∈ GoMap.keys (g.AddEdge src dst opts).Nodes ↔
        n = src ∨ n = dst ∨ n ∈ GoMap.keys g.Nodes)) ∧
    (GoMap.get? (g.AddEdge src dst opts).Edges src
        = some (GoMap.getD g.Edges src [] ++ [dst]) ∧
      ∀ k, k ≠ src → GoMap.get? (g.AddEdge src dst opts).Edges k = GoMap.get? g.Edges k) ∧
    (GoMap.get? (g.AddEdge src dst opts).InDegree dst = some (GoMap.getD g.InDegree dst 0 + 1) ∧
      ∀ k, k ≠ dst →
        GoMap.get? (g.AddEdge src dst opts).InDegree k = GoMap.get? g.InDegree k) ∧
    (GoMap.get? (g.AddEdge src dst opts).OutDegree src
        = some (GoMap.getD g.OutDegree src 0 + 1) ∧
      ∀ k, k ≠ src →
        GoMap.get? (g.AddEdge src dst opts).OutDegree k = GoMap.get? g.OutDegree k) ∧
    (GoMap.get? (GoMap.getD (g.AddEdge src dst opts).Weights src []) dst
        = some (givenWeight opts) ∧
      (∀ b, b ≠ dst → GoMap.get? (GoMap.getD (g.AddEdge src dst opts).Weights src []) b
        = GoMap.get? (GoMap.getD g.Weights src []) b) ∧
      ∀ a, a ≠ src → GoMap.get? (g.AddEdge src dst opts).Weights a = GoMap.get? g.Weights a) ∧
    (∀ opts2 : List Int,
      GoMap.get? ((g.AddEdge src dst opts).AddEdge src dst opts2).Edges src
          = some (GoMap.getD g.Edges src [] ++ [dst, dst]) ∧
        GoMap.get? (GoMap.getD ((g.AddEdge src dst opts).AddEdge src dst opts2).Weights src [])
          dst = some (givenWeight opts2) ∧
        ((GoMap.keys (GoMap.getD g.Weights src [])).Nodup →
          (GoMap.keys
            (GoMap.getD ((g.AddEdge src dst opts).AddEdge src dst opts2).Weights src [])).count
              dst = 1)) ∧
    (g.AddEdge src dst opts).Source = g.Source ∧ (g.AddEdge src dst opts).Sink = g.Sink := by
  have hne : ∀ {a b : Node}, a ≠ b → ¬ b = a := fun h e => h e.symm
  refine ⟨⟨?_, ?_, ?_⟩, ⟨?_, ?_⟩, ⟨?_, ?_⟩, ⟨?_, ?_⟩, ⟨?_, ?_, ?_⟩, ?_, rfl, rfl⟩
  · simp [AddEdge_Nodes, GoMap.mem_keys_set]
  · simp [AddEdge_Nodes, GoMap.mem_keys_set]
  · intro n
    simp only [AddEdge_Nodes, GoMap.mem_keys_set]
    tauto
  · simp [AddEdge_Edges, GoMap.get?_set]
  · intro k hk
    simp [AddEdge_Edges, GoMap.get?_set, hne hk]
  · simp [AddEdge_InDegree, GoMap.get?_set]
  · intro k hk
    simp [AddEdge_InDegree, GoMap.get?_set, hne hk]
  · simp [AddEdge_OutDegree, GoMap.get?_set]
  · intro k hk
    simp [AddEdge_OutDegree, GoMap.get?_set, hne hk]
  · simp [AddEdge_Weights, GoMap.get?_set]
  · intro b hb
    simp [AddEdge_Weights, GoMap.get?_set, hne hb]
  · intro a ha
    exact AddEdge_Weights_other g src dst opts a ha
  · intro opts2
    refine ⟨?_, ?_, ?_⟩
    · simp [AddEdge_Edges, GoMap.get?_set, GoMap.getD_set]
    · simp [AddEdge_Weights, GoMap.get?_set]
    · intro hnd
      rw [AddEdge_Weights, AddEdge_Weights]
      apply List.count_eq_one_of_mem
      · exact GoMap.nodup_keys_set _ _ (GoMap.nodup_keys_set _ _ hnd)
      · simp [GoMap.mem_keys_set]

theorem AddEdge_effect_witness :
    GoMap.get? ((oneEdge.AddEdge nA nB [7]).AddEdge nA nB [9]).Edges nA = some [nB, nB, nB] ∧
      GoMap.getD ((oneEdge.AddEdge nA nB [7]).AddEdge nA nB [9]).Weights nA [] = [(nB, 9)] ∧
      (GoMap.keys
        (GoMap.getD ((oneEdge.AddEdge nA nB [7]).AddEdge nA nB [9]).Weights nA [])).count nB
          = 1 :=
  ⟨((AddEdge_effect oneEdge nA nB [7]).2.2.2.2.2.1 [9]).1, rfl,
    ((AddEdge_effect oneEdge nA nB [7]).2.2.2.2.2.1 [9]).2.2 (by decide)⟩

theorem RemoveEdge_of_Remove {g : Graph} {src dst : Node} {rest : List Node}
    (h : Nodes.Remove (GoMap.getD g.Edges src []) dst = Except.ok rest) :
    g.RemoveEdge src dst = Except.ok { g with
      Edges := if rest.length = 0 then GoMap.del g.Edges src else GoMap.set g.Edges src rest
      InDegree := GoMap.set g.InDegree dst (GoMap.getD g.InDegree dst 0 - 1)
      OutDegree := GoMap.set g.OutDegree src (GoMap.getD g.OutDegree src 0 - 1) } := by
  simp only [Graph.RemoveEdge, h]

/-- C9: when `dst` occurs in `edges[src]`, `RemoveEdge(src, dst)` returns and
leaves `edges[src]` equal, as a multiset, to its previous content minus one occurrence of
`dst` (one element shorter, every other multiplicity unchanged); the key `src` is dropped
from the edge map when that list becomes empty; `inDegree[dst]` and `outDegree[src]` are
decremented by one; the adjacency lists of all other sources, all other degree entries,
the weights and the node set are unchanged. -/
theorem RemoveEdge_effect (g : Graph) (src dst : Node)
    (hmem : dst ∈ GoMap.getD g.Edges src []) :
    ∃ g1, g.RemoveEdge src dst = Except.ok g1 ∧
      ((GoMap.getD g1.Edges src []).Perm ((GoMap.getD g.Edges src []).erase dst) ∧
        (GoMap.getD g1.Edges src []).length + 1 = (GoMap.getD g.Edges src []).length ∧
        (GoMap.getD g1.Edges src []).count dst + 1 = (GoMap.getD g.Edges src []).count dst ∧
        (∀ x, x ≠ dst →
          (GoMap.getD g1.Edges src []).count x = (GoMap.getD g.Edges src []).count x)) ∧
      (GoMap.getD g1.Edges src [] = [] → src ∉ GoMap.keys g1.Edges) ∧
      (GoMap.getD g1.Edges src [] ≠ [] → src ∈ GoMap.keys g1.Edges) ∧
      (∀ k, k ≠ src → GoMap.get? g1.Edges k = GoMap.get? g.Edges k) ∧
      (GoMap.get? g1.InDegree dst = some (GoMap.getD g.InDegree dst 0 - 1) ∧
        ∀ k, k ≠ dst → GoMap.get? g1.InDegree k = GoMap.get? g.InDegree k) ∧
      (GoMap.get? g1.OutDegree src = some (GoMap.getD g.OutDegree src 0 - 1) ∧
        ∀ k, k ≠ src → GoMap.get? g1.OutDegree k = GoMap.get? g.OutDegree k) ∧
      g1.Nodes = g.Nodes ∧ g1.Weights = g.Weights ∧ g1.Source = g.Source ∧
      g1.Sink = g.Sink := by
  have hne : ∀ {a b : Node}, a ≠ b → ¬ b = a := fun h e => h e.symm
  obtain ⟨rest, hrest, hperm⟩ := Remove_of_mem hmem
  have hget : GoMap.getD
      (if rest.length = 0 then GoMap.del g.Edges src else GoMap.set g.Edges src rest) src []
      = rest := by
    by_cases hr : rest.length = 0
    · simp [hr, GoMap.getD_del, List.length_eq_zero.1 hr]
    · simp [hr, GoMap.getD_set]
  refine ⟨{ g with
      Edges := if rest.length = 0 then GoMap.del g.Edges src else GoMap.set g.Edges src rest
      InDegree := GoMap.set g.InDegree dst (GoMap.getD g.InDegree dst 0 - 1)
      OutDegree := GoMap.set g.OutDegree src (GoMap.getD g.OutDegree src 0 - 1) },
    by simp only [Graph.RemoveEdge, hrest], ⟨?_, ?_, ?_, ?_⟩, ?_, ?_, ?_, ⟨?_, ?_⟩, ⟨?_, ?_⟩,
    rfl, rfl, rfl, rfl⟩
  · rw [hget]
    exact hperm
  · rw [hget]
    exact Remove_length hrest
  · rw [hget, hperm.count_eq, List.count_erase_self]
    have : 0 < (GoMap.getD g.Edges src []).count dst := List.count_pos_iff.2 hmem
    omega
  · intro x hx
    rw [hget, hperm.count_eq, List.count_erase_of_ne hx]
  · intro hnil
    rw [hget] at hnil
    simp [hnil, GoMap.mem_keys_del]
  · intro hnil
    rw [hget] at hnil
    have hr : ¬ rest.length = 0 := fun e => hnil (List.length_eq_zero.1 e)
    simp [hr, GoMap.mem_keys_set]
  · intro k hk
    by_cases hr : rest.length = 0
    · simp [hr, GoMap.get?_del, hne hk]
    · simp [hr, GoMap.get?_set, hne hk]
  · simp [GoMap.get?_set]
  · intro k hk
    simp [GoMap.get?_set, hne hk]
  · simp [GoMap.get?_set]
  · intro k hk
    simp [GoMap.get?_set, hne hk]

theorem RemoveEdge_effect_witness :
    nD ∈ GoMap.getD diamond.Edges nB [] ∧
      ∃ g1, diamond.RemoveEdge nB nD = Except.ok g1 ∧ nB ∉ GoMap.keys g1.Edges ∧
        GoMap.get? g1.InDegree nD = some 1 ∧ GoMap.get? g1.OutDegree nB = some 0 ∧
        g1.Nodes = diamond.Nodes := by
  refine ⟨by decide, ?_⟩
  obtain ⟨g1, h1, ⟨hp, _⟩, h2, _, _, ⟨h3, _⟩, ⟨h4, _⟩, h5, _⟩ :=
    RemoveEdge_effect diamond nB nD (by decide)
  refine ⟨g1, h1, h2 ?_, h3, h4, h5⟩
  have he : (GoMap.getD diamond.Edges nB []).erase nD = [] := by decide
  rw [he] at hp
  exact hp.eq_nil

theorem oneEdge_wf : WellFormed oneEdge := WellFormed.addEdge _ _ _ WellFormed.new

/-- C8 (failing input): on the well-formed graph with the single edge A→B the call
`RemoveEdge(A, C)` targets an edge that is not present. It reports no failure: it returns
normally, removes the edge A→B instead, and decrements `outDegree[A]` to 0 and
`inDegree[C]` to -1, while `inDegree[B]` stays 1 although B has no incoming edge left. -/
theorem RemoveEdge_missing_edge_removes_another :
    WellFormed oneEdge ∧ nC ∉ GoMap.getD oneEdge.Edges nA [] ∧
      oneEdge.HasEdge nA nC = false ∧ oneEdge.HasEdge nA nB = true ∧
      (oneEdge.Edges, oneEdge.InDegree, oneEdge.OutDegree)
        = ([(nA, [nB])], [(nB, 1)], [(nA, 1)]) ∧
      (oneEdge.RemoveEdge nA nC).map (fun g => (g.Edges, g.InDegree, g.OutDegree))
        = Except.ok ([], [(nB, 1), (nC, -1)], [(nA, 0)]) ∧
      ∃ g1, oneEdge.RemoveEdge nA nC = Except.ok g1 ∧ g1.HasEdge nA nB = false ∧
        GoMap.getD g1.InDegree nB 0 = 1 ∧ GoMap.getD g1.InDegree nC 0 = -1 ∧
        GoMap.getD g1.OutDegree nA 0 = 0 :=
  ⟨oneEdge_wf, by decide, rfl, rfl, rfl, rfl, _, rfl, rfl, rfl, rfl, rfl⟩

/-- When `RemoveEdge` fails at all: exactly when `src` has no outgoing edges (`out[1:]`
on an empty slice); when `edges[src]` is not empty the call returns normally, whether or
not `dst` occurs in it. -/
theorem RemoveEdge_returns_iff (g : Graph) (src dst : Node) :
    (GoMap.getD g.Edges src [] = [] →
      g.RemoveEdge src dst = Except.error Fault.sliceBounds) ∧
    (GoMap.getD g.Edges src [] ≠ [] → ∃ g1, g.RemoveEdge src dst = Except.ok g1) := by
  constructor
  · intro hnil
    simp [Graph.RemoveEdge, hnil, Remove_nil]
  · intro hne
    by_cases hm : dst ∈ GoMap.getD g.Edges src []
    · obtain ⟨rest, hrest, _⟩ := Remove_of_mem hm
      exact ⟨_, RemoveEdge_of_Remove hrest⟩
    · cases hl : GoMap.getD g.Edges src [] with
      | nil => exact absurd hl hne
      | cons v t =>
        rw [hl] at hm
        have hrest := Remove_of_not_mem hm
        rw [← hl] at hrest
        exact ⟨_, RemoveEdge_of_Remove hrest⟩

/-- An addition whose mathematical result is in the 64 bit range does not wrap. -/
theorem wrap64_of_range {x : Int} (h1 : -2 ^ 63 ≤ x) (h2 : x < 2 ^ 63) : wrap64 x = x := by
  unfold wrap64
  rw [Int.emod_eq_of_lt (by omega) (by omega)]
  omega

/-- The result of an addition is always in the 64 bit range. -/
theorem wrap64_range (x : Int) : -2 ^ 63 ≤ wrap64 x ∧ wrap64 x < 2 ^ 63 := by
  unfold wrap64
  have h1 := Int.emod_nonneg (x + 2 ^ 63) (by norm_num : (2 : Int) ^ 64 ≠ 0)
  have h2 := Int.emod_lt_of_pos (x + 2 ^ 63) (by norm_num : (0 : Int) < 2 ^ 64)
  constructor <;> omega

theorem diamondOn_eq (a b c d : Node) (hab : a ≠ b) (hac : a ≠ c) (had : a ≠ d)
    (hbc : b ≠ c) (hbd : b ≠ d) (hcd : c ≠ d) :
    diamondOn a b c d =
      { Nodes := [(a, true), (b, true), (d, true), (c, true)], Source := [], Sink := [],
        Edges := [(a, [b, c]), (b, [d]), (c, [d])],
        Weights := [(a, [(b, 2), (c, 1)]), (b, [(d, 3)]), (c, [(d, 5)])],
        InDegree := [(b, 1), (d, 2), (c, 1)],
        OutDegree := [(a, 2), (b, 1), (c, 1)] } := by
  have hba := hab.symm
  have hca := hac.symm
  have hda := had.symm
  have hcb := hbc.symm
  have hdb := hbd.symm
  have hdc := hcd.symm
  simp [diamondOn, Graph.AddEdge, GraphNew, GoMap.set, GoMap.get?, GoMap.getD, *]

theorem filter_eq_singleton_of_perm {l l1 : List Node} (p : Node → Bool) {x : Node}
    (hp : l.Perm l1) (h : l1.filter p = [x]) : l.filter p = [x] := by
  have := hp.filter p
  rw [h] at this
  exact List.perm_singleton.1 this

theorem diamondOn_TopoSort (a b c d : Node) (hab : a ≠ b) (hac : a ≠ c) (had : a ≠ d)
    (hbc : b ≠ c) (hbd : b ≠ d) (hcd : c ≠ d) (it : List Node)
    (hit : it.Perm (GoMap.keys (diamondOn a b c d).Nodes)) :
    ((diamondOn a b c d).TopoSort it).2 = Except.ok [a, b, c, d] := by
  have hba := hab.symm
  have hca := hac.symm
  have hda := had.symm
  have hcb := hbc.symm
  have hdb := hbd.symm
  have hdc := hcd.symm
  rw [diamondOn_eq a b c d hab hac had hbc hbd hcd] at hit ⊢
  have hsrc : it.filter (fun n => decide (GoMap.getD
      ([(b, 1), (d, 2), (c, 1)] : intMap) n 0 = 0)) = [a] := by
    apply filter_eq_singleton_of_perm _ hit
    simp [GoMap.keys, List.filter, GoMap.getD, GoMap.get?, *]
  simp only [Graph.TopoSort, Graph.ComputeSourceAndSink, Graph.SourceClone, hsrc, List.map_id,
    List.map, id]
  simp [topoLoop, topoInner, Graph.RemoveEdge, Nodes.Remove, firstIdx, edgeCount,
    Graph.Clone, Graph.EdgesClone, Graph.InDegreeClone, Graph.OutDegreeClone, Graph.NodesClone,
    Graph.WeightsClone, Graph.SinkClone, Graph.SourceClone, Nodes.Clone, intMap.Clone,
    GoMap.set, GoMap.get?, GoMap.getD, GoMap.del, *]

/-- C6: worked example. On the graph built from `GraphNew` by `AddEdge(A,B,2)`,
`AddEdge(B,D,3)`, `AddEdge(A,C,1)`, `AddEdge(C,D,5)` for four distinct nodes (none of
them the nil interface value), `LongestPath(A, D)` returns length 6 and path `[A, C, D]`,
whatever the order in which the node map is visited. -/
theorem LongestPath_worked_example (a b c d : Node) (hab : a ≠ b) (hac : a ≠ c) (had : a ≠ d)
    (hbc : b ≠ c) (hbd : b ≠ d) (hcd : c ≠ d)
    (hnil : a ≠ Node.nil ∧ b ≠ Node.nil ∧ c ≠ Node.nil ∧ d ≠ Node.nil) (it : List Node)
    (hit : it.Perm (GoMap.keys (diamondOn a b c d).Nodes)) :
    ((diamondOn a b c d).LongestPath it a d).2 = Except.ok (6, [a, c, d]) := by
  have hts := diamondOn_TopoSort a b c d hab hac had hbc hbd hcd it hit
  have hba := hab.symm
  have hca := hac.symm
  have hda := had.symm
  have hcb := hbc.symm
  have hdb := hbd.symm
  have hdc := hcd.symm
  have hcn := hnil.2.2.1
  have hfst : ((diamondOn a b c d).TopoSort it).1 = (diamondOn a b c d).ComputeSourceAndSink it :=
    rfl
  simp only [Graph.LongestPath, hts, hfst]
  rw [diamondOn_eq a b c d hab hac had hbc hbd hcd]
  have w1 : wrap64 1 = 1 := by decide
  have w2 : wrap64 2 = 2 := by decide
  have w5 : wrap64 5 = 5 := by decide
  have w6 : wrap64 6 = 6 := by decide
  simp [sliceFrom, sliceTo, firstIdx, lpTable, lpOuterStep, lpInnerStep, lpWalk,
    Graph.HasEdge, Graph.ComputeSourceAndSink, List.range, List.range.loop, List.range',
    GoMap.set, GoMap.get?, GoMap.getD, *]

theorem LongestPath_worked_example_witness :
    (nA ≠ nB ∧ nA ≠ nC ∧ nA ≠ nD ∧ nB ≠ nC ∧ nB ≠ nD ∧ nC ≠ nD ∧
      (nA ≠ Node.nil ∧ nB ≠ Node.nil ∧ nC ≠ Node.nil ∧ nD ≠ Node.nil) ∧
      [nC, nD, nA, nB].Perm (GoMap.keys (diamondOn nA nB nC nD).Nodes)) ∧
    ((diamondOn nA nB nC nD).LongestPath [nC, nD, nA, nB] nA nD).2
      = Except.ok (6, [nA, nC, nD]) :=
  ⟨by decide,
    LongestPath_worked_example nA nB nC nD (by decide) (by decide) (by decide) (by decide)
      (by decide) (by decide) (by decide) [nC, nD, nA, nB] (by decide)⟩

theorem perm_pair {l : List Node} {x y : Node} (h : l.Perm [x, y]) :
    l = [x, y] ∨ l = [y, x] := by
  have hl := h.length_eq
  match l, h, hl with
  | [p, q], h, _ =>
    have hp : p ∈ [x, y] := h.subset (by simp)
    simp only [List.mem_cons, List.mem_singleton, List.not_mem_nil, or_false] at hp
    rcases hp with rfl | rfl
    · have := (List.perm_cons p).1 h
      left
      rw [List.perm_singleton.1 this]
    · have h2 : [p, q].Perm [p, x] := h.trans (List.Perm.swap _ _ _)
      have := (List.perm_cons p).1 h2
      right
      rw [List.perm_singleton.1 this]

theorem detour_sources {it : List Node} (hit : it.Perm (GoMap.keys detour.Nodes)) :
    it.filter (fun n => decide (GoMap.getD detour.InDegree n 0 = 0)) = [nC, nA] ∨
    it.filter (fun n => decide (GoMap.getD detour.InDegree n 0 = 0)) = [nA, nC] := by
  apply perm_pair
  have := hit.filter (fun n => decide (GoMap.getD detour.InDegree n 0 = 0))
  exact this.trans (by decide)

/-- What `LongestPath(A, D)` returns on `detour`, for every order in which the node map
can be visited. -/
theorem detour_LongestPath {it : List Node} (hit : it.Perm (GoMap.keys detour.Nodes)) :
    (detour.LongestPath it nA nD).2 = Except.ok (5, [Node.nil, nB, nD]) ∨
    (detour.LongestPath it nA nD).2 = Except.ok (6, [Node.nil, nC, nB, nD]) := by
  rcases detour_sources hit with h | h
  · left
    simp only [Graph.LongestPath, Graph.TopoSort, Graph.SourceClone,
      Graph.ComputeSourceAndSink, List.map_id, h]
    rfl
  · right
    simp only [Graph.LongestPath, Graph.TopoSort, Graph.SourceClone,
      Graph.ComputeSourceAndSink, List.map_id, h]
    rfl

theorem detour_paths (p : List Node) (hp : IsPathFromTo detour nA nD p) : p = [nA, nD] := by
  obtain ⟨h1, h2, h3⟩ := hp
  have hA : ∀ v, Edge detour nA v → v = nD := by
    intro v hv
    have : v ∈ [nD] := hv
    simpa using this
  have hD : ∀ v, ¬ Edge detour nD v := by
    intro v hv
    have : v ∈ ([] : List Node) := hv
    simp at this
  match p, h1, h2, h3 with
  | [x], h1, h2, _ =>
    simp at h1 h2
    rw [h1] at h2
    exact absurd h2 (by decide)
  | [x, y], h1, _, h3 =>
    simp at h1
    subst h1
    simp only [List.chain'_cons, List.chain'_singleton, and_true] at h3
    rw [hA y h3]
  | x :: y :: z :: rest, h1, _, h3 =>
    simp at h1
    subst h1
    simp only [List.chain'_cons] at h3
    have := hA y h3.1
    subst this
    exact absurd h3.2.1 (hD z)

theorem detour_wf : WellFormed detour :=
  WellFormed.addEdge _ _ _ (WellFormed.addEdge _ _ _ (WellFormed.addEdge _ _ _ WellFormed.new))

theorem detour_acyclic : Acyclic detour := by
  rcases @TopoSort_cases detour [nC, nB, nD, nA] detour_wf (List.Perm.refl _) with
    ⟨ts1, _, _, hfw⟩ | ⟨h1, _⟩
  · exact hfw.acyclic
  · have h2 : (detour.TopoSort [nC, nB, nD, nA]).2 = Except.ok [nC, nA, nB, nD] := rfl
    rw [h2] at h1
    cases h1

theorem detour_path : IsPathFromTo detour nA nD [nA, nD] := by
  refine ⟨rfl, rfl, ?_⟩
  simp only [List.chain'_cons, List.chain'_singleton, and_true]
  exact (HasEdge_iff detour nA nD).1 rfl

/-- C4 (failing input): `detour` is well-formed and acyclic, D is reachable from A
and the only path from A to D is the edge A→D of weight 1; yet, whatever the order in
which the node map is visited, `LongestPath(A, D)` returns a length of at least 5 (the
weight of B→D, where B cannot be reached from A). -/
theorem LongestPath_length_exceeds_maximum (it : List Node)
    (hit : it.Perm (GoMap.keys detour.Nodes)) :
    (WellFormed detour ∧ Acyclic detour ∧ IsPathFromTo detour nA nD [nA, nD]) ∧
      (∀ p, IsPathFromTo detour nA nD p → pathWeight detour p = 1) ∧
      ∃ l p, (detour.LongestPath it nA nD).2 = Except.ok (l, p) ∧ 5 ≤ l := by
  refine ⟨⟨detour_wf, detour_acyclic, detour_path⟩, ?_, ?_⟩
  · intro p hp
    rw [detour_paths p hp]
    rfl
  · rcases detour_LongestPath hit with h | h
    · exact ⟨_, _, h, by decide⟩
    · exact ⟨_, _, h, by decide⟩

theorem LongestPath_length_exceeds_maximum_witness :
    [nC, nB, nD, nA].Perm (GoMap.keys detour.Nodes) ∧
      (∀ p, IsPathFromTo detour nA nD p → pathWeight detour p = 1) ∧
      ∃ l p, (detour.LongestPath [nC, nB, nD, nA] nA nD).2 = Except.ok (l, p) ∧ 5 ≤ l :=
  ⟨List.Perm.refl _,
    (LongestPath_length_exceeds_maximum [nC, nB, nD, nA] (List.Perm.refl _)).2⟩

/-- C5 (failing input): on `detour`, where D is reachable from A, the node sequence
returned by `LongestPath(A, D)` starts with the nil node instead of A, whatever the order
in which the node map is visited; it is not a path of the graph from A to D. -/
theorem LongestPath_path_not_from_src (it : List Node)
    (hit : it.Perm (GoMap.keys detour.Nodes)) :
    ∃ l p, (detour.LongestPath it nA nD).2 = Except.ok (l, p) ∧ p.head? = some Node.nil ∧
      ¬ IsPathFromTo detour nA nD p := by
  rcases detour_LongestPath hit with h | h
  · refine ⟨_, _, h, rfl, ?_⟩
    intro hp
    have := hp.1
    simp at this
    exact absurd this (by decide)
  · refine ⟨_, _, h, rfl, ?_⟩
    intro hp
    have := hp.1
    simp at this
    exact absurd this (by decide)

theorem LongestPath_path_not_from_src_witness :
    [nA, nC, nB, nD].Perm (GoMap.keys detour.Nodes) ∧
      ∃ l p, (detour.LongestPath [nA, nC, nB, nD] nA nD).2 = Except.ok (l, p) ∧
        p.head? = some Node.nil ∧ ¬ IsPathFromTo detour nA nD p :=
  ⟨by decide, LongestPath_path_not_from_src [nA, nC, nB, nD] (by decide)⟩

/-! ## `TopoSort` does not read the weights -/

theorem RemoveEdge_withWeights (h : Graph) (w : GoMap intMap) (n m : Node) :
    (withWeights h w).RemoveEdge n m =
      match h.RemoveEdge n m with
      | Except.ok h1 => Except.ok (withWeights h1 w)
      | Except.error f => Except.error f := by
  simp only [Graph.RemoveEdge, withWeights]
  cases Nodes.Remove (GoMap.getD h.Edges n []) m <;> rfl

theorem topoInner_withWeights (w : GoMap intMap) (n : Node) (ms : List Node) :
    ∀ (h : Graph) (s : List Node), topoInner n ms (withWeights h w) s =
      match topoInner n ms h s with
      | Except.ok (h1, s1) => Except.ok (withWeights h1 w, s1)
      | Except.error f => Except.error f := by
  induction ms with
  | nil => intro h s; rfl
  | cons m ms ih =>
    intro h s
    simp only [topoInner, RemoveEdge_withWeights]
    cases h.RemoveEdge n m with
    | error f => rfl
    | ok h1 =>
      simp only []
      exact ih h1 _

theorem topoLoop_withWeights (w : GoMap intMap) (ga gb : Graph) (he : ga.Edges = gb.Edges) :
    ∀ (fuel : Nat) (h : Graph) (s ts : List Node),
      topoLoop ga fuel (withWeights h w) s ts =
        match topoLoop gb fuel h s ts with
        | Except.ok (h1, ts1) => Except.ok (withWeights h1 w, ts1)
        | Except.error f => Except.error f := by
  intro fuel
  induction fuel with
  | zero =>
    intro h s ts
    cases s <;> rfl
  | succ fuel ih =>
    intro h s ts
    cases s with
    | nil => rfl
    | cons n s =>
      simp only [topoLoop, topoInner_withWeights, he]
      cases topoInner n (GoMap.getD gb.Edges n []) h s with
      | error f => rfl
      | ok r =>
        obtain ⟨h1, s1⟩ := r
        simp only []
        exact ih h1 s1 _

/-- The order returned by `TopoSort` does not depend on the weight map. -/
theorem TopoSort_withWeights (g : Graph) (w : GoMap intMap) (it : List Node) :
    ((withWeights g w).TopoSort it).2 = (g.TopoSort it).2 ∧
      ((withWeights g w).TopoSort it).1 = withWeights (g.TopoSort it).1 w := by
  refine ⟨?_, rfl⟩
  simp only [Graph.TopoSort, Clone_eq]
  have h := topoLoop_withWeights w ((withWeights g w).ComputeSourceAndSink it)
    (g.ComputeSourceAndSink it) rfl
    ((g.ComputeSourceAndSink it).SourceClone.length + edgeCount (g.ComputeSourceAndSink it).Edges)
    g (g.ComputeSourceAndSink it).SourceClone []
  have h2 : topoLoop ((withWeights g w).ComputeSourceAndSink it)
      (((withWeights g w).ComputeSourceAndSink it).SourceClone.length
        + edgeCount ((withWeights g w).ComputeSourceAndSink it).Edges)
      (withWeights g w) ((withWeights g w).ComputeSourceAndSink it).SourceClone [] = _ := h
  rw [h2]
  cases topoLoop (g.ComputeSourceAndSink it)
      ((g.ComputeSourceAndSink it).SourceClone.length + edgeCount (g.ComputeSourceAndSink it).Edges)
      g (g.ComputeSourceAndSink it).SourceClone [] with
  | error f => rfl
  | ok r =>
    obtain ⟨h1, ts1⟩ := r
    rfl

/-! ## The dynamic program and the path walk of `LongestPath` -/

theorem foldl_inv {α β : Type} (P : β → Prop) (f : β → α → β) (l : List α) :
    ∀ b, P b → (∀ b a, a ∈ l → P b → P (f b a)) → P (l.foldl f b) := by
  induction l with
  | nil => intro b hb _; exact hb
  | cons x l ih =>
    intro b hb hf
    simp only [List.foldl_cons]
    exact ih _ (hf b x (List.mem_cons_self _ _) hb)
      (fun b a ha hp => hf b a (List.mem_cons_of_mem _ ha) hp)

theorem lpInnerStep_backOK (g : Graph) {ts : List Node} (hnd : ts.Nodup) (dist : intMap)
    {i j : Nat} (hi : i < ts.length) (hj : j < i) (st : Int × GoMap Node)
    (hst : BackOK ts st.2) : BackOK ts (lpInnerStep g ts dist i st j).2 := by
  unfold lpInnerStep
  simp only []
  split
  · exact hst
  · split
    · intro w v hwv
      simp only [GoMap.get?_set] at hwv
      split at hwv
      · rename_i hw
        cases hwv
        rw [← hw, List.getD_eq_getElem _ _ hi, List.getD_eq_getElem _ _ (by omega),
          List.indexOf_getElem hnd, List.indexOf_getElem hnd]
        exact hj
      · exact hst w v hwv
    · exact hst

theorem lpTable_backOK (g : Graph) {ts : List Node} (hnd : ts.Nodup) :
    BackOK ts (lpTable g ts).2 := by
  unfold lpTable
  apply foldl_inv (fun st : intMap × GoMap Node => BackOK ts st.2)
  · intro w v h
    simp [GoMap.get?] at h
  · intro st i hi hst
    have hi2 : i < ts.length := by
      have := List.mem_range'_1.1 hi
      omega
    unfold lpOuterStep
    simp only []
    apply foldl_inv (fun r : Int × GoMap Node => BackOK ts r.2)
    · exact hst
    · intro r j hj hr
      exact lpInnerStep_backOK g hnd st.1 hi2 (List.mem_range.1 hj) r hr

/-- The walk along back pointers that point to strictly earlier positions stops within
`len(back) + 1` steps. -/
theorem lpWalk_terminates {ts : List Node} {back : GoMap Node} (hb : BackOK ts back)
    (src : Node) :
    ∀ (fuel : Nat) (curr : Node) (path : List Node),
      ((GoMap.keys back).filter
        (fun k => decide (ts.indexOf k ≤ ts.indexOf curr))).length < fuel →
      ∃ p, lpWalk back src fuel curr path = Except.ok p := by
  intro fuel
  induction fuel with
  | zero => intro curr path h; omega
  | succ fuel ih =>
    intro curr path hlen
    unfold lpWalk
    simp only []
    split
    · exact ⟨_, rfl⟩
    · rename_i hstop
      cases hg : GoMap.get? back curr with
      | none =>
        simp [GoMap.getD, hg] at hstop
      | some v =>
        have hv : GoMap.getD back curr Node.nil = v := by simp [GoMap.getD, hg]
        rw [hv]
        apply ih
        have hlt := hb curr v hg
        have hkey : curr ∈ GoMap.keys back := GoMap.mem_keys_iff.2 ⟨v, hg⟩
        have hsub : (GoMap.keys back).filter
            (fun k => decide (ts.indexOf k ≤ ts.indexOf v))
            = ((GoMap.keys back).filter
                (fun k => decide (ts.indexOf k ≤ ts.indexOf curr))).filter
                (fun k => decide (ts.indexOf k ≤ ts.indexOf v)) := by
          rw [List.filter_filter]
          apply List.filter_congr
          intro k _
          by_cases hk : ts.indexOf k ≤ ts.indexOf v
          · have : ts.indexOf k ≤ ts.indexOf curr := by omega
            simp [hk, this]
          · simp [hk]
        have hstrict : (((GoMap.keys back).filter
                (fun k => decide (ts.indexOf k ≤ ts.indexOf curr))).filter
                (fun k => decide (ts.indexOf k ≤ ts.indexOf v))).length
            < ((GoMap.keys back).filter
                (fun k => decide (ts.indexOf k ≤ ts.indexOf curr))).length := by
          apply List.length_filter_lt_length_iff_exists.2
          refine ⟨curr, ?_, ?_⟩
          · simp [List.mem_filter, hkey]
          · simp
            omega
        rw [hsub]
        omega

theorem sliceFrom_nodup (src : Node) {ts : List Node} (h : ts.Nodup) :
    (sliceFrom src ts).Nodup := by
  unfold sliceFrom
  split
  · exact h.sublist (List.drop_sublist _ _)
  · exact h

theorem sliceTo_nodup (dst : Node) {ts : List Node} (h : ts.Nodup) :
    (sliceTo dst ts).Nodup := by
  unfold sliceTo
  split
  · exact h.sublist (List.take_sublist _ _)
  · exact h

/-- Once `TopoSort` has returned an order without repetition, `LongestPath` returns, and
the length it returns is the table entry of `dst`. -/
theorem LongestPath_returns {g : Graph} {it ts0 : List Node} (src dst : Node)
    (hts : (g.TopoSort it).2 = Except.ok ts0) (hnd : ts0.Nodup) :
    ∃ p, (g.LongestPath it src dst).2
      = Except.ok (GoMap.getD (lpTable (g.TopoSort it).1
          (sliceTo dst (sliceFrom src ts0))).1 dst 0, p) := by
  have hnd2 := sliceTo_nodup dst (sliceFrom_nodup src hnd)
  have hb := lpTable_backOK (g.TopoSort it).1 hnd2
  simp only [Graph.LongestPath, hts]
  split
  · obtain ⟨p, hp⟩ := lpWalk_terminates hb src
      ((lpTable (g.TopoSort it).1 (sliceTo dst (sliceFrom src ts0))).2.length + 1) dst [dst]
      (by
        have := List.length_filter_le
          (fun k => decide ((sliceTo dst (sliceFrom src ts0)).indexOf k
            ≤ (sliceTo dst (sliceFrom src ts0)).indexOf dst))
          (GoMap.keys (lpTable (g.TopoSort it).1 (sliceTo dst (sliceFrom src ts0))).2)
        simp only [GoMap.keys, List.length_map] at this ⊢
        omega)
    rw [hp]
    exact ⟨p, rfl⟩
  · exact ⟨_, rfl⟩

/-! ## Degree counters -/

theorem Reached.wellFormed {ops : List Op} {g : Graph} (h : Reached ops g) : WellFormed g := by
  induction h with
  | new => exact WellFormed.new
  | addEdge src dst opts _ ih => exact WellFormed.addEdge src dst opts ih
  | removeEdge src dst _ he hr ih => exact WellFormed.removeEdge src dst ih he hr

theorem WellFormed.reached {g : Graph} (h : WellFormed g) : ∃ ops, Reached ops g := by
  induction h with
  | new => exact ⟨[], Reached.new⟩
  | addEdge src dst opts _ ih =>
    obtain ⟨ops, hops⟩ := ih
    exact ⟨_, Reached.addEdge src dst opts hops⟩
  | removeEdge src dst _ he hr ih =>
    obtain ⟨ops, hops⟩ := ih
    exact ⟨_, Reached.removeEdge src dst hops he hr⟩

/-- C11: degree consistency is an invariant. In every graph reached from
`GraphNew` by `AddEdge` calls and by `RemoveEdge` calls that target an edge present at
that time, `inDegree[n]` is the total number of occurrences of `n` in all adjacency lists
and `outDegree[n]` is the length of `edges[n]` (0 when `n` has no key in the edge map). -/
theorem degree_consistency (g : Graph) (hwf : WellFormed g) (n : Node) :
    GoMap.getD g.InDegree n 0 = ((g.Edges.map (fun kv => kv.2.count n)).sum : Nat) ∧
      GoMap.getD g.OutDegree n 0 = ((GoMap.getD g.Edges n []).length : Nat) ∧
      (GoMap.get? g.Edges n = none → GoMap.getD g.OutDegree n 0 = 0) := by
  have hinv := hwf.inv
  refine ⟨hinv.edgesOK.indeg n, hinv.outdeg n, ?_⟩
  intro hnone
  rw [hinv.outdeg n]
  simp [GoMap.getD, hnone]

theorem degree_consistency_witness :
    WellFormed diamond ∧
      (GoMap.getD diamond.InDegree nD 0 = ((diamond.Edges.map (fun kv => kv.2.count nD)).sum : Nat) ∧
      GoMap.getD diamond.OutDegree nD 0 = ((GoMap.getD diamond.Edges nD []).length : Nat) ∧
      (GoMap.get? diamond.Edges nD = none → GoMap.getD diamond.OutDegree nD 0 = 0)) :=
  ⟨diamond_wf, degree_consistency diamond diamond_wf nD⟩

theorem sum_map_ite_eq {L : List Node} (hL : L.Nodup) {k : Node} (hk : k ∈ L) (a : Nat)
    (h : Node → Nat) (hz : h k = 0) :
    (L.map (fun n => if k = n then a else h n)).sum = a + (L.map h).sum := by
  induction L with
  | nil => simp at hk
  | cons x L ih =>
    have hx : x ∉ L ∧ L.Nodup := List.nodup_cons.1 hL
    by_cases hkx : k = x
    · subst hkx
      have hrest : L.map (fun n => if k = n then a else h n) = L.map h := by
        apply List.map_congr_left
        intro n hn
        have : ¬ k = n := fun e => hx.1 (e ▸ hn)
        simp [this]
      simp only [List.map_cons, List.sum_cons, if_true, hrest, hz]
      omega
    · have hkL : k ∈ L := by
        rcases List.mem_cons.1 hk with e | e
        · exact absurd e hkx
        · exact e
      have := ih hx.2 hkL
      simp only [List.map_cons, List.sum_cons, hkx, if_false, this]
      omega

theorem sum_map_zero_of_not_mem {L : List Node} {k : Node} (hk : k ∉ L) (a : Nat)
    (h : Node → Nat) :
    (L.map (fun n => if k = n then a else h n)).sum = (L.map h).sum := by
  congr 1
  apply List.map_congr_left
  intro n hn
  have : ¬ k = n := fun e => hk (e ▸ hn)
  simp [this]

/-- Summing `f` of the adjacency list over a duplicate-free list of nodes that contains
every key of the edge map gives the sum over the entries of the edge map. -/
theorem sum_over_nodes_eq_wsum (f : List Node → Nat) (hf : f [] = 0) {L : List Node}
    (hL : L.Nodup) (e : GoMap (List Node)) (hn : (GoMap.keys e).Nodup)
    (hsub : ∀ k ∈ GoMap.keys e, k ∈ L) :
    (L.map (fun n => f (GoMap.getD e n []))).sum = wsum f e := by
  induction e with
  | nil => simp [GoMap.getD, GoMap.get?, wsum, hf]
  | cons p e ih =>
    obtain ⟨k, l⟩ := p
    have hn0 : k ∉ GoMap.keys e ∧ (GoMap.keys e).Nodup := by
      simpa [GoMap.keys] using hn
    have hk : k ∈ L := hsub k (by simp [GoMap.keys])
    have hsub2 : ∀ x ∈ GoMap.keys e, x ∈ L := by
      intro x hx
      exact hsub x (by simp only [GoMap.keys, List.map_cons, List.mem_cons]; exact Or.inr hx)
    have hfun : (fun n => f (GoMap.getD ((k, l) :: e) n []))
        = fun n => if k = n then f l else f (GoMap.getD e n []) := by
      funext n
      by_cases h : k = n <;> simp [GoMap.getD, GoMap.get?, h]
    have hz : f (GoMap.getD e k []) = 0 := by
      have : GoMap.get? e k = none := GoMap.get?_eq_none_iff.2 hn0.1
      simp [GoMap.getD, this, hf]
    rw [hfun, sum_map_ite_eq hL hk (f l) (fun n => f (GoMap.getD e n [])) hz, ih hn0.2 hsub2]
    simp [wsum]

theorem sum_count_eq_length {L : List Node} (hL : L.Nodup) (l : List Node)
    (hsub : ∀ x ∈ l, x ∈ L) : (L.map (fun n => l.count n)).sum = l.length := by
  induction l with
  | nil => simp
  | cons x l ih =>
    have hx : x ∈ L := hsub x (List.mem_cons_self _ _)
    have hfun : (fun n => (x :: l).count n) = fun n => if x = n then l.count x + 1 else l.count n := by
      funext n
      by_cases h : x = n
      · subst h
        simp
      · have h2 : ¬ (x == n) = true := by simpa using h
        simp [List.count_cons, h]
    have hsplit : ∀ M : List Node, (M.map (fun n => if x = n then l.count x + 1 else l.count n)).sum
        = (M.map (fun n => l.count n)).sum + M.count x := by
      intro M
      induction M with
      | nil => simp
      | cons y M ihM =>
        by_cases h : x = y
        · subst h
          simp only [List.map_cons, List.sum_cons, if_true, ihM, List.count_cons_self]
          omega
        · have h2 : ¬ (y == x) = true := by
            simp only [beq_iff_eq]
            exact fun e => h e.symm
          simp only [List.map_cons, List.sum_cons, h, if_false, ihM, List.count_cons, h2,
            Bool.false_eq_true]
          omega
    rw [hfun, hsplit L, ih (fun y hy => hsub y (List.mem_cons_of_mem _ hy)),
      List.count_eq_one_of_mem hL hx]
    simp

/-- Summing the number of occurrences over a duplicate-free list of nodes that contains
every edge target gives the number of edges. -/
theorem sum_occ_eq_edgeCount {L : List Node} (hL : L.Nodup) (e : GoMap (List Node))
    (hsub : ∀ kv ∈ e, ∀ x ∈ kv.2, x ∈ L) :
    (L.map (fun n => occ e n)).sum = edgeCount e := by
  induction e with
  | nil => simp [occ, wsum, edgeCount]
  | cons p e ih =>
    have h1 := sum_count_eq_length hL p.2 (hsub p (List.mem_cons_self _ _))
    have h2 := ih (fun kv hkv => hsub kv (List.mem_cons_of_mem _ hkv))
    have hfun : (fun n => occ (p :: e) n) = fun n => p.2.count n + occ e n := by
      funext n
      simp [occ, wsum]
    rw [hfun, List.sum_map_add, h1, h2]
    simp [edgeCount]

theorem sum_map_cast (L : List Node) (f : Node → Nat) :
    (L.map (fun n => (f n : Int))).sum = ((L.map f).sum : Nat) := by
  induction L with
  | nil => simp
  | cons x L ih => simp [ih]

/-- Both degree sums of a graph that satisfies the invariant are its number of edges. -/
theorem degreeSum_eq_edgeCount {g : Graph} (hg : Inv g) :
    degreeSum g g.OutDegree = edgeCount g.Edges ∧ degreeSum g g.InDegree = edgeCount g.Edges := by
  constructor
  · have h1 : (GoMap.keys g.Nodes).map (fun n => GoMap.getD g.OutDegree n 0)
        = (GoMap.keys g.Nodes).map (fun n => ((GoMap.getD g.Edges n []).length : Int)) :=
      List.map_congr_left (fun n _ => hg.outdeg n)
    have hsub : ∀ k ∈ GoMap.keys g.Edges, k ∈ GoMap.keys g.Nodes := by
      intro k hk
      obtain ⟨l, hl⟩ := GoMap.mem_keys_iff.1 hk
      have hne : l ≠ [] := hg.edgesOK.nonempty _ (GoMap.mem_of_get? hl)
      obtain ⟨v, hv⟩ := List.exists_mem_of_ne_nil l hne
      have : Edge g k v := by simpa [Edge, GoMap.getD, hl] using hv
      exact (hg.closed k v this).1
    have h2 := sum_over_nodes_eq_wsum List.length rfl hg.nodupNodes g.Edges
      hg.edgesOK.nodupKeys hsub
    rw [degreeSum, h1, sum_map_cast, h2, edgeCount_eq_wsum]
  · have h1 : (GoMap.keys g.Nodes).map (fun n => GoMap.getD g.InDegree n 0)
        = (GoMap.keys g.Nodes).map (fun n => ((occ g.Edges n : Nat) : Int)) :=
      List.map_congr_left (fun n _ => hg.edgesOK.indeg n)
    have hsub : ∀ kv ∈ g.Edges, ∀ x ∈ kv.2, x ∈ GoMap.keys g.Nodes := by
      intro kv hkv x hx
      have hget := GoMap.get?_of_mem hg.edgesOK.nodupKeys hkv
      have : Edge g kv.1 x := by simpa [Edge, GoMap.getD, hget] using hx
      exact (hg.closed kv.1 x this).2
    have h2 := sum_occ_eq_edgeCount hg.nodupNodes g.Edges hsub
    rw [degreeSum, h1, sum_map_cast, h2]

theorem Reached.edgeCount {ops : List Op} {g : Graph} (h : Reached ops g) :
    edgeCount g.Edges + removeCount ops = addCount ops := by
  induction h with
  | new => simp [GraphNew, Graphs.edgeCount, addCount, removeCount]
  | @addEdge ops g src dst opts hr ih =>
    have hs := wsum_set List.length rfl g.Edges src (GoMap.getD g.Edges src [] ++ [dst])
    simp only [AddEdge_Edges, edgeCount_eq_wsum, addCount, removeCount, List.length_append,
      List.length_singleton] at hs ih ⊢
    omega
  | @removeEdge ops g g1 src dst hr he hrem ih =>
    obtain ⟨h1, h1eq, _, _, _, _, _, hcount, _⟩ :=
      RemoveEdge_spec hr.wellFormed.inv.edgesOK ((HasEdge_iff _ _ _).1 he)
    rw [h1eq] at hrem
    cases hrem
    simp only [addCount, removeCount]
    omega

/-- C12: in every graph reached from `GraphNew` by a sequence of `AddEdge` calls and
of `RemoveEdge` calls that target an edge present at that time, the sum of `outDegree`
over all nodes equals the sum of `inDegree` over all nodes, and both equal the number of
`AddEdge` calls minus the number of `RemoveEdge` calls. -/
theorem degree_sums (ops : List Op) (g : Graph) (h : Reached ops g) :
    degreeSum g g.OutDegree = degreeSum g g.InDegree ∧
      degreeSum g g.OutDegree = (addCount ops : Int) - (removeCount ops : Int) ∧
      degreeSum g g.InDegree = (addCount ops : Int) - (removeCount ops : Int) := by
  obtain ⟨h1, h2⟩ := degreeSum_eq_edgeCount h.wellFormed.inv
  have h3 := h.edgeCount
  refine ⟨by rw [h1, h2], ?_, ?_⟩
  · rw [h1]
    omega
  · rw [h2]
    omega

theorem diamond_reached :
    Reached [Op.add nC nD [5], Op.add nA nC [1], Op.add nB nD [3], Op.add nA nB [2]] diamond :=
  Reached.addEdge _ _ _ (Reached.addEdge _ _ _ (Reached.addEdge _ _ _
    (Reached.addEdge _ _ _ Reached.new)))

theorem oneEdgeRemoved_reached :
    Reached [Op.remove nA nB, Op.add nA nB []] oneEdgeRemoved :=
  Reached.removeEdge nA nB (Reached.addEdge nA nB [] Reached.new) rfl rfl

theorem degree_sums_witness :
    Reached [Op.remove nA nB, Op.add nA nB []] oneEdgeRemoved ∧
      degreeSum oneEdgeRemoved oneEdgeRemoved.OutDegree
        = degreeSum oneEdgeRemoved oneEdgeRemoved.InDegree ∧
      degreeSum oneEdgeRemoved oneEdgeRemoved.OutDegree = ((1 : Nat) : Int) - ((1 : Nat) : Int) ∧
      degreeSum oneEdgeRemoved oneEdgeRemoved.InDegree = ((1 : Nat) : Int) - ((1 : Nat) : Int) :=
  ⟨oneEdgeRemoved_reached,
    degree_sums [Op.remove nA nB, Op.add nA nB []] oneEdgeRemoved oneEdgeRemoved_reached⟩

/-! ## Weights and edges -/

theorem RemoveEdge_Weights {g g1 : Graph} {src dst : Node}
    (h : g.RemoveEdge src dst = Except.ok g1) : g1.Weights = g.Weights := by
  unfold Graph.RemoveEdge at h
  cases hrem : Nodes.Remove (GoMap.getD g.Edges src []) dst with
  | error f =>
    rw [hrem] at h
    cases h
  | ok rest =>
    rw [hrem] at h
    cases h
    rfl

/-- A weight entry exists for a pair exactly when the pair was the argument of an
`AddEdge` call. -/
theorem Reached.weight_iff_added {ops : List Op} {g : Graph} (h : Reached ops g)
    (src dst : Node) :
    (∃ w, GoMap.get? (GoMap.getD g.Weights src []) dst = some w) ↔ wasAdded src dst ops := by
  induction h with
  | new => simp [GraphNew, GoMap.getD, GoMap.get?, wasAdded]
  | @addEdge ops g s d opts hr ih =>
    simp only [wasAdded]
    by_cases hs : s = src
    · subst hs
      rw [AddEdge_Weights, GoMap.get?_set]
      by_cases hd : d = dst
      · simp [hd]
      · simp only [hd, if_false, and_false, false_or]
        exact ih
    · have hget : GoMap.getD (g.AddEdge s d opts).Weights src []
          = GoMap.getD g.Weights src [] :=
        getD_congr [] (AddEdge_Weights_other g s d opts src (fun e => hs e.symm))
      rw [hget]
      simp only [hs, false_and, false_or]
      exact ih
  | @removeEdge ops g g1 s d hr he hrem ih =>
    simp only [wasAdded]
    rw [RemoveEdge_Weights hrem]
    exact ih

/-- An edge that is present was the argument of an `AddEdge` call. -/
theorem Reached.edge_added {ops : List Op} {g : Graph} (h : Reached ops g)
    (src dst : Node) (he : Edge g src dst) : wasAdded src dst ops := by
  induction h with
  | new => simp [Edge, GraphNew, GoMap.getD, GoMap.get?] at he
  | @addEdge ops g s d opts hr ih =>
    simp only [wasAdded]
    simp only [Edge, AddEdge_Edges, GoMap.getD_set] at he
    by_cases hs : s = src
    · subst hs
      simp only [if_true, List.mem_append, List.mem_singleton] at he
      rcases he with he | he
      · exact Or.inr (ih he)
      · exact Or.inl ⟨rfl, he.symm⟩
    · simp only [hs, if_false] at he
      exact Or.inr (ih he)
  | @removeEdge ops g g1 s d hr he1 hrem ih =>
    simp only [wasAdded]
    apply ih
    obtain ⟨h1, h1eq, _, hperm, hother, _⟩ :=
      RemoveEdge_spec hr.wellFormed.inv.edgesOK ((HasEdge_iff _ _ _).1 he1)
    rw [h1eq] at hrem
    cases hrem
    by_cases hu : src = s
    · subst hu
      exact List.mem_of_mem_erase (hperm.subset he)
    · have := getD_congr [] (hother src hu)
      simp only [Edge] at he ⊢
      rw [← this]
      exact he

/-- C17 (counterexample): after `AddEdge(A, B)` and `RemoveEdge(A, B)` the graph is
well-formed and has no edge A→B, yet `weights[A][B]` still holds the weight 1. -/
theorem weight_entry_survives_removal :
    oneEdge.RemoveEdge nA nB = Except.ok oneEdgeRemoved ∧
      oneEdgeRemoved.HasEdge nA nB = false ∧
      GoMap.get? (GoMap.getD oneEdgeRemoved.Weights nA []) nB = some 1 :=
  ⟨rfl, rfl, rfl⟩

/-- C17 (amended): in every graph reached from `GraphNew` by `AddEdge` calls and by
`RemoveEdge` calls that target an edge present at that time, `weights` has an entry for
the ordered pair `(src, dst)` if and only if `AddEdge(src, dst)` was called at some time
(`RemoveEdge` leaves the weight map alone); in particular every edge that is currently
present has a weight entry. -/
theorem weight_entry_iff_added (ops : List Op) (g : Graph) (h : Reached ops g)
    (src dst : Node) :
    ((∃ w, GoMap.get? (GoMap.getD g.Weights src []) dst = some w) ↔ wasAdded src dst ops) ∧
      (g.HasEdge src dst = true →
        ∃ w, GoMap.get? (GoMap.getD g.Weights src []) dst = some w) :=
  ⟨h.weight_iff_added src dst,
    fun he => (h.weight_iff_added src dst).2 (h.edge_added src dst ((HasEdge_iff _ _ _).1 he))⟩

theorem weight_entry_iff_added_witness :
    Reached [Op.remove nA nB, Op.add nA nB []] oneEdgeRemoved ∧
      ((∃ w, GoMap.get? (GoMap.getD oneEdgeRemoved.Weights nA []) nB = some w) ↔
        wasAdded nA nB [Op.remove nA nB, Op.add nA nB []]) ∧
      (oneEdgeRemoved.HasEdge nA nB = true →
        ∃ w, GoMap.get? (GoMap.getD oneEdgeRemoved.Weights nA []) nB = some w) :=
  ⟨oneEdgeRemoved_reached,
    weight_entry_iff_added [Op.remove nA nB, Op.add nA nB []] oneEdgeRemoved
      oneEdgeRemoved_reached nA nB⟩

/-! ## `Clone`, `ComputeSourceAndSink` and the frame of `TopoSort` -/

/-- C13 (counterexample): the clone of `detour` has the content of `detour`, and each
of the two visiting orders lists every key of the node map once. `TopoSort` on `detour`,
its node map visited in the order A, C, B, D, returns `[A, C, B, D]`; `TopoSort` on the
clone, its node map visited in the order C, B, D, A, returns `[C, A, B, D]`. Both are
topological orders of the graph, and they differ; so do the results of
`LongestPath(A, D)`. -/
theorem Clone_results_depend_on_visiting_order :
    detour.Clone = detour ∧ [nA, nC, nB, nD].Perm (GoMap.keys detour.Nodes) ∧
      [nC, nB, nD, nA].Perm (GoMap.keys detour.Clone.Nodes) ∧
      (detour.TopoSort [nA, nC, nB, nD]).2 = Except.ok [nA, nC, nB, nD] ∧
      (detour.Clone.TopoSort [nC, nB, nD, nA]).2 = Except.ok [nC, nA, nB, nD] ∧
      (detour.Clone.TopoSort [nC, nB, nD, nA]).2 ≠ (detour.TopoSort [nA, nC, nB, nD]).2 ∧
      (detour.LongestPath [nA, nC, nB, nD] nA nD).2
        = Except.ok (6, [Node.nil, nC, nB, nD]) ∧
      (detour.Clone.LongestPath [nC, nB, nD, nA] nA nD).2
        = Except.ok (5, [Node.nil, nB, nD]) := by
  have h1 : (detour.TopoSort [nA, nC, nB, nD]).2 = Except.ok [nA, nC, nB, nD] := rfl
  have h2 : (detour.Clone.TopoSort [nC, nB, nD, nA]).2 = Except.ok [nC, nA, nB, nD] := rfl
  have h3 : (detour.LongestPath [nA, nC, nB, nD] nA nD).2
      = Except.ok (6, [Node.nil, nC, nB, nD]) := rfl
  have h4 : (detour.Clone.LongestPath [nC, nB, nD, nA] nA nD).2
      = Except.ok (5, [Node.nil, nB, nD]) := rfl
  have h5 : detour.Clone = detour := Clone_eq detour
  have p1 : [nA, nC, nB, nD].Perm (GoMap.keys detour.Nodes) := by decide
  have p2 : [nC, nB, nD, nA].Perm (GoMap.keys detour.Clone.Nodes) := by
    rw [h5]
    decide
  refine ⟨h5, p1, p2, h1, h2, ?_, h3, h4⟩
  rw [h1, h2]
  intro h
  injection h with h
  exact absurd h (by decide)

/-- C13 (amended): `Clone` returns a graph whose nodes, edges (every adjacency list
with the same elements in the same order), weights, degree maps, source and sink are equal
in content to those of `g` (`Clone` is a function of `g` and does not change it);
consequently `HasEdge` gives the same results on the clone as on `g`, and `TopoSort` and
`LongestPath` give the same results on the clone as on `g` whenever the node maps of the
two graphs are visited in the same order `it`. -/
theorem Clone_content (g : Graph) :
    (g.Clone.Nodes = g.Nodes ∧ g.Clone.Edges = g.Edges ∧ g.Clone.Weights = g.Weights ∧
      g.Clone.InDegree = g.InDegree ∧ g.Clone.OutDegree = g.OutDegree ∧
      g.Clone.Source = g.Source ∧ g.Clone.Sink = g.Sink) ∧
    (∀ src dst, g.Clone.HasEdge src dst = g.HasEdge src dst) ∧
    (∀ it, (g.Clone.TopoSort it).2 = (g.TopoSort it).2) ∧
    (∀ it src dst, (g.Clone.LongestPath it src dst).2 = (g.LongestPath it src dst).2) := by
  rw [Clone_eq]
  exact ⟨⟨rfl, rfl, rfl, rfl, rfl, rfl, rfl⟩, fun _ _ => rfl, fun _ => rfl, fun _ _ _ => rfl⟩

/-- C15: after `ComputeSourceAndSink`, whatever the cached values were, a node
occurs in `source` exactly when it is a node with in-degree 0 and in `sink` exactly when it
is a node with out-degree 0, no node occurs twice in either sequence, and nodes, edges,
weights and the degree maps are unchanged. -/
theorem ComputeSourceAndSink_effect (g : Graph) (it : List Node)
    (hn : (GoMap.keys g.Nodes).Nodup) (hit : it.Perm (GoMap.keys g.Nodes)) :
    (∀ n, n ∈ (g.ComputeSourceAndSink it).Source ↔
      n ∈ GoMap.keys g.Nodes ∧ GoMap.getD g.InDegree n 0 = 0) ∧
    (∀ n, n ∈ (g.ComputeSourceAndSink it).Sink ↔
      n ∈ GoMap.keys g.Nodes ∧ GoMap.getD g.OutDegree n 0 = 0) ∧
    (g.ComputeSourceAndSink it).Source.Nodup ∧ (g.ComputeSourceAndSink it).Sink.Nodup ∧
    (g.ComputeSourceAndSink it).Nodes = g.Nodes ∧ (g.ComputeSourceAndSink it).Edges = g.Edges ∧
    (g.ComputeSourceAndSink it).Weights = g.Weights ∧
    (g.ComputeSourceAndSink it).InDegree = g.InDegree ∧
    (g.ComputeSourceAndSink it).OutDegree = g.OutDegree := by
  have hnd : it.Nodup := hit.nodup_iff.2 hn
  refine ⟨?_, ?_, hnd.filter _, hnd.filter _, rfl, rfl, rfl, rfl, rfl⟩
  · intro n
    simp [Graph.ComputeSourceAndSink, List.mem_filter, hit.mem_iff]
  · intro n
    simp [Graph.ComputeSourceAndSink, List.mem_filter, hit.mem_iff]

theorem ComputeSourceAndSink_effect_witness :
    ((GoMap.keys diamond.Nodes).Nodup ∧ [nD, nC, nB, nA].Perm (GoMap.keys diamond.Nodes)) ∧
      (diamond.ComputeSourceAndSink [nD, nC, nB, nA]).Source = [nA] ∧
      (diamond.ComputeSourceAndSink [nD, nC, nB, nA]).Sink = [nD] ∧
      (∀ n, n ∈ (diamond.ComputeSourceAndSink [nD, nC, nB, nA]).Source ↔
        n ∈ GoMap.keys diamond.Nodes ∧ GoMap.getD diamond.InDegree n 0 = 0) :=
  ⟨⟨by decide, by decide⟩, rfl, rfl,
    (ComputeSourceAndSink_effect diamond [nD, nC, nB, nA] (by decide) (by decide)).1⟩

/-- On a well-formed graph on which `TopoSort` returns, the call assigns only `Source` and
`Sink` of the receiver, and the working copy, which starts as the clone, ends without any
edge. (That the working copy shares no storage with the receiver is shown in the model
with references.) -/
theorem TopoSort_consumes_copy (g : Graph) (it ts : List Node) (hwf : WellFormed g)
    (hit : it.Perm (GoMap.keys g.Nodes)) (hret : (g.TopoSort it).2 = Except.ok ts) :
    ((g.TopoSort it).1.Nodes = g.Nodes ∧ (g.TopoSort it).1.Edges = g.Edges ∧
      (g.TopoSort it).1.Weights = g.Weights ∧ (g.TopoSort it).1.InDegree = g.InDegree ∧
      (g.TopoSort it).1.OutDegree = g.OutDegree) ∧
    ∃ h1, topoLoop (g.ComputeSourceAndSink it)
        ((g.ComputeSourceAndSink it).SourceClone.length
          + edgeCount (g.ComputeSourceAndSink it).Edges)
        g.Clone (g.ComputeSourceAndSink it).SourceClone [] = Except.ok (h1, ts) ∧
      h1.Edges = [] := by
  refine ⟨⟨rfl, rfl, rfl, rfl, rfl⟩, ?_⟩
  have hg1 := hwf.inv.computeSourceAndSink it
  have hstart : Kahn (g.ComputeSourceAndSink it) g.Clone
      (g.ComputeSourceAndSink it).SourceClone [] := TopoSort_start hwf.inv hit
  have hfuel : edgeCount g.Clone.Edges + (g.ComputeSourceAndSink it).SourceClone.length
      ≤ (g.ComputeSourceAndSink it).SourceClone.length
        + edgeCount (g.ComputeSourceAndSink it).Edges := by
    rw [Clone_eq]
    exact le_of_eq (Nat.add_comm _ _)
  obtain ⟨h1, ts1, heq, _⟩ := topoLoop_spec _ hg1 _ _ _ _ hstart hfuel
  have hres : (g.TopoSort it).2
      = if h1.Edges.length > 0 then Except.error Fault.notDAG else Except.ok ts1 := by
    simp only [Graph.TopoSort, heq]
  rw [hres] at hret
  by_cases he : h1.Edges.length > 0
  · simp [he] at hret
  · simp only [he, if_false, Except.ok.injEq] at hret
    subst hret
    exact ⟨h1, heq, List.length_eq_zero.1 (by omega)⟩

/-! ## `LongestPath` outside its intended range -/

theorem getD_mem_of_lt {ts : List Node} {i : Nat} (hi : i < ts.length) :
    ts.getD i Node.nil ∈ ts := by
  rw [List.getD_eq_getElem _ _ hi]
  exact List.getElem_mem _

/-- The tables of the dynamic program only have entries for nodes of the order. -/
theorem lpTable_keys (g : Graph) (ts : List Node) :
    ∀ x, x ∉ ts → GoMap.get? (lpTable g ts).1 x = none ∧ GoMap.get? (lpTable g ts).2 x = none := by
  unfold lpTable
  apply foldl_inv (fun st : intMap × GoMap Node =>
    ∀ x, x ∉ ts → GoMap.get? st.1 x = none ∧ GoMap.get? st.2 x = none)
  · intro x _
    exact ⟨rfl, rfl⟩
  · intro st i hi hst x hx
    have hi2 : i < ts.length := by
      have := List.mem_range'_1.1 hi
      omega
    have hne : ¬ ts.getD i Node.nil = x := fun e => hx (e ▸ getD_mem_of_lt hi2)
    unfold lpOuterStep
    simp only [GoMap.get?_set, hne, if_false]
    refine ⟨(hst x hx).1, ?_⟩
    apply foldl_inv (fun r : Int × GoMap Node => GoMap.get? r.2 x = none)
    · exact (hst x hx).2
    · intro r j _ hr
      unfold lpInnerStep
      simp only []
      split
      · exact hr
      · split
        · simp only [GoMap.get?_set, hne, if_false]
          exact hr
        · exact hr

theorem sliceFrom_subset (src : Node) (ts : List Node) : ∀ x, x ∈ sliceFrom src ts → x ∈ ts := by
  intro x hx
  unfold sliceFrom at hx
  split at hx
  · exact List.mem_of_mem_drop hx
  · exact hx

theorem sliceTo_of_not_mem {dst : Node} {ts : List Node} (h : dst ∉ ts) :
    sliceTo dst ts = ts := by
  simp [sliceTo, firstIdx_none.2 h]

/-- The first match of `src` in a list without repetition splits the list in front of
`src`. -/
theorem sliceFrom_eq_drop {src : Node} {ts : List Node} (hsrc : src ∈ ts) :
    sliceFrom src ts = ts.drop (ts.indexOf src) ∧ firstIdx src ts = some (ts.indexOf src) := by
  induction ts with
  | nil => simp at hsrc
  | cons v ts ih =>
    by_cases hv : v = src
    · subst hv
      simp [sliceFrom, firstIdx]
    · have hmem : src ∈ ts := by
        rcases List.mem_cons.1 hsrc with e | e
        · exact absurd e.symm hv
        · exact e
      obtain ⟨h1, h2⟩ := ih hmem
      have hidx : (v :: ts).indexOf src = ts.indexOf src + 1 := List.indexOf_cons_ne _ hv
      constructor
      · simp only [sliceFrom, firstIdx, hv, if_false, h2, Option.map_some', hidx,
          List.drop_succ_cons]
      · simp [firstIdx, hv, h2, hidx]

theorem not_mem_sliceFrom_of_before {src dst : Node} {ts : List Node} (hnd : ts.Nodup)
    (hsrc : src ∈ ts) (hlt : ts.indexOf dst < ts.indexOf src) : dst ∉ sliceFrom src ts := by
  rw [(sliceFrom_eq_drop hsrc).1]
  intro hmem
  have hdst : dst ∈ ts := List.mem_of_mem_drop hmem
  have hsplit : ts = ts.take (ts.indexOf src) ++ ts.drop (ts.indexOf src) :=
    (List.take_append_drop _ _).symm
  have hdisj := List.nodup_append.1 (hsplit ▸ hnd)
  have hnot : dst ∉ ts.take (ts.indexOf src) := fun h => hdisj.2.2 h hmem
  have hidx : ts.indexOf dst
      = (ts.take (ts.indexOf src)).length + (ts.drop (ts.indexOf src)).indexOf dst := by
    conv_lhs => rw [hsplit]
    exact List.indexOf_append_of_not_mem hnot
  have hlen : (ts.take (ts.indexOf src)).length = ts.indexOf src := by
    have := List.indexOf_lt_length.2 hsrc
    simp [List.length_take]
    omega
  omega

/-- What `LongestPath` returns when `dst` does not lie in the part of the order that
starts at `src`. -/
theorem LongestPath_of_not_mem {g : Graph} {it ts0 : List Node} {src dst : Node}
    (hts : (g.TopoSort it).2 = Except.ok ts0) (hdst : dst ∉ sliceFrom src ts0) :
    (g.LongestPath it src dst).2 = Except.ok (0, [dst]) ∨
      (g.LongestPath it src dst).2 = Except.ok (0, [Node.nil, dst]) := by
  have hkeys := lpTable_keys (g.TopoSort it).1 (sliceFrom src ts0) dst hdst
  simp only [Graph.LongestPath, hts, sliceTo_of_not_mem hdst]
  have hl : GoMap.getD (lpTable (g.TopoSort it).1 (sliceFrom src ts0)).1 dst 0 = 0 := by
    simp [GoMap.getD, hkeys.1]
  have hb : GoMap.getD (lpTable (g.TopoSort it).1 (sliceFrom src ts0)).2 dst Node.nil
      = Node.nil := by
    simp [GoMap.getD, hkeys.2]
  rw [hl]
  split
  · right
    simp [lpWalk, hb]
  · left
    rfl

/-- C16 (counterexample): on the graph of the worked example `LongestPath` returns a
length and a path, and reports no failure, when `src` comes after `dst` in the
topological order, when `src` is not a node and when `dst` is not a node. -/
theorem LongestPath_reports_no_range_failure :
    (diamond.TopoSort [nA, nB, nD, nC]).2 = Except.ok [nA, nB, nC, nD] ∧
      (diamond.LongestPath [nA, nB, nD, nC] nD nA).2 = Except.ok (0, [nA]) ∧
      (diamond.LongestPath [nA, nB, nD, nC] (Node.IntNode 9) nD).2
        = Except.ok (6, [Node.nil, nA, nC, nD]) ∧
      (diamond.LongestPath [nA, nB, nD, nC] nA (Node.IntNode 9)).2
        = Except.ok (0, [Node.nil, Node.IntNode 9]) :=
  ⟨rfl, rfl, rfl, rfl⟩

/-- C16 (amended): `LongestPath` has no invalid-range outcome. On every well-formed
acyclic graph it returns a length and a path for all `src` and `dst`; when `dst` is not a
node of the graph, or `dst` occurs before `src` in the topological order, the returned
length is 0 and the returned path is `[dst]` or `[nil, dst]`. -/
theorem LongestPath_outside_range (g : Graph) (it : List Node) (src dst : Node)
    (hwf : WellFormed g) (hac : Acyclic g) (hit : it.Perm (GoMap.keys g.Nodes)) :
    ∃ ts l p, (g.TopoSort it).2 = Except.ok ts ∧
      (g.LongestPath it src dst).2 = Except.ok (l, p) ∧
      ((dst ∉ GoMap.keys g.Nodes ∨ (src ∈ ts ∧ ts.indexOf dst < ts.indexOf src)) →
        l = 0 ∧ (p = [dst] ∨ p = [Node.nil, dst])) := by
  rcases TopoSort_cases hwf hit with ⟨ts0, hts, hperm, _⟩ | ⟨_, hc⟩
  · have hnd : ts0.Nodup := hperm.nodup_iff.2 hwf.inv.nodupNodes
    obtain ⟨p, hp⟩ := LongestPath_returns src dst hts hnd
    refine ⟨ts0, _, p, hts, hp, ?_⟩
    intro hcase
    have hnot : dst ∉ sliceFrom src ts0 := by
      rcases hcase with h | ⟨h1, h2⟩
      · exact fun hm => h (hperm.mem_iff.1 (sliceFrom_subset src ts0 dst hm))
      · exact not_mem_sliceFrom_of_before hnd h1 h2
    rcases LongestPath_of_not_mem hts hnot with h | h
    · rw [h] at hp
      simp only [Except.ok.injEq, Prod.mk.injEq] at hp
      exact ⟨hp.1.symm, Or.inl hp.2.symm⟩
    · rw [h] at hp
      simp only [Except.ok.injEq, Prod.mk.injEq] at hp
      exact ⟨hp.1.symm, Or.inr hp.2.symm⟩
  · exact absurd hc hac

theorem LongestPath_outside_range_witness :
    (WellFormed diamond ∧ Acyclic diamond ∧
      [nA, nB, nD, nC].Perm (GoMap.keys diamond.Nodes)) ∧
    ∃ ts l p, (diamond.TopoSort [nA, nB, nD, nC]).2 = Except.ok ts ∧
      (diamond.LongestPath [nA, nB, nD, nC] nD nA).2 = Except.ok (l, p) ∧
      ((nA ∉ GoMap.keys diamond.Nodes ∨ (nD ∈ ts ∧ ts.indexOf nA < ts.indexOf nD)) →
        l = 0 ∧ (p = [nA] ∨ p = [Node.nil, nA])) :=
  ⟨⟨diamond_wf, diamond_acyclic, List.Perm.refl _⟩,
    LongestPath_outside_range diamond [nA, nB, nD, nC] nD nA diamond_wf diamond_acyclic
      (List.Perm.refl _)⟩

/-! ## The dynamic program of `LongestPath` -/

theorem lpInnerStep_eq (g : Graph) (ts : List Node) (dist : intMap) (i : Nat)
    (st : Int × GoMap Node) (j : Nat) :
    lpInnerStep g ts dist i st j =
      if g.HasEdge (ts.getD j Node.nil) (ts.getD i Node.nil) = false then st
      else if candAt g ts dist i j > st.1 then
        (candAt g ts dist i j, GoMap.set st.2 (ts.getD i Node.nil) (ts.getD j Node.nil))
      else st := rfl

theorem lpInner_spec (g : Graph) (ts : List Node) (dist : intMap) (i : Nat)
    (back0 : GoMap Node) :
    ∀ m, InnerOK g ts dist i back0 m
      ((List.range m).foldl (lpInnerStep g ts dist i) (0, back0)) := by
  intro m
  induction m with
  | zero =>
    refine ⟨le_refl _, ?_, fun _ _ => rfl, Or.inl ⟨rfl, rfl⟩⟩
    intro j hj
    omega
  | succ m ih =>
    rw [List.range_succ, List.foldl_append]
    generalize (List.range m).foldl (lpInnerStep g ts dist i) (0, back0) = r at ih
    simp only [List.foldl_cons, List.foldl_nil, lpInnerStep_eq]
    by_cases he : g.HasEdge (ts.getD m Node.nil) (ts.getD i Node.nil) = false
    · rw [if_pos he]
      have hne : ¬ edgeAt g ts i m := by
        intro h
        rw [edgeAt, he] at h
        cases h
      refine ⟨ih.nonneg, ?_, ih.other, ?_⟩
      · intro j hj hej
        rcases Nat.lt_succ_iff_lt_or_eq.1 hj with h | h
        · exact ih.bound j h hej
        · subst h
          exact absurd hej hne
      · rcases ih.best with h | ⟨j, hj, h⟩
        · exact Or.inl h
        · exact Or.inr ⟨j, by omega, h⟩
    · rw [if_neg he]
      have hem : edgeAt g ts i m := by
        simp only [edgeAt]
        cases hh : g.HasEdge (ts.getD m Node.nil) (ts.getD i Node.nil) with
        | true => rfl
        | false => exact absurd hh he
      by_cases hc : candAt g ts dist i m > r.1
      · rw [if_pos hc]
        refine ⟨by have := ih.nonneg; simp only []; omega, ?_, ?_, ?_⟩
        · intro j hj hej
          rcases Nat.lt_succ_iff_lt_or_eq.1 hj with h | h
          · have := ih.bound j h hej
            simp only []
            omega
          · subst h
            exact le_refl _
        · intro k hk
          simp only [GoMap.get?_set]
          have hk2 : ¬ ts.getD i Node.nil = k := fun e => hk e.symm
          simp only [hk2, if_false]
          exact ih.other k hk
        · right
          refine ⟨m, by omega, hem, rfl, ?_, ?_, ?_⟩
          · have := ih.nonneg
            simp only []
            omega
          · intro j1 hj1 hej1
            have := ih.bound j1 hj1 hej1
            simp only []
            omega
          · simp [GoMap.get?_set]
      · rw [if_neg hc]
        refine ⟨ih.nonneg, ?_, ih.other, ?_⟩
        · intro j hj hej
          rcases Nat.lt_succ_iff_lt_or_eq.1 hj with h | h
          · exact ih.bound j h hej
          · subst h
            omega
        · rcases ih.best with h | ⟨j, hj, h⟩
          · exact Or.inl h
          · exact Or.inr ⟨j, by omega, h⟩

theorem getD_ne_of_nodup {ts : List Node} (hnd : ts.Nodup) {i j : Nat} (hi : i < ts.length)
    (hj : j < ts.length) (hij : i ≠ j) : ts.getD i Node.nil ≠ ts.getD j Node.nil := by
  rw [List.getD_eq_getElem _ _ hi, List.getD_eq_getElem _ _ hj]
  intro h
  exact hij ((hnd.getElem_inj_iff).1 h)

theorem TieBreak_congr {g : Graph} {ts : List Node} {dist dist1 : intMap}
    {back back1 : GoMap Node} {i : Nat}
    (hc : ∀ j, j < i → candAt g ts dist1 i j = candAt g ts dist i j)
    (hb : GoMap.get? back1 (ts.getD i Node.nil) = GoMap.get? back (ts.getD i Node.nil))
    (h : TieBreak g ts dist back i) : TieBreak g ts dist1 back1 i := by
  intro j hj he hpos hmax hearly
  rw [hb]
  apply h j hj he
  · rw [← hc j hj]
    exact hpos
  · intro j1 hj1 he1
    rw [← hc j hj, ← hc j1 hj1]
    exact hmax j1 hj1 he1
  · intro j1 hj1 he1
    rw [← hc j hj, ← hc j1 (by omega)]
    exact hearly j1 hj1 he1

theorem lpOuter_spec (g : Graph) {ts : List Node} (hnd : ts.Nodup) :
    ∀ n, n + 1 ≤ ts.length →
      TableOK g ts n ((List.range' 1 n).foldl (lpOuterStep g ts) ([], [])) := by
  intro n
  induction n with
  | zero =>
    intro _
    refine ⟨?_, ?_, ?_, ?_, ?_⟩
    · intro x
      simp [GoMap.getD, GoMap.get?]
    · intro i j h1 h2
      omega
    · intro i h1 h2
      omega
    · intro i h1 h2
      omega
    · intro i _ _
      exact ⟨rfl, rfl⟩
  | succ n ih =>
    intro hlen
    have hprev := ih (by omega)
    rw [List.range'_1_concat, List.foldl_append]
    generalize (List.range' 1 n).foldl (lpOuterStep g ts) ([], []) = st at hprev
    simp only [List.foldl_cons, List.foldl_nil]
    have hin := lpInner_spec g ts st.1 (1 + n) st.2 (1 + n)
    have hstep : lpOuterStep g ts st (1 + n)
        = (GoMap.set st.1 (ts.getD (1 + n) Node.nil)
            ((List.range (1 + n)).foldl (lpInnerStep g ts st.1 (1 + n)) (0, st.2)).1,
          ((List.range (1 + n)).foldl (lpInnerStep g ts st.1 (1 + n)) (0, st.2)).2) := rfl
    rw [hstep]
    generalize (List.range (1 + n)).foldl (lpInnerStep g ts st.1 (1 + n)) (0, st.2) = r at hin
    have hi : 1 + n < ts.length := by omega
    -- the new entry does not disturb earlier positions
    have hdist : ∀ j, j < ts.length → j ≠ 1 + n →
        GoMap.getD (GoMap.set st.1 (ts.getD (1 + n) Node.nil) r.1) (ts.getD j Node.nil) 0
          = GoMap.getD st.1 (ts.getD j Node.nil) 0 := by
      intro j hj hne
      rw [GoMap.getD_set, if_neg (getD_ne_of_nodup hnd hi hj (fun e => hne e.symm))]
    have hcand : ∀ i j, j < i → i ≤ 1 + n →
        candAt g ts (GoMap.set st.1 (ts.getD (1 + n) Node.nil) r.1) i j
          = candAt g ts st.1 i j := by
      intro i j hj hile
      simp only [candAt]
      rw [hdist j (by omega) (by omega)]
    have hback : ∀ j, j < ts.length → j ≠ 1 + n →
        GoMap.get? r.2 (ts.getD j Node.nil) = GoMap.get? st.2 (ts.getD j Node.nil) := by
      intro j hj hne
      exact hin.other _ (getD_ne_of_nodup hnd hj hi hne)
    refine ⟨?_, ?_, ?_, ?_, ?_⟩
    · intro x
      simp only [GoMap.getD_set]
      split
      · exact hin.nonneg
      · exact hprev.nonneg x
    · intro i j h1 h2 hj he
      rw [hcand i j hj (by omega)]
      by_cases hlast : i = 1 + n
      · subst hlast
        simp only [GoMap.getD_set, if_true]
        exact hin.bound j hj he
      · rw [hdist i (by omega) hlast]
        exact hprev.bound i j h1 (by omega) hj he
    · intro i h1 h2
      by_cases hlast : i = 1 + n
      · subst hlast
        intro j hj he hpos hmax hearly
        rw [hcand _ j hj (le_refl _)] at hpos
        have hmax1 : ∀ j1, j1 < 1 + n → edgeAt g ts (1 + n) j1 →
            candAt g ts st.1 (1 + n) j1 ≤ candAt g ts st.1 (1 + n) j := by
          intro j1 hj1 he1
          have := hmax j1 hj1 he1
          rw [hcand _ j1 hj1 (le_refl _), hcand _ j hj (le_refl _)] at this
          exact this
        have hearly1 : ∀ j1, j1 < j → edgeAt g ts (1 + n) j1 →
            candAt g ts st.1 (1 + n) j1 < candAt g ts st.1 (1 + n) j := by
          intro j1 hj1 he1
          have := hearly j1 hj1 he1
          rw [hcand _ j1 (by omega) (le_refl _), hcand _ j hj (le_refl _)] at this
          exact this
        have hle := hin.bound j hj he
        rcases hin.best with ⟨h0, _⟩ | ⟨j0, hj0, he0, hc0, _, hearly0, hget0⟩
        · omega
        · have h1 := hmax1 j0 hj0 he0
          have hjj : j = j0 := by
            rcases Nat.lt_trichotomy j j0 with hlt | heq | hgt
            · have := hearly0 j hlt he
              omega
            · exact heq
            · have := hearly1 j0 hgt he0
              omega
          rw [hjj]
          exact hget0
      · apply TieBreak_congr (fun j hj => hcand i j hj (by omega)) (hback i (by omega) hlast)
        exact hprev.tie i h1 (by omega)
    · intro i h1 h2
      by_cases hlast : i = 1 + n
      · subst hlast
        simp only [GoMap.getD_set, if_true]
        rcases hin.best with ⟨h0, _⟩ | ⟨j0, hj0, he0, hc0, _, _, _⟩
        · exact Or.inl h0
        · exact Or.inr ⟨j0, hj0, he0, by rw [hcand _ j0 hj0 (le_refl _)]; exact hc0⟩
      · rw [hdist i (by omega) hlast]
        rcases hprev.attained i h1 (by omega) with h0 | ⟨j0, hj0, he0, hc0⟩
        · exact Or.inl h0
        · exact Or.inr ⟨j0, hj0, he0, by rw [hcand i j0 hj0 (by omega)]; exact hc0⟩
    · intro i h1 h2
      have hne : i ≠ 1 + n := by omega
      constructor
      · have hk : ¬ ts.getD (1 + n) Node.nil = ts.getD i Node.nil :=
          getD_ne_of_nodup hnd hi h2 (fun e => hne e.symm)
        simp only [GoMap.get?_set, hk, if_false]
        exact (hprev.fresh i (by omega) h2).1
      · rw [hback i h2 hne]
        exact (hprev.fresh i (by omega) h2).2

/-- The tables computed by the dynamic program over an order without repetition. -/
theorem lpTable_spec (g : Graph) {ts : List Node} (hnd : ts.Nodup) :
    TableOK g ts (ts.length - 1) (lpTable g ts) := by
  cases hts : ts with
  | nil =>
    subst hts
    have := lpOuter_spec g hnd 0
    refine ⟨?_, ?_, ?_, ?_, ?_⟩
    · intro x
      simp [lpTable, GoMap.getD, GoMap.get?]
    · intro i j h1 h2
      simp at h2
      omega
    · intro i h1 h2
      simp at h2
      omega
    · intro i h1 h2
      simp at h2
      omega
    · intro i _ h
      simp at h
  | cons v t =>
    rw [← hts]
    exact lpOuter_spec g hnd (ts.length - 1) (by rw [hts]; simp)

theorem tieGraph_wf : WellFormed tieGraph :=
  WellFormed.addEdge _ _ _ (WellFormed.addEdge _ _ _ (WellFormed.addEdge _ _ _
    (WellFormed.addEdge _ _ _ WellFormed.new)))

theorem tieGraph_acyclic : Acyclic tieGraph := by
  rcases @TopoSort_cases tieGraph [nA, nB, nC, nD] tieGraph_wf (List.Perm.refl _) with
    ⟨ts1, _, _, hfw⟩ | ⟨h1, _⟩
  · exact hfw.acyclic
  · have h2 : (tieGraph.TopoSort [nA, nB, nC, nD]).2 = Except.ok [nA, nB, nC, nD] := rfl
    rw [h2] at h1
    cases h1

theorem zeroTie_wf : WellFormed zeroTie :=
  WellFormed.addEdge _ _ _ (WellFormed.addEdge _ _ _ WellFormed.new)

theorem zeroTie_acyclic : Acyclic zeroTie := by
  rcases @TopoSort_cases zeroTie [nA, nC, nB] zeroTie_wf (List.Perm.refl _) with
    ⟨ts1, _, _, hfw⟩ | ⟨h1, _⟩
  · exact hfw.acyclic
  · have h2 : (zeroTie.TopoSort [nA, nC, nB]).2 = Except.ok [nA, nB, nC] := rfl
    rw [h2] at h1
    cases h1

/-- C19 (failing input): in the well-formed acyclic graph A→C, B→C with both weights 0
and the order `[A, B, C]`, the predecessors A and B of C give the same maximal candidate
distance 0, so the back pointer of C should be A, the earliest of them. The code records
no back pointer for C, because `max` starts at 0 and the comparison is strict, and
`LongestPath(A, C)` returns the node sequence `[C]`, which is not a path from A to C.
On the example of the claim, where all candidates are positive, the code does return
`[A, B, D]`. -/
theorem no_back_pointer_for_zero_candidate :
    (WellFormed zeroTie ∧ Acyclic zeroTie ∧ [nA, nC, nB].Perm (GoMap.keys zeroTie.Nodes)) ∧
      (WellFormed tieGraph ∧ Acyclic tieGraph) ∧
      (zeroTie.TopoSort [nA, nC, nB]).2 = Except.ok [nA, nB, nC] ∧
      sliceTo nC (sliceFrom nA [nA, nB, nC]) = [nA, nB, nC] ∧
      (zeroTie.HasEdge nA nC = true ∧ zeroTie.HasEdge nB nC = true) ∧
      (candAt zeroTie [nA, nB, nC] (lpTable zeroTie [nA, nB, nC]).1 2 0 = 0 ∧
        candAt zeroTie [nA, nB, nC] (lpTable zeroTie [nA, nB, nC]).1 2 1 = 0) ∧
      GoMap.get? (lpTable zeroTie [nA, nB, nC]).2 nC = none ∧
      (zeroTie.LongestPath [nA, nC, nB] nA nC).2 = Except.ok (0, [nC]) ∧
      ¬ IsPathFromTo zeroTie nA nC [nC] ∧
      (tieGraph.LongestPath [nA, nB, nC, nD] nA nD).2 = Except.ok (2, [nA, nB, nD]) :=
  ⟨⟨zeroTie_wf, zeroTie_acyclic, List.Perm.refl _⟩, ⟨tieGraph_wf, tieGraph_acyclic⟩, rfl,
    rfl, ⟨rfl, rfl⟩, ⟨rfl, rfl⟩, rfl, rfl, fun h => absurd h.1 (by decide), rfl⟩

/-! ## The length returned by `LongestPath` bounds every path -/

theorem mem_drop_of_le_indexOf {ts : List Node} {x : Node} {k : Nat} (hx : x ∈ ts)
    (hk : k ≤ ts.indexOf x) :
    x ∈ ts.drop k ∧ (ts.drop k).indexOf x = ts.indexOf x - k := by
  have hsplit : ts = ts.take k ++ ts.drop k := (List.take_append_drop _ _).symm
  have hlt : ts.indexOf x < ts.length := List.indexOf_lt_length.2 hx
  have hlen : (ts.take k).length = k := by
    simp [List.length_take]
    omega
  have hnot : x ∉ ts.take k := by
    intro hmem
    have h1 : ts.indexOf x = (ts.take k).indexOf x := by
      conv_lhs => rw [hsplit]
      exact List.indexOf_append_of_mem hmem
    have h2 := List.indexOf_lt_length.2 hmem
    omega
  have hidx : ts.indexOf x = (ts.take k).length + (ts.drop k).indexOf x := by
    conv_lhs => rw [hsplit]
    exact List.indexOf_append_of_not_mem hnot
  constructor
  · rw [hsplit] at hx
    rcases List.mem_append.1 hx with h | h
    · exact absurd h hnot
    · exact h
  · omega

theorem mem_take_of_indexOf_le {ts : List Node} {x : Node} {k : Nat} (hx : x ∈ ts)
    (hk : ts.indexOf x ≤ k) :
    x ∈ ts.take (k + 1) ∧ (ts.take (k + 1)).indexOf x = ts.indexOf x := by
  have hsplit : ts = ts.take (k + 1) ++ ts.drop (k + 1) := (List.take_append_drop _ _).symm
  have hlt : ts.indexOf x < ts.length := List.indexOf_lt_length.2 hx
  have hmem : x ∈ ts.take (k + 1) := by
    by_contra hnot
    have hidx : ts.indexOf x = (ts.take (k + 1)).length + (ts.drop (k + 1)).indexOf x := by
      conv_lhs => rw [hsplit]
      exact List.indexOf_append_of_not_mem hnot
    have hlen : (ts.take (k + 1)).length = min (k + 1) ts.length := List.length_take _ _
    rcases Nat.le_total (k + 1) ts.length with h | h
    · rw [Nat.min_eq_left h] at hlen
      omega
    · rw [Nat.min_eq_right h] at hlen
      omega
  refine ⟨hmem, ?_⟩
  conv_rhs => rw [hsplit]
  exact (List.indexOf_append_of_mem hmem).symm

theorem sliceTo_eq_take {dst : Node} {ts : List Node} (hdst : dst ∈ ts) :
    sliceTo dst ts = ts.take (ts.indexOf dst + 1) ∧ firstIdx dst ts = some (ts.indexOf dst) := by
  induction ts with
  | nil => simp at hdst
  | cons v ts ih =>
    by_cases hv : v = dst
    · subst hv
      simp [sliceTo, firstIdx]
    · have hmem : dst ∈ ts := by
        rcases List.mem_cons.1 hdst with e | e
        · exact absurd e.symm hv
        · exact e
      obtain ⟨_, h2⟩ := ih hmem
      have hidx : (v :: ts).indexOf dst = ts.indexOf dst + 1 := List.indexOf_cons_ne _ hv
      constructor
      · simp only [sliceTo, firstIdx, hv, if_false, h2, Option.map_some', hidx]
      · simp [firstIdx, hv, h2, hidx]

/-- Position of a node in the part of the order between `src` and `dst`. -/
theorem slice_position {ts : List Node} {src dst x : Node} (hsrc : src ∈ ts) (hdst : dst ∈ ts)
    (hsd : ts.indexOf src ≤ ts.indexOf dst) (hx : x ∈ ts) (h1 : ts.indexOf src ≤ ts.indexOf x)
    (h2 : ts.indexOf x ≤ ts.indexOf dst) :
    x ∈ sliceTo dst (sliceFrom src ts) ∧
      (sliceTo dst (sliceFrom src ts)).indexOf x = ts.indexOf x - ts.indexOf src := by
  rw [(sliceFrom_eq_drop hsrc).1]
  obtain ⟨hd1, hd2⟩ := mem_drop_of_le_indexOf hdst hsd
  obtain ⟨hx1, hx2⟩ := mem_drop_of_le_indexOf hx h1
  rw [(sliceTo_eq_take hd1).1]
  obtain ⟨hx3, hx4⟩ := @mem_take_of_indexOf_le (ts.drop (ts.indexOf src)) x
    ((ts.drop (ts.indexOf src)).indexOf dst) hx1 (by omega)
  exact ⟨hx3, by rw [hx4, hx2]⟩

/-- Along an edge between two nodes of the order, the earlier one first, the distance
table grows at least by the stored weight. -/
theorem pathWeight_concat (g : Graph) (y : Node) :
    ∀ (p : List Node) (x : Node), p.getLast? = some x →
      pathWeight g (p ++ [y])
        = pathWeight g p + GoMap.getD (GoMap.getD g.Weights x []) y 0 := by
  intro p
  induction p with
  | nil => intro x h; simp at h
  | cons a p ih =>
    intro x hlast
    cases p with
    | nil =>
      simp only [List.getLast?_singleton, Option.some.injEq] at hlast
      subst hlast
      simp [pathWeight]
    | cons b p =>
      have hlast2 : (b :: p).getLast? = some x := by
        simpa [List.getLast?_cons_cons] using hlast
      have h1 : pathWeight g (a :: b :: p ++ [y])
          = GoMap.getD (GoMap.getD g.Weights a []) b 0 + pathWeight g (b :: p ++ [y]) := rfl
      have h2 : pathWeight g (a :: b :: p)
          = GoMap.getD (GoMap.getD g.Weights a []) b 0 + pathWeight g (b :: p) := rfl
      rw [h1, h2, ih x hlast2]
      omega

theorem chain_concat {g : Graph} {p : List Node} {x y : Node} (hc : List.Chain' (Edge g) p)
    (hlast : p.getLast? = some x) (he : Edge g x y) : List.Chain' (Edge g) (p ++ [y]) := by
  apply List.Chain'.append hc (List.chain'_singleton y)
  intro a ha b hb
  rw [hlast] at ha
  simp only [Option.mem_def, Option.some.injEq, List.head?_cons] at ha hb
  subst ha
  subst hb
  exact he

/-- When no sum along a path overflows, every entry of the distance table is the weight
of a path that ends in the node of the entry, and no addition of the dynamic program
wraps. -/
theorem lpTable_realized (g : Graph) (ts : List Node) (hno : NoOverflow g) :
    ∀ x, ∃ p, p.getLast? = some x ∧ List.Chain' (Edge g) p ∧
      pathWeight g p = GoMap.getD (lpTable g ts).1 x 0 := by
  unfold lpTable
  apply foldl_inv (fun st : intMap × GoMap Node =>
    ∀ x, ∃ p, p.getLast? = some x ∧ List.Chain' (Edge g) p ∧
      pathWeight g p = GoMap.getD st.1 x 0)
  · intro x
    exact ⟨[x], rfl, List.chain'_singleton x, rfl⟩
  · intro st i _ hst x
    unfold lpOuterStep
    simp only [GoMap.getD_set]
    by_cases hx : ts.getD i Node.nil = x
    · rw [if_pos hx]
      rcases (lpInner_spec g ts st.1 i st.2 i).best with h0 | ⟨j, _, he, hcand, _⟩
      · rw [h0.1]
        exact ⟨[x], rfl, List.chain'_singleton x, rfl⟩
      · obtain ⟨p, hlast, hchain, hpw⟩ := hst (ts.getD j Node.nil)
        have hedge : Edge g (ts.getD j Node.nil) (ts.getD i Node.nil) :=
          (HasEdge_iff g _ _).1 he
        have hc2 := chain_concat hchain hlast hedge
        have hr := hno _ hc2
        rw [pathWeight_concat g _ p _ hlast, hpw] at hr
        rw [← hcand, candAt, wrap64_of_range hr.1 hr.2, ← hpw,
          ← pathWeight_concat g _ p _ hlast, ← hx]
        exact ⟨p ++ [ts.getD i Node.nil], by simp, hc2, rfl⟩
    · rw [if_neg hx]
      exact hst x

theorem table_edge_bound {g : Graph} {ts : List Node} (hno : NoOverflow g)
    (htab : TableOK g ts (ts.length - 1) (lpTable g ts)) {u v : Node} (hu : u ∈ ts)
    (hv : v ∈ ts) (hlt : ts.indexOf u < ts.indexOf v) (he : g.HasEdge u v = true) :
    GoMap.getD (lpTable g ts).1 u 0 + GoMap.getD (GoMap.getD g.Weights u []) v 0
      ≤ GoMap.getD (lpTable g ts).1 v 0 := by
  obtain ⟨p, hlast, hchain, hpw⟩ := lpTable_realized g ts hno u
  have hr := hno _ (chain_concat hchain hlast ((HasEdge_iff g u v).1 he))
  rw [pathWeight_concat g v p u hlast, hpw] at hr
  have hiu : ts.indexOf u < ts.length := List.indexOf_lt_length.2 hu
  have hiv : ts.indexOf v < ts.length := List.indexOf_lt_length.2 hv
  have hgu : ts.getD (ts.indexOf u) Node.nil = u := by
    rw [List.getD_eq_getElem _ _ hiu]
    exact List.getElem_indexOf hiu
  have hgv : ts.getD (ts.indexOf v) Node.nil = v := by
    rw [List.getD_eq_getElem _ _ hiv]
    exact List.getElem_indexOf hiv
  have h := htab.bound (ts.indexOf v) (ts.indexOf u) (by omega) (by omega) hlt
    (by simp only [edgeAt, hgu, hgv]; exact he)
  simp only [candAt, hgu, hgv, wrap64_of_range hr.1 hr.2] at h
  exact h

theorem chain_index_le {g : Graph} {ts : List Node} (hfw : Forward g ts) (dst : Node) :
    ∀ (p : List Node) (u : Node), p.head? = some u → p.getLast? = some dst →
      List.Chain' (Edge g) p → ts.indexOf u ≤ ts.indexOf dst := by
  intro p
  induction p with
  | nil => intro u h; simp at h
  | cons x p ih =>
    intro u hhead hlast hchain
    simp only [List.head?_cons, Option.some.injEq] at hhead
    subst hhead
    cases p with
    | nil =>
      simp only [List.getLast?_singleton, Option.some.injEq] at hlast
      subst hlast
      exact le_refl _
    | cons y p =>
      simp only [List.chain'_cons] at hchain
      have h1 := hfw x y hchain.1
      have h2 := ih y rfl (by simpa [List.getLast?_cons_cons] using hlast) hchain.2
      omega

theorem pathWeight_congr {g g1 : Graph} (h : g1.Weights = g.Weights) :
    ∀ p, pathWeight g1 p = pathWeight g p := by
  intro p
  induction p with
  | nil => rfl
  | cons x p ih =>
    cases p with
    | nil => rfl
    | cons y p =>
      simp only [pathWeight, h, ih]

/-- Along a path that ends in `dst` and runs inside the part of the order between `src`
and `dst`, the distance table grows at least by the weight of the path. -/
theorem path_bound {g : Graph} {ts : List Node} {src dst : Node} (hno : NoOverflow g)
    (hfw : Forward g ts)
    (hclosed : ∀ u v, Edge g u v → u ∈ ts ∧ v ∈ ts)
    (htab : TableOK g (sliceTo dst (sliceFrom src ts))
      ((sliceTo dst (sliceFrom src ts)).length - 1) (lpTable g (sliceTo dst (sliceFrom src ts))))
    (hsrc : src ∈ ts) (hdst : dst ∈ ts) :
    ∀ (p : List Node) (u : Node), p.head? = some u → p.getLast? = some dst →
      List.Chain' (Edge g) p → ts.indexOf src ≤ ts.indexOf u →
      GoMap.getD (lpTable g (sliceTo dst (sliceFrom src ts))).1 u 0 + pathWeight g p
        ≤ GoMap.getD (lpTable g (sliceTo dst (sliceFrom src ts))).1 dst 0 := by
  intro p
  induction p with
  | nil => intro u h; simp at h
  | cons x p ih =>
    intro u hhead hlast hchain hsu
    simp only [List.head?_cons, Option.some.injEq] at hhead
    subst hhead
    cases p with
    | nil =>
      simp only [List.getLast?_singleton, Option.some.injEq] at hlast
      subst hlast
      simp [pathWeight]
    | cons y p =>
      have hlast2 : (y :: p).getLast? = some dst := by
        simpa [List.getLast?_cons_cons] using hlast
      simp only [List.chain'_cons] at hchain
      obtain ⟨hxy, hrest⟩ := hchain
      have hlt := hfw x y hxy
      have hmem := hclosed x y hxy
      have hyd := chain_index_le hfw dst (y :: p) y rfl hlast2 hrest
      have hsd : ts.indexOf src ≤ ts.indexOf dst := by omega
      have hih := ih y rfl hlast2 hrest (by omega)
      obtain ⟨hx1, hx2⟩ := slice_position hsrc hdst hsd hmem.1 hsu (by omega)
      obtain ⟨hy1, hy2⟩ := slice_position hsrc hdst hsd hmem.2 (by omega) hyd
      have hedge := table_edge_bound hno htab hx1 hy1 (by omega) ((HasEdge_iff g x y).2 hxy)
      have hpw : pathWeight g (x :: y :: p)
          = GoMap.getD (GoMap.getD g.Weights x []) y 0 + pathWeight g (y :: p) := rfl
      rw [hpw]
      omega

theorem chain_last_mem {g : Graph} {ts : List Node}
    (hclosed : ∀ u v, Edge g u v → u ∈ ts ∧ v ∈ ts) (dst : Node) :
    ∀ (p : List Node) (x y : Node), (x :: y :: p).getLast? = some dst →
      List.Chain' (Edge g) (x :: y :: p) → dst ∈ ts := by
  intro p
  induction p with
  | nil =>
    intro x y hlast hchain
    simp only [List.getLast?_cons_cons, List.getLast?_singleton, Option.some.injEq] at hlast
    subst hlast
    simp only [List.chain'_cons, List.chain'_singleton, and_true] at hchain
    exact (hclosed x y hchain).2
  | cons z p ih =>
    intro x y hlast hchain
    simp only [List.chain'_cons] at hchain
    apply ih y z
    · simpa [List.getLast?_cons_cons] using hlast
    · simp only [List.chain'_cons]
      exact hchain.2

theorem NoOverflow.topoSort {g : Graph} (hno : NoOverflow g) (it : List Node) :
    NoOverflow (g.TopoSort it).1 := by
  intro p hp
  have hpw : pathWeight (g.TopoSort it).1 p = pathWeight g p :=
    @pathWeight_congr g (g.TopoSort it).1 rfl p
  rw [hpw]
  exact hno p hp

/-- A sufficient condition for `NoOverflow`: the edges point forward in a list of `n`
nodes and `n` times the largest absolute value of a stored weight is in the 64 bit
range. -/
theorem NoOverflow.of_bound {g : Graph} {ts : List Node} {M : Int} (hfw : Forward g ts)
    (hM : ∀ u v, -M ≤ GoMap.getD (GoMap.getD g.Weights u []) v 0 ∧
      GoMap.getD (GoMap.getD g.Weights u []) v 0 ≤ M)
    (hsmall : (ts.length : Int) * M < 2 ^ 63) : NoOverflow g := by
  have hM0 : 0 ≤ M := by
    have := hM Node.nil Node.nil
    omega
  have key : ∀ (p : List Node) (u : Node), p.head? = some u → List.Chain' (Edge g) p →
      -(((ts.length - ts.indexOf u : Nat) : Int) * M) ≤ pathWeight g p ∧
        pathWeight g p ≤ ((ts.length - ts.indexOf u : Nat) : Int) * M := by
    intro p
    induction p with
    | nil => intro u h; simp at h
    | cons x p ih =>
      intro u hhead hchain
      simp only [List.head?_cons, Option.some.injEq] at hhead
      subst hhead
      cases p with
      | nil =>
        have : 0 ≤ ((ts.length - ts.indexOf x : Nat) : Int) * M :=
          mul_nonneg (Int.ofNat_nonneg _) hM0
        simp only [pathWeight]
        omega
      | cons y p =>
        simp only [List.chain'_cons] at hchain
        have hlt := hfw x y hchain.1
        have hy : ts.indexOf y ≤ ts.length := List.indexOf_le_length
        have hih := ih y rfl hchain.2
        have hw := hM x y
        have hpw : pathWeight g (x :: y :: p)
            = GoMap.getD (GoMap.getD g.Weights x []) y 0 + pathWeight g (y :: p) := rfl
        have hsplit : ((ts.length - ts.indexOf x : Nat) : Int) * M
            = M + ((ts.length - ts.indexOf x - 1 : Nat) : Int) * M := by
          have h1 : ((ts.length - ts.indexOf x : Nat) : Int)
              = 1 + ((ts.length - ts.indexOf x - 1 : Nat) : Int) := by omega
          rw [h1]
          ring
        have hmono : ((ts.length - ts.indexOf y : Nat) : Int) * M
            ≤ ((ts.length - ts.indexOf x - 1 : Nat) : Int) * M :=
          mul_le_mul_of_nonneg_right (by omega) hM0
        rw [hpw, hsplit]
        omega
  intro p hp
  cases p with
  | nil =>
    simp only [pathWeight, InRange64]
    constructor <;> norm_num
  | cons x p =>
    have h := key (x :: p) x rfl hp
    have hle : ((ts.length - ts.indexOf x : Nat) : Int) * M ≤ (ts.length : Int) * M :=
      mul_le_mul_of_nonneg_right (by omega) hM0
    constructor <;> omega

theorem weights_bound_of_entries {g : Graph} {M : Int} (hM0 : 0 ≤ M)
    (h : ∀ kv ∈ g.Weights, ∀ e ∈ kv.2, -M ≤ e.2 ∧ e.2 ≤ M) (u v : Node) :
    -M ≤ GoMap.getD (GoMap.getD g.Weights u []) v 0 ∧
      GoMap.getD (GoMap.getD g.Weights u []) v 0 ≤ M := by
  cases hu : GoMap.get? g.Weights u with
  | none =>
    simp only [GoMap.getD, hu, GoMap.get?]
    omega
  | some wm =>
    cases hv : GoMap.get? wm v with
    | none =>
      simp only [GoMap.getD, hu, hv]
      omega
    | some x =>
      simp only [GoMap.getD, hu, hv]
      exact h (u, wm) (GoMap.mem_of_get? hu) (v, x) (GoMap.mem_of_get? hv)

theorem diamond_forward : Forward diamond [nA, nB, nC, nD] := by
  rcases @TopoSort_cases diamond [nA, nB, nC, nD] diamond_wf (by decide) with
    ⟨ts1, h1, _, hfw⟩ | ⟨h1, _⟩
  · have h2 : (diamond.TopoSort [nA, nB, nC, nD]).2 = Except.ok [nA, nB, nC, nD] := rfl
    rw [h2] at h1
    cases h1
    exact hfw
  · have h2 : (diamond.TopoSort [nA, nB, nC, nD]).2 = Except.ok [nA, nB, nC, nD] := rfl
    rw [h2] at h1
    cases h1

theorem diamond_noOverflow : NoOverflow diamond :=
  NoOverflow.of_bound diamond_forward
    (weights_bound_of_entries (by decide) (by decide : ∀ kv ∈ diamond.Weights,
      ∀ e ∈ kv.2, -(5 : Int) ≤ e.2 ∧ e.2 ≤ 5)) (by decide)

theorem heavyEnd_wf : WellFormed heavyEnd :=
  WellFormed.addEdge _ _ _ (WellFormed.addEdge _ _ _ (WellFormed.addEdge _ _ _
    (WellFormed.addEdge _ _ _ WellFormed.new)))

theorem heavyEnd_acyclic : Acyclic heavyEnd := by
  rcases @TopoSort_cases heavyEnd [nA, nB, nC, nD] heavyEnd_wf (List.Perm.refl _) with
    ⟨ts1, _, _, hfw⟩ | ⟨h1, _⟩
  · exact hfw.acyclic
  · have h2 : (heavyEnd.TopoSort [nA, nB, nC, nD]).2 = Except.ok [nA, nC, nB, nD] := rfl
    rw [h2] at h1
    cases h1

set_option maxRecDepth 100000 in
theorem heavyEnd_LongestPath :
    (heavyEnd.LongestPath [nA, nB, nC, nD] nA nD).2 = Except.ok (0, [Node.nil, nD]) := rfl

/-- C20 (counterexample): in the well-formed acyclic graph A→B (1), A→C (5), C→B (5),
B→D (9223372036854775802) the node sequence `[A, B, D]` is a directed path from A to D of
weight 9223372036854775803, but `LongestPath(A, D)` returns the length 0: the candidate
distance of D is `10 + 9223372036854775802`, which wraps to a negative value. -/
theorem LongestPath_below_path_weight :
    WellFormed heavyEnd ∧ Acyclic heavyEnd ∧
      [nA, nB, nC, nD].Perm (GoMap.keys heavyEnd.Nodes) ∧
      IsPathFromTo heavyEnd nA nD [nA, nB, nD] ∧
      pathWeight heavyEnd [nA, nB, nD] = 9223372036854775803 ∧
      InRange64 (pathWeight heavyEnd [nA, nB, nD]) ∧
      (heavyEnd.LongestPath [nA, nB, nC, nD] nA nD).2 = Except.ok (0, [Node.nil, nD]) ∧
      ¬ pathWeight heavyEnd [nA, nB, nD] ≤ 0 := by
  refine ⟨heavyEnd_wf, heavyEnd_acyclic, List.Perm.refl _, ⟨rfl, rfl, ?_⟩, rfl, ?_,
    heavyEnd_LongestPath, ?_⟩
  · simp only [List.chain'_cons, List.chain'_singleton, and_true]
    exact ⟨(HasEdge_iff heavyEnd nA nB).1 rfl, (HasEdge_iff heavyEnd nB nD).1 rfl⟩
  · have h : pathWeight heavyEnd [nA, nB, nD] = 9223372036854775803 := rfl
    rw [h]
    constructor <;> decide
  · have h : pathWeight heavyEnd [nA, nB, nD] = 9223372036854775803 := rfl
    rw [h]
    decide

/-- C20 (amended): the length returned by `LongestPath` is an upper bound on every
real path, as long as no sum overflows. On a well-formed acyclic graph with integer
weights such that the sum of the stored weights along every directed path of the graph
lies in the 64 bit range of Go `int`, for all nodes `src`, `dst` and every directed path
from `src` to `dst`, `LongestPath(src, dst)` returns, and the length it returns is greater
than or equal to the sum of the stored weights along the path; it is never negative. -/
theorem LongestPath_upper_bound (g : Graph) (it : List Node) (src dst : Node)
    (p : List Node) (hwf : WellFormed g) (hac : Acyclic g) (hno : NoOverflow g)
    (hit : it.Perm (GoMap.keys g.Nodes)) (hp : IsPathFromTo g src dst p) :
    ∃ l q, (g.LongestPath it src dst).2 = Except.ok (l, q) ∧ pathWeight g p ≤ l ∧ 0 ≤ l := by
  rcases TopoSort_cases hwf hit with ⟨ts0, hts, hperm, hfw⟩ | ⟨_, hc⟩
  · have hnd : ts0.Nodup := hperm.nodup_iff.2 hwf.inv.nodupNodes
    have hnd2 := sliceTo_nodup dst (sliceFrom_nodup src hnd)
    have htab := lpTable_spec (g.TopoSort it).1 hnd2
    obtain ⟨q, hq⟩ := LongestPath_returns src dst hts hnd
    have hnonneg := htab.nonneg dst
    refine ⟨_, q, hq, ?_, hnonneg⟩
    obtain ⟨hhead, hlast, hchain⟩ := hp
    cases p with
    | nil => simp at hhead
    | cons x p =>
      cases p with
      | nil =>
        simp only [pathWeight]
        exact hnonneg
      | cons y p =>
        have hclosed : ∀ u v, Edge (g.TopoSort it).1 u v → u ∈ ts0 ∧ v ∈ ts0 := by
          intro u v huv
          have := hwf.inv.closed u v huv
          exact ⟨hperm.mem_iff.2 this.1, hperm.mem_iff.2 this.2⟩
        have hx : x = src := by simpa using hhead
        subst hx
        have hxy : Edge g x y := (List.chain'_cons.1 hchain).1
        have hsrc : x ∈ ts0 := (hclosed x y hxy).1
        have hdst : dst ∈ ts0 := chain_last_mem hclosed dst p x y hlast hchain
        have hb := @path_bound (g.TopoSort it).1 ts0 x dst (hno.topoSort it) hfw hclosed htab
          hsrc hdst (x :: y :: p) x rfl hlast hchain (le_refl _)
        have hpw : pathWeight (g.TopoSort it).1 (x :: y :: p) = pathWeight g (x :: y :: p) :=
          @pathWeight_congr g (g.TopoSort it).1 rfl _
        rw [hpw] at hb
        have h0 := htab.nonneg x
        omega
  · exact absurd hc hac

theorem LongestPath_upper_bound_witness :
    (WellFormed diamond ∧ Acyclic diamond ∧ NoOverflow diamond ∧
      [nA, nB, nD, nC].Perm (GoMap.keys diamond.Nodes) ∧
      IsPathFromTo diamond nA nD [nA, nB, nD]) ∧
    pathWeight diamond [nA, nB, nD] = 5 ∧
    ∃ l q, (diamond.LongestPath [nA, nB, nD, nC] nA nD).2 = Except.ok (l, q) ∧
      pathWeight diamond [nA, nB, nD] ≤ l ∧ 0 ≤ l := by
  have hpath : IsPathFromTo diamond nA nD [nA, nB, nD] := by
    refine ⟨rfl, rfl, ?_⟩
    simp only [List.chain'_cons, List.chain'_singleton, and_true]
    exact ⟨(HasEdge_iff diamond nA nB).1 rfl, (HasEdge_iff diamond nB nD).1 rfl⟩
  exact ⟨⟨diamond_wf, diamond_acyclic, diamond_noOverflow, List.Perm.refl _, hpath⟩, rfl,
    LongestPath_upper_bound diamond [nA, nB, nD, nC] nA nD [nA, nB, nD] diamond_wf
      diamond_acyclic diamond_noOverflow (List.Perm.refl _) hpath⟩

/-! ## Sharing between a graph and its clone -/

theorem getD_set_ne {α : Type} (l : List α) {a b : Nat} (v d : α) (h : a ≠ b) :
    (l.set a v).getD b d = l.getD b d := by
  simp only [List.getD_eq_getElem?_getD, List.getElem?_set_ne h]

theorem getD_append_lt {α : Type} (l t : List α) {b : Nat} (d : α) (h : b < l.length) :
    (l ++ t).getD b d = l.getD b d := by
  simp only [List.getD_eq_getElem?_getD, List.getElem?_append_left h]

theorem getD_append_length {α : Type} (l t : List α) (x d : α) :
    (l ++ x :: t).getD l.length d = x := by
  rw [List.getD_eq_getElem?_getD, List.getElem?_append_right (le_refl _)]
  simp

theorem getD_set_eq_or {α : Type} (l : List α) (a : Nat) (v d : α) :
    (l.set a v).getD a d = v ∨ (l.set a v).getD a d = l.getD a d := by
  by_cases h : a < l.length
  · left
    simp [List.getD_eq_getElem?_getD, List.getElem?_set_self, h]
  · right
    have h1 : l.length ≤ a := by omega
    simp [List.getD_eq_getElem?_getD, List.getElem?_eq_none, h1]

theorem Heap.Le.leRefl (σ : Heap) : σ.Le σ :=
  ⟨le_refl _, le_refl _, le_refl _, le_refl _, le_refl _⟩

theorem Heap.Le.leTrans {σ σ1 σ2 : Heap} (h1 : σ.Le σ1) (h2 : σ1.Le σ2) : σ.Le σ2 :=
  ⟨le_trans h1.1 h2.1, le_trans h1.2.1 h2.2.1, le_trans h1.2.2.1 h2.2.2.1,
    le_trans h1.2.2.2.1 h2.2.2.2.1, le_trans h1.2.2.2.2 h2.2.2.2.2⟩

theorem Heap.Mutates.mutRefl (σ : Heap) (t : GraphRef) : σ.Mutates σ t :=
  ⟨Heap.Le.leRefl σ, fun _ _ => rfl, fun _ _ => rfl, fun _ _ => rfl, fun _ _ _ => rfl,
    fun _ _ _ => rfl, fun _ h => Or.inl h, fun _ h => Or.inl h⟩

theorem Heap.Mutates.mutTrans {σ σ1 σ2 : Heap} {t : GraphRef} (h1 : σ.Mutates σ1 t)
    (h2 : σ1.Mutates σ2 t) : σ.Mutates σ2 t := by
  refine ⟨h1.le.leTrans h2.le, ?_, ?_, ?_, ?_, ?_, ?_, ?_⟩
  · intro a ha
    rw [h2.nodes a ha, h1.nodes a ha]
  · intro a ha
    rw [h2.edges a ha, h1.edges a ha]
  · intro a ha
    rw [h2.weights a ha, h1.weights a ha]
  · intro a ha hn
    have hlt : a < σ1.intMaps.length := lt_of_lt_of_le ha h1.le.2.2.1
    have hn1 : a ∉ σ1.intsOf t := by
      intro hm
      rcases h1.intsNew a hm with h | h
      · exact hn h
      · omega
    rw [h2.ints a hlt hn1, h1.ints a ha hn]
  · intro a ha hn
    have hlt : a < σ1.arrays.length := lt_of_lt_of_le ha h1.le.1
    have hn1 : a ∉ σ1.arrsOf t := by
      intro hm
      rcases h1.arrsNew a hm with h | h
      · exact hn h
      · omega
    rw [h2.arrs a hlt hn1, h1.arrs a ha hn]
  · intro a ha
    rcases h2.intsNew a ha with h | h
    · exact h1.intsNew a h
    · exact Or.inr (le_trans h1.le.2.2.1 h)
  · intro a ha
    rcases h2.arrsNew a ha with h | h
    · exact h1.arrsNew a h
    · exact Or.inr (le_trans h1.le.1 h)

theorem Heap.Same.intsOf {σ σ1 : Heap} {o : GraphRef} (h : σ.Same σ1 o) :
    σ1.intsOf o = σ.intsOf o := by
  simp only [Heap.intsOf, h.2.2.1]

theorem Heap.Same.arrsOf {σ σ1 : Heap} {o : GraphRef} (h : σ.Same σ1 o) :
    σ1.arrsOf o = σ.arrsOf o := by
  simp only [Heap.arrsOf, h.2.1]

theorem Heap.Same.sameRefl (σ : Heap) (o : GraphRef) : σ.Same σ o :=
  ⟨rfl, rfl, rfl, fun _ _ => rfl, fun _ _ => rfl⟩

theorem Heap.Same.sameTrans {σ σ1 σ2 : Heap} {o : GraphRef} (h1 : σ.Same σ1 o)
    (h2 : σ1.Same σ2 o) : σ.Same σ2 o := by
  refine ⟨h2.1.trans h1.1, h2.2.1.trans h1.2.1, h2.2.2.1.trans h1.2.2.1, ?_, ?_⟩
  · intro a ha
    rw [h2.2.2.2.1 a (by rw [h1.intsOf]; exact ha), h1.2.2.2.1 a ha]
  · intro a ha
    rw [h2.2.2.2.2 a (by rw [h1.arrsOf]; exact ha), h1.2.2.2.2 a ha]

/-- Objects that are the same in two heaps give the same content. -/
theorem Heap.Same.content {σ σ1 : Heap} {o : GraphRef} (h : σ.Same σ1 o) :
    (σ1.content o).Nodes = (σ.content o).Nodes ∧ (σ1.content o).Edges = (σ.content o).Edges ∧
      (σ1.content o).Weights = (σ.content o).Weights ∧
      (σ1.content o).InDegree = (σ.content o).InDegree ∧
      (σ1.content o).OutDegree = (σ.content o).OutDegree := by
  refine ⟨h.1, ?_, ?_, ?_, ?_⟩
  · simp only [Heap.content, h.2.1]
    apply List.map_congr_left
    intro kv hkv
    have hm : kv.2.arr ∈ σ.arrsOf o := List.mem_map_of_mem (fun kv => kv.2.arr) hkv
    simp only [Heap.readSlice, h.2.2.2.2 _ hm]
  · simp only [Heap.content, h.2.2.1]
    apply List.map_congr_left
    intro kv hkv
    have hm : kv.2 ∈ σ.intsOf o := by
      simp only [Heap.intsOf, List.mem_cons]
      exact Or.inr (Or.inr (List.mem_map_of_mem (fun kv => kv.2) hkv))
    simp only [h.2.2.2.1 _ hm]
  · exact h.2.2.2.1 _ (by simp [Heap.intsOf])
  · exact h.2.2.2.1 _ (by simp [Heap.intsOf])

/-- The frame rule: a mutation through `t` leaves every graph alone whose objects are
allocated and not reachable from `t`, and this situation persists. -/
theorem Heap.Mutates.frame {σ σ1 : Heap} {t o : GraphRef} (hm : σ.Mutates σ1 t)
    (hf : σ.Frame t o) : σ.Same σ1 o ∧ σ1.Frame t o := by
  obtain ⟨hn, he, hw, hi, ha⟩ := hf.disjoint
  have hsame : σ.Same σ1 o := by
    refine ⟨hm.nodes _ (fun e => hn e.symm), hm.edges _ (fun e => he e.symm),
      hm.weights _ (fun e => hw e.symm), ?_, ?_⟩
    · intro a hao
      exact hm.ints a (hf.ints a hao) (fun hat => hi a hat hao)
    · intro a hao
      exact hm.arrs a (hf.arrs a hao) (fun hat => ha a hat hao)
  refine ⟨hsame, ?_, ?_, hn, he, hw, ?_, ?_⟩
  · intro a hao
    rw [hsame.intsOf] at hao
    exact lt_of_lt_of_le (hf.ints a hao) hm.le.2.2.1
  · intro a hao
    rw [hsame.arrsOf] at hao
    exact lt_of_lt_of_le (hf.arrs a hao) hm.le.1
  · intro a hat hao
    rw [hsame.intsOf] at hao
    rcases hm.intsNew a hat with h | h
    · exact hi a h hao
    · exact absurd (hf.ints a hao) (Nat.not_lt.2 h)
  · intro a hat hao
    rw [hsame.arrsOf] at hao
    rcases hm.arrsNew a hat with h | h
    · exact ha a h hao
    · exact absurd (hf.arrs a hao) (Nat.not_lt.2 h)

theorem Heap.mutates_setNodeMap (σ : Heap) (t : GraphRef) (m : NodeMap) :
    σ.Mutates (σ.setNodeMap t.Nodes m) t := by
  refine ⟨⟨le_refl _, ?_, le_refl _, le_refl _, le_refl _⟩, ?_, fun _ _ => rfl,
    fun _ _ => rfl, fun _ _ _ => rfl, fun _ _ _ => rfl, fun _ h => Or.inl h,
    fun _ h => Or.inl h⟩
  · simp [Heap.setNodeMap]
  · intro a ha
    exact getD_set_ne _ _ _ (fun e => ha e.symm)

theorem Heap.mutates_setIntMap (σ : Heap) (t : GraphRef) {a0 : Addr} (m : intMap)
    (h0 : a0 ∈ σ.intsOf t) : σ.Mutates (σ.setIntMap a0 m) t := by
  refine ⟨⟨le_refl _, le_refl _, ?_, le_refl _, le_refl _⟩, fun _ _ => rfl, fun _ _ => rfl,
    fun _ _ => rfl, ?_, fun _ _ _ => rfl, fun _ h => Or.inl h, fun _ h => Or.inl h⟩
  · simp [Heap.setIntMap]
  · intro a _ hn
    exact getD_set_ne _ _ _ (fun e => hn (e ▸ h0))

theorem Heap.mem_arrsOf_setEdgeMap {σ : Heap} {t : GraphRef} {m : GoMap Slice} {a : Addr}
    (h : a ∈ (σ.setEdgeMap t.Edges m).arrsOf t) :
    a ∈ m.map (fun kv => kv.2.arr) ∨ a ∈ σ.arrsOf t := by
  simp only [Heap.arrsOf, Heap.setEdgeMap] at h ⊢
  rcases getD_set_eq_or σ.edgeMaps t.Edges m [] with e | e
  · rw [e] at h
    exact Or.inl h
  · rw [e] at h
    exact Or.inr h

theorem Heap.mem_intsOf_setWeightMap {σ : Heap} {t : GraphRef} {m : GoMap Addr} {a : Addr}
    (h : a ∈ (σ.setWeightMap t.Weights m).intsOf t) :
    a ∈ m.map (fun kv => kv.2) ∨ a ∈ σ.intsOf t := by
  simp only [Heap.intsOf, Heap.setWeightMap, List.mem_cons] at h ⊢
  rcases h with h | h | h
  · exact Or.inr (Or.inl h)
  · exact Or.inr (Or.inr (Or.inl h))
  · rcases getD_set_eq_or σ.weightMaps t.Weights m [] with e | e
    · rw [e] at h
      exact Or.inl h
    · rw [e] at h
      exact Or.inr (Or.inr (Or.inr h))

theorem Heap.lookup_arr_mem {σ : Heap} {t : GraphRef} {src : Node}
    (h : (GoMap.getD (σ.edgeMaps.getD t.Edges []) src Slice.nil).len
      < (GoMap.getD (σ.edgeMaps.getD t.Edges []) src Slice.nil).cap) :
    (GoMap.getD (σ.edgeMaps.getD t.Edges []) src Slice.nil).arr ∈ σ.arrsOf t := by
  cases hg : GoMap.get? (σ.edgeMaps.getD t.Edges []) src with
  | none =>
    simp only [GoMap.getD, hg, Slice.nil] at h
    omega
  | some s =>
    simp only [GoMap.getD, hg, Heap.arrsOf]
    exact List.mem_map_of_mem (fun kv => kv.2.arr) (GoMap.mem_of_get? hg)

theorem Heap.mutates_addToEdges (grow : Nat → Nat) (σ : Heap) (t : GraphRef) (src dst : Node) :
    σ.Mutates (σ.addToEdges grow t src dst) t := by
  unfold Heap.addToEdges Heap.append
  by_cases hc : (GoMap.getD (σ.edgeMaps.getD t.Edges []) src Slice.nil).len
      < (GoMap.getD (σ.edgeMaps.getD t.Edges []) src Slice.nil).cap
  · have hmem := Heap.lookup_arr_mem hc
    simp only [hc, if_true]
    refine ⟨⟨?_, le_refl _, le_refl _, ?_, le_refl _⟩, fun _ _ => rfl, ?_, fun _ _ => rfl,
      fun _ _ _ => rfl, ?_, fun _ h => Or.inl h, ?_⟩
    · simp [Heap.setEdgeMap, Heap.setArray]
    · simp [Heap.setEdgeMap, Heap.setArray]
    · intro a ha
      exact getD_set_ne _ _ _ (fun e => ha e.symm)
    · intro a _ hn
      exact getD_set_ne _ _ _ (fun e => hn (e ▸ hmem))
    · intro a ha
      rcases Heap.mem_arrsOf_setEdgeMap ha with h | h
      · obtain ⟨kv, hkv, rfl⟩ := List.mem_map.1 h
        rcases GoMap.mem_set hkv with e | e
        · subst e
          exact Or.inl hmem
        · exact Or.inl (List.mem_map_of_mem (fun kv => kv.2.arr) e)
      · exact Or.inl h
  · simp only [hc, if_false]
    refine ⟨⟨?_, le_refl _, le_refl _, ?_, le_refl _⟩, fun _ _ => rfl, ?_, fun _ _ => rfl,
      fun _ _ _ => rfl, ?_, fun _ h => Or.inl h, ?_⟩
    · simp [Heap.setEdgeMap, Heap.allocArray]
    · simp [Heap.setEdgeMap, Heap.allocArray]
    · intro a ha
      exact getD_set_ne _ _ _ (fun e => ha e.symm)
    · intro a ha _
      exact getD_append_lt _ _ _ ha
    · intro a ha
      rcases Heap.mem_arrsOf_setEdgeMap ha with h | h
      · obtain ⟨kv, hkv, rfl⟩ := List.mem_map.1 h
        rcases GoMap.mem_set hkv with e | e
        · subst e
          exact Or.inr (le_refl _)
        · exact Or.inl (List.mem_map_of_mem (fun kv => kv.2.arr) e)
      · exact Or.inl h

theorem Heap.mutates_addWeight (σ : Heap) (t : GraphRef) (src dst : Node) (weight : Int) :
    σ.Mutates (σ.addWeight t src dst weight) t := by
  unfold Heap.addWeight
  cases hg : GoMap.get? (σ.weightMaps.getD t.Weights []) src with
  | none =>
    simp only []
    refine ⟨⟨le_refl _, le_refl _, ?_, le_refl _, ?_⟩, fun _ _ => rfl, fun _ _ => rfl, ?_, ?_,
      fun _ _ _ => rfl, ?_, fun _ h => Or.inl h⟩
    · simp [Heap.setWeightMap, Heap.allocIntMap]
    · simp [Heap.setWeightMap, Heap.allocIntMap]
    · intro a ha
      exact getD_set_ne _ _ _ (fun e => ha e.symm)
    · intro a ha _
      exact getD_append_lt _ _ _ ha
    · intro a ha
      rcases Heap.mem_intsOf_setWeightMap ha with h | h
      · obtain ⟨kv, hkv, rfl⟩ := List.mem_map.1 h
        rcases GoMap.mem_set hkv with e | e
        · subst e
          exact Or.inr (le_refl _)
        · refine Or.inl ?_
          simp only [Heap.intsOf, List.mem_cons]
          exact Or.inr (Or.inr (List.mem_map_of_mem (fun kv => kv.2) e))
      · exact Or.inl h
  | some a0 =>
    simp only []
    apply Heap.mutates_setIntMap
    simp only [Heap.intsOf, List.mem_cons]
    exact Or.inr (Or.inr (List.mem_map_of_mem (fun kv => kv.2) (GoMap.mem_of_get? hg)))

theorem Heap.mutates_addCounters (σ : Heap) (t : GraphRef) (src dst : Node) :
    σ.Mutates (σ.addCounters t src dst) t := by
  unfold Heap.addCounters
  refine ((Heap.mutates_setNodeMap σ t _).mutTrans (Heap.mutates_setIntMap _ t _ ?_)).mutTrans
    (Heap.mutates_setIntMap _ t _ ?_)
  · simp [Heap.intsOf]
  · simp [Heap.intsOf]

/-- `AddEdge` on `t` is a mutation through `t`. -/
theorem Heap.mutates_AddEdge (grow : Nat → Nat) (σ : Heap) (t : GraphRef) (src dst : Node)
    (opts : List Int) : σ.Mutates (σ.AddEdge grow t src dst opts) t := by
  unfold Heap.AddEdge
  exact ((Heap.mutates_addCounters σ t src dst).mutTrans
    (Heap.mutates_addToEdges grow _ t src dst)).mutTrans (Heap.mutates_addWeight _ t src dst _)

theorem Heap.mutates_subCounters (σ : Heap) (t : GraphRef) (src dst : Node) :
    σ.Mutates (σ.subCounters t src dst) t := by
  unfold Heap.subCounters
  refine (Heap.mutates_setIntMap σ t _ ?_).mutTrans (Heap.mutates_setIntMap _ t _ ?_)
  · simp [Heap.intsOf]
  · simp [Heap.intsOf]

theorem Heap.mutates_removeFromEdges (σ : Heap) (t : GraphRef) (src dst : Node) :
    σ.Mutates (σ.removeFromEdges t src dst).1 t := by
  unfold Heap.removeFromEdges
  simp only []
  split
  · refine ⟨⟨?_, le_refl _, le_refl _, le_refl _, le_refl _⟩, fun _ _ => rfl, fun _ _ => rfl,
      fun _ _ => rfl, fun _ _ _ => rfl, ?_, fun _ h => Or.inl h, fun _ h => Or.inl h⟩
    · simp [Heap.allocArray]
    · intro a ha _
      exact getD_append_lt _ _ _ ha
  · refine ⟨⟨?_, le_refl _, le_refl _, ?_, le_refl _⟩, fun _ _ => rfl, ?_, fun _ _ => rfl,
      fun _ _ _ => rfl, ?_, fun _ h => Or.inl h, ?_⟩
    · simp [Heap.setEdgeMap, Heap.allocArray]
    · simp [Heap.setEdgeMap, Heap.allocArray]
    · intro a ha
      exact getD_set_ne _ _ _ (fun e => ha e.symm)
    · intro a ha _
      exact getD_append_lt _ _ _ ha
    · intro a ha
      rcases Heap.mem_arrsOf_setEdgeMap ha with h | h
      · obtain ⟨kv, hkv, rfl⟩ := List.mem_map.1 h
        split at hkv
        · exact Or.inl (List.mem_map_of_mem (fun kv => kv.2.arr) (GoMap.mem_del hkv))
        · rcases GoMap.mem_set hkv with e | e
          · subst e
            exact Or.inr (le_refl _)
          · exact Or.inl (List.mem_map_of_mem (fun kv => kv.2.arr) e)
      · exact Or.inl h

/-- `RemoveEdge` on `t` is a mutation through `t`, also when it panics. -/
theorem Heap.mutates_RemoveEdge (σ : Heap) (t : GraphRef) (src dst : Node) :
    σ.Mutates (σ.RemoveEdge t src dst).1 t := by
  have h := Heap.mutates_removeFromEdges σ t src dst
  unfold Heap.RemoveEdge
  cases hr : σ.removeFromEdges t src dst with
  | mk σ1 f =>
    rw [hr] at h
    cases f with
    | none => exact h.mutTrans (Heap.mutates_subCounters σ1 t src dst)
    | some f => exact h

/-- A run of calls on `t` is a mutation through `t`. -/
theorem Heap.mutates_run (grow : Nat → Nat) (t : GraphRef) (ops : List Op) :
    ∀ σ : Heap, σ.Mutates (σ.run grow t ops) t := by
  induction ops with
  | nil => intro σ; exact Heap.Mutates.mutRefl σ t
  | cons op ops ih =>
    intro σ
    cases op with
    | add src dst opts =>
      exact (Heap.mutates_AddEdge grow σ t src dst opts).mutTrans (ih _)
    | remove src dst =>
      have h := Heap.mutates_RemoveEdge σ t src dst
      simp only [Heap.run]
      cases hr : σ.RemoveEdge t src dst with
      | mk σ1 f =>
        rw [hr] at h
        cases f with
        | none => exact h.mutTrans (ih σ1)
        | some f => exact h

theorem Heap.Extends.extRefl (σ : Heap) : σ.Extends σ :=
  ⟨⟨[], by simp⟩, ⟨[], by simp⟩, ⟨[], by simp⟩, ⟨[], by simp⟩, ⟨[], by simp⟩⟩

theorem Heap.Extends.extTrans {σ σ1 σ2 : Heap} (h1 : σ.Extends σ1) (h2 : σ1.Extends σ2) :
    σ.Extends σ2 := by
  obtain ⟨⟨a1, ha1⟩, ⟨b1, hb1⟩, ⟨c1, hc1⟩, ⟨d1, hd1⟩, ⟨e1, he1⟩⟩ := h1
  obtain ⟨⟨a2, ha2⟩, ⟨b2, hb2⟩, ⟨c2, hc2⟩, ⟨d2, hd2⟩, ⟨e2, he2⟩⟩ := h2
  exact ⟨⟨a1 ++ a2, by rw [ha2, ha1, List.append_assoc]⟩,
    ⟨b1 ++ b2, by rw [hb2, hb1, List.append_assoc]⟩,
    ⟨c1 ++ c2, by rw [hc2, hc1, List.append_assoc]⟩,
    ⟨d1 ++ d2, by rw [hd2, hd1, List.append_assoc]⟩,
    ⟨e1 ++ e2, by rw [he2, he1, List.append_assoc]⟩⟩

theorem Heap.Extends.le {σ σ1 : Heap} (h : σ.Extends σ1) : σ.Le σ1 := by
  obtain ⟨⟨a1, ha1⟩, ⟨b1, hb1⟩, ⟨c1, hc1⟩, ⟨d1, hd1⟩, ⟨e1, he1⟩⟩ := h
  refine ⟨?_, ?_, ?_, ?_, ?_⟩
  · rw [ha1, List.length_append]; omega
  · rw [hb1, List.length_append]; omega
  · rw [hc1, List.length_append]; omega
  · rw [hd1, List.length_append]; omega
  · rw [he1, List.length_append]; omega

theorem Heap.Extends.arrays {σ σ1 : Heap} (h : σ.Extends σ1) {a : Nat}
    (ha : a < σ.arrays.length) : σ1.arrays.getD a [] = σ.arrays.getD a [] := by
  obtain ⟨t, ht⟩ := h.1
  rw [ht]
  exact getD_append_lt _ _ _ ha

theorem Heap.Extends.nodeMaps {σ σ1 : Heap} (h : σ.Extends σ1) {a : Nat}
    (ha : a < σ.nodeMaps.length) : σ1.nodeMaps.getD a [] = σ.nodeMaps.getD a [] := by
  obtain ⟨t, ht⟩ := h.2.1
  rw [ht]
  exact getD_append_lt _ _ _ ha

theorem Heap.Extends.intMaps {σ σ1 : Heap} (h : σ.Extends σ1) {a : Nat}
    (ha : a < σ.intMaps.length) : σ1.intMaps.getD a [] = σ.intMaps.getD a [] := by
  obtain ⟨t, ht⟩ := h.2.2.1
  rw [ht]
  exact getD_append_lt _ _ _ ha

theorem Heap.Extends.edgeMaps {σ σ1 : Heap} (h : σ.Extends σ1) {a : Nat}
    (ha : a < σ.edgeMaps.length) : σ1.edgeMaps.getD a [] = σ.edgeMaps.getD a [] := by
  obtain ⟨t, ht⟩ := h.2.2.2.1
  rw [ht]
  exact getD_append_lt _ _ _ ha

theorem Heap.Extends.weightMaps {σ σ1 : Heap} (h : σ.Extends σ1) {a : Nat}
    (ha : a < σ.weightMaps.length) : σ1.weightMaps.getD a [] = σ.weightMaps.getD a [] := by
  obtain ⟨t, ht⟩ := h.2.2.2.2
  rw [ht]
  exact getD_append_lt _ _ _ ha

/-- Allocation leaves every graph alone whose references are valid. -/
theorem Heap.Extends.same {σ σ1 : Heap} (h : σ.Extends σ1) {g : GraphRef} (hv : σ.Valid g) :
    σ.Same σ1 g :=
  ⟨h.nodeMaps hv.1, h.edgeMaps hv.2.1, h.weightMaps hv.2.2.1,
    fun a ha => h.intMaps (hv.2.2.2.1 a ha), fun a ha => h.arrays (hv.2.2.2.2 a ha)⟩

theorem Heap.extends_allocArray (σ : Heap) (v : List Node) : σ.Extends (σ.allocArray v) :=
  ⟨⟨[v], rfl⟩, ⟨[], by simp [Heap.allocArray]⟩, ⟨[], by simp [Heap.allocArray]⟩,
    ⟨[], by simp [Heap.allocArray]⟩, ⟨[], by simp [Heap.allocArray]⟩⟩

theorem Heap.extends_allocNodeMap (σ : Heap) (v : NodeMap) : σ.Extends (σ.allocNodeMap v) :=
  ⟨⟨[], by simp [Heap.allocNodeMap]⟩, ⟨[v], rfl⟩, ⟨[], by simp [Heap.allocNodeMap]⟩,
    ⟨[], by simp [Heap.allocNodeMap]⟩, ⟨[], by simp [Heap.allocNodeMap]⟩⟩

theorem Heap.extends_allocIntMap (σ : Heap) (v : intMap) : σ.Extends (σ.allocIntMap v) :=
  ⟨⟨[], by simp [Heap.allocIntMap]⟩, ⟨[], by simp [Heap.allocIntMap]⟩, ⟨[v], rfl⟩,
    ⟨[], by simp [Heap.allocIntMap]⟩, ⟨[], by simp [Heap.allocIntMap]⟩⟩

theorem Heap.extends_allocEdgeMap (σ : Heap) (v : GoMap Slice) :
    σ.Extends (σ.allocEdgeMap v) :=
  ⟨⟨[], by simp [Heap.allocEdgeMap]⟩, ⟨[], by simp [Heap.allocEdgeMap]⟩,
    ⟨[], by simp [Heap.allocEdgeMap]⟩, ⟨[v], rfl⟩, ⟨[], by simp [Heap.allocEdgeMap]⟩⟩

theorem Heap.extends_allocWeightMap (σ : Heap) (v : GoMap Addr) :
    σ.Extends (σ.allocWeightMap v) :=
  ⟨⟨[], by simp [Heap.allocWeightMap]⟩, ⟨[], by simp [Heap.allocWeightMap]⟩,
    ⟨[], by simp [Heap.allocWeightMap]⟩, ⟨[], by simp [Heap.allocWeightMap]⟩, ⟨[v], rfl⟩⟩

theorem Heap.extends_GraphNew (σ : Heap) : σ.Extends σ.GraphNew.1 := by
  unfold Heap.GraphNew
  exact ((((Heap.extends_allocNodeMap σ _).extTrans (Heap.extends_allocEdgeMap _ _)).extTrans
    (Heap.extends_allocWeightMap _ _)).extTrans (Heap.extends_allocIntMap _ _)).extTrans
    (Heap.extends_allocIntMap _ _)

theorem Heap.extends_cloneSlice (σ : Heap) (s : Slice) : σ.Extends (σ.cloneSlice s).1 :=
  Heap.extends_allocArray σ _

/-- The loop of `EdgesClone` only allocates arrays, and every cloned adjacency list
lies in an array allocated by the loop. -/
theorem Heap.cloneEdges_spec (m : GoMap Slice) :
    ∀ σ : Heap, σ.Extends (Heap.cloneEdges σ m).1 ∧
      (Heap.cloneEdges σ m).1.edgeMaps = σ.edgeMaps ∧
      ∀ kv ∈ (Heap.cloneEdges σ m).2, σ.arrays.length ≤ kv.2.arr ∧
        kv.2.arr < (Heap.cloneEdges σ m).1.arrays.length := by
  induction m with
  | nil =>
    intro σ
    exact ⟨Heap.Extends.extRefl σ, rfl, fun kv h => by simp [Heap.cloneEdges] at h⟩
  | cons p m ih =>
    intro σ
    obtain ⟨k, s⟩ := p
    obtain ⟨h1, h2, h3⟩ := ih (σ.cloneSlice s).1
    have hext := Heap.extends_cloneSlice σ s
    have hlen : (σ.cloneSlice s).1.arrays.length = σ.arrays.length + 1 := by
      simp [Heap.cloneSlice, Heap.allocArray]
    refine ⟨hext.extTrans h1, h2, ?_⟩
    intro kv hkv
    simp only [Heap.cloneEdges, List.mem_cons] at hkv
    rcases hkv with e | e
    · subst e
      have hle := h1.le.1
      show σ.arrays.length ≤ σ.arrays.length ∧
        σ.arrays.length < (Heap.cloneEdges (σ.cloneSlice s).1 m).1.arrays.length
      exact ⟨le_refl _, by omega⟩
    · have hb := h3 kv e
      show σ.arrays.length ≤ kv.2.arr ∧
        kv.2.arr < (Heap.cloneEdges (σ.cloneSlice s).1 m).1.arrays.length
      exact ⟨by omega, hb.2⟩

/-- The loop of `WeightsClone` only allocates inner maps, and every inner map of the
result is one allocated by the loop. -/
theorem Heap.cloneWeights_spec (m : GoMap Addr) :
    ∀ σ : Heap, σ.Extends (Heap.cloneWeights σ m).1 ∧
      (Heap.cloneWeights σ m).1.weightMaps = σ.weightMaps ∧
      ∀ kv ∈ (Heap.cloneWeights σ m).2, σ.intMaps.length ≤ kv.2 ∧
        kv.2 < (Heap.cloneWeights σ m).1.intMaps.length := by
  induction m with
  | nil =>
    intro σ
    exact ⟨Heap.Extends.extRefl σ, rfl, fun kv h => by simp [Heap.cloneWeights] at h⟩
  | cons p m ih =>
    intro σ
    obtain ⟨k, a⟩ := p
    obtain ⟨h1, h2, h3⟩ := ih (σ.allocIntMap (intMap.Clone (σ.intMaps.getD a [])))
    have hext := Heap.extends_allocIntMap σ (intMap.Clone (σ.intMaps.getD a []))
    have hlen : (σ.allocIntMap (intMap.Clone (σ.intMaps.getD a []))).intMaps.length
        = σ.intMaps.length + 1 := by
      simp [Heap.allocIntMap]
    refine ⟨hext.extTrans h1, h2, ?_⟩
    intro kv hkv
    simp only [Heap.cloneWeights, List.mem_cons] at hkv
    rcases hkv with e | e
    · subst e
      have hle := h1.le.2.2.1
      show σ.intMaps.length ≤ σ.intMaps.length ∧ σ.intMaps.length <
        (Heap.cloneWeights (σ.allocIntMap (intMap.Clone (σ.intMaps.getD a []))) m).1.intMaps.length
      exact ⟨le_refl _, by omega⟩
    · have hb := h3 kv e
      show σ.intMaps.length ≤ kv.2 ∧ kv.2 <
        (Heap.cloneWeights (σ.allocIntMap (intMap.Clone (σ.intMaps.getD a []))) m).1.intMaps.length
      exact ⟨by omega, hb.2⟩

theorem Heap.NodesClone_spec (σ : Heap) (g : GraphRef) :
    σ.Extends (σ.NodesClone g).1 ∧ σ.nodeMaps.length ≤ (σ.NodesClone g).2 ∧
      (σ.NodesClone g).2 < (σ.NodesClone g).1.nodeMaps.length ∧
      (σ.NodesClone g).1.nodeMaps.getD (σ.NodesClone g).2 [] = σ.nodeMaps.getD g.Nodes [] := by
  refine ⟨Heap.extends_allocNodeMap σ _, le_refl _, ?_, ?_⟩
  · simp [Heap.NodesClone, Heap.allocNodeMap]
  · exact getD_append_length _ _ _ _

theorem Heap.InDegreeClone_spec (σ : Heap) (g : GraphRef) :
    σ.Extends (σ.InDegreeClone g).1 ∧ σ.intMaps.length ≤ (σ.InDegreeClone g).2 ∧
      (σ.InDegreeClone g).2 < (σ.InDegreeClone g).1.intMaps.length ∧
      (σ.InDegreeClone g).1.intMaps.getD (σ.InDegreeClone g).2 []
        = σ.intMaps.getD g.InDegree [] := by
  refine ⟨Heap.extends_allocIntMap σ _, le_refl _, ?_, ?_⟩
  · simp [Heap.InDegreeClone, Heap.allocIntMap]
  · exact getD_append_length _ _ _ _

theorem Heap.OutDegreeClone_spec (σ : Heap) (g : GraphRef) :
    σ.Extends (σ.OutDegreeClone g).1 ∧ σ.intMaps.length ≤ (σ.OutDegreeClone g).2 ∧
      (σ.OutDegreeClone g).2 < (σ.OutDegreeClone g).1.intMaps.length ∧
      (σ.OutDegreeClone g).1.intMaps.getD (σ.OutDegreeClone g).2 []
        = σ.intMaps.getD g.OutDegree [] := by
  refine ⟨Heap.extends_allocIntMap σ _, le_refl _, ?_, ?_⟩
  · simp [Heap.OutDegreeClone, Heap.allocIntMap]
  · exact getD_append_length _ _ _ _

theorem Heap.EdgesClone_spec (σ : Heap) (g : GraphRef) :
    σ.Extends (σ.EdgesClone g).1 ∧ σ.edgeMaps.length ≤ (σ.EdgesClone g).2 ∧
      (σ.EdgesClone g).2 < (σ.EdgesClone g).1.edgeMaps.length ∧
      (σ.EdgesClone g).1.edgeMaps.getD (σ.EdgesClone g).2 []
        = (Heap.cloneEdges σ (σ.edgeMaps.getD g.Edges [])).2 ∧
      ∀ kv ∈ (Heap.cloneEdges σ (σ.edgeMaps.getD g.Edges [])).2,
        σ.arrays.length ≤ kv.2.arr ∧ kv.2.arr < (σ.EdgesClone g).1.arrays.length := by
  obtain ⟨h1, h2, h3⟩ := Heap.cloneEdges_spec (σ.edgeMaps.getD g.Edges []) σ
  refine ⟨h1.extTrans (Heap.extends_allocEdgeMap _ _), ?_, ?_, ?_, ?_⟩
  · show σ.edgeMaps.length ≤ (Heap.cloneEdges σ (σ.edgeMaps.getD g.Edges [])).1.edgeMaps.length
    rw [h2]
  · simp [Heap.EdgesClone, Heap.allocEdgeMap]
  · exact getD_append_length _ _ _ _
  · exact h3

theorem Heap.WeightsClone_spec (σ : Heap) (g : GraphRef) :
    σ.Extends (σ.WeightsClone g).1 ∧ σ.weightMaps.length ≤ (σ.WeightsClone g).2 ∧
      (σ.WeightsClone g).2 < (σ.WeightsClone g).1.weightMaps.length ∧
      (σ.WeightsClone g).1.weightMaps.getD (σ.WeightsClone g).2 []
        = (Heap.cloneWeights σ (σ.weightMaps.getD g.Weights [])).2 ∧
      ∀ kv ∈ (Heap.cloneWeights σ (σ.weightMaps.getD g.Weights [])).2,
        σ.intMaps.length ≤ kv.2 ∧ kv.2 < (σ.WeightsClone g).1.intMaps.length := by
  obtain ⟨h1, h2, h3⟩ := Heap.cloneWeights_spec (σ.weightMaps.getD g.Weights []) σ
  refine ⟨h1.extTrans (Heap.extends_allocWeightMap _ _), ?_, ?_, ?_, ?_⟩
  · show σ.weightMaps.length
      ≤ (Heap.cloneWeights σ (σ.weightMaps.getD g.Weights [])).1.weightMaps.length
    rw [h2]
  · simp [Heap.WeightsClone, Heap.allocWeightMap]
  · exact getD_append_length _ _ _ _
  · exact h3

theorem Heap.readSlice_cloneSlice (σ σf : Heap) (s : Slice)
    (hf : (σ.cloneSlice s).1.Extends σf) :
    σf.readSlice (σ.cloneSlice s).2 = σ.readSlice s := by
  have hlt : σ.arrays.length < (σ.cloneSlice s).1.arrays.length := by
    simp [Heap.cloneSlice, Heap.allocArray]
  have h1 : σf.arrays.getD σ.arrays.length [] = σ.readSlice s := by
    rw [hf.arrays hlt]
    exact getD_append_length _ _ _ _
  show ((σf.arrays.getD σ.arrays.length []).drop 0).take s.len = σ.readSlice s
  rw [h1, List.drop_zero]
  simp [Heap.readSlice, List.take_take]

theorem Heap.readSlice_extends {σ σ1 : Heap} (h : σ.Extends σ1) (s : Slice)
    (hs : s.arr < σ.arrays.length) : σ1.readSlice s = σ.readSlice s := by
  simp only [Heap.readSlice, h.arrays hs]

/-- The adjacency lists made by the loop of `EdgesClone` read as the lists they were
cloned from. -/
theorem Heap.cloneEdges_content (m : GoMap Slice) :
    ∀ σ0 σ σf : Heap, σ0.Extends σ → (∀ kv ∈ m, kv.2.arr < σ0.arrays.length) →
      (Heap.cloneEdges σ m).1.Extends σf →
      (Heap.cloneEdges σ m).2.map (fun kv => (kv.1, σf.readSlice kv.2))
        = m.map (fun kv => (kv.1, σ0.readSlice kv.2)) := by
  induction m with
  | nil => intro σ0 σ σf _ _ _; rfl
  | cons p m ih =>
    intro σ0 σ σf h0 hv hf
    obtain ⟨k, s⟩ := p
    have hf1 : (Heap.cloneEdges (σ.cloneSlice s).1 m).1.Extends σf := hf
    have hx := (Heap.cloneEdges_spec m (σ.cloneSlice s).1).1
    have hhead : σf.readSlice (σ.cloneSlice s).2 = σ0.readSlice s := by
      rw [Heap.readSlice_cloneSlice σ σf s (hx.extTrans hf1)]
      exact Heap.readSlice_extends h0 s (hv (k, s) (List.mem_cons_self _ _))
    have htail := ih σ0 (σ.cloneSlice s).1 σf (h0.extTrans (Heap.extends_cloneSlice σ s))
      (fun kv hkv => hv kv (List.mem_cons_of_mem _ hkv)) hf1
    show (k, σf.readSlice (σ.cloneSlice s).2) ::
        (Heap.cloneEdges (σ.cloneSlice s).1 m).2.map (fun kv => (kv.1, σf.readSlice kv.2))
      = (k, σ0.readSlice s) :: m.map (fun kv => (kv.1, σ0.readSlice kv.2))
    rw [hhead, htail]

theorem intMap_Clone_id (wm : intMap) : intMap.Clone wm = wm := by
  unfold intMap.Clone
  induction wm with
  | nil => rfl
  | cons p m ih => rw [List.map_cons, ih]

/-- The inner maps made by the loop of `WeightsClone` hold the entries of the maps they
were cloned from. -/
theorem Heap.cloneWeights_content (m : GoMap Addr) :
    ∀ σ0 σ σf : Heap, σ0.Extends σ → (∀ kv ∈ m, kv.2 < σ0.intMaps.length) →
      (Heap.cloneWeights σ m).1.Extends σf →
      (Heap.cloneWeights σ m).2.map (fun kv => (kv.1, σf.intMaps.getD kv.2 []))
        = m.map (fun kv => (kv.1, σ0.intMaps.getD kv.2 [])) := by
  induction m with
  | nil => intro σ0 σ σf _ _ _; rfl
  | cons p m ih =>
    intro σ0 σ σf h0 hv hf
    obtain ⟨k, a⟩ := p
    have hf1 : (Heap.cloneWeights
        (σ.allocIntMap (intMap.Clone (σ.intMaps.getD a []))) m).1.Extends σf := hf
    have hx := (Heap.cloneWeights_spec m
      (σ.allocIntMap (intMap.Clone (σ.intMaps.getD a [])))).1
    have hlt : σ.intMaps.length
        < (σ.allocIntMap (intMap.Clone (σ.intMaps.getD a []))).intMaps.length := by
      simp [Heap.allocIntMap]
    have hhead : σf.intMaps.getD σ.intMaps.length [] = σ0.intMaps.getD a [] := by
      rw [(hx.extTrans hf1).intMaps hlt, intMap_Clone_id,
        ← h0.intMaps (hv (k, a) (List.mem_cons_self _ _))]
      exact getD_append_length _ _ _ _
    have htail := ih σ0 (σ.allocIntMap (intMap.Clone (σ.intMaps.getD a []))) σf
      (h0.extTrans (Heap.extends_allocIntMap σ _))
      (fun kv hkv => hv kv (List.mem_cons_of_mem _ hkv)) hf1
    show (k, σf.intMaps.getD σ.intMaps.length []) ::
        (Heap.cloneWeights (σ.allocIntMap (intMap.Clone (σ.intMaps.getD a []))) m).2.map
          (fun kv => (kv.1, σf.intMaps.getD kv.2 []))
      = (k, σ0.intMaps.getD a []) :: m.map (fun kv => (kv.1, σ0.intMaps.getD kv.2 []))
    rw [hhead, htail]

theorem Heap.EdgesClone_content (σ0 σ σf : Heap) (g : GraphRef) (h0 : σ0.Extends σ)
    (hE : g.Edges < σ0.edgeMaps.length) (hv : ∀ a ∈ σ0.arrsOf g, a < σ0.arrays.length)
    (hf : (σ.EdgesClone g).1.Extends σf) :
    (σf.edgeMaps.getD (σ.EdgesClone g).2 []).map (fun kv => (kv.1, σf.readSlice kv.2))
      = (σ0.edgeMaps.getD g.Edges []).map (fun kv => (kv.1, σ0.readSlice kv.2)) := by
  obtain ⟨_, _, h2, h3, _⟩ := Heap.EdgesClone_spec σ g
  rw [hf.edgeMaps h2, h3, ← h0.edgeMaps hE]
  refine Heap.cloneEdges_content _ σ0 σ σf h0 ?_
    ((Heap.extends_allocEdgeMap _ _).extTrans hf)
  intro kv hkv
  rw [h0.edgeMaps hE] at hkv
  exact hv _ (List.mem_map_of_mem (fun kv => kv.2.arr) hkv)

theorem Heap.WeightsClone_content (σ0 σ σf : Heap) (g : GraphRef) (h0 : σ0.Extends σ)
    (hW : g.Weights < σ0.weightMaps.length) (hv : ∀ a ∈ σ0.intsOf g, a < σ0.intMaps.length)
    (hf : (σ.WeightsClone g).1.Extends σf) :
    (σf.weightMaps.getD (σ.WeightsClone g).2 []).map
        (fun kv => (kv.1, σf.intMaps.getD kv.2 []))
      = (σ0.weightMaps.getD g.Weights []).map
        (fun kv => (kv.1, σ0.intMaps.getD kv.2 [])) := by
  obtain ⟨_, _, h2, h3, _⟩ := Heap.WeightsClone_spec σ g
  rw [hf.weightMaps h2, h3, ← h0.weightMaps hW]
  refine Heap.cloneWeights_content _ σ0 σ σf h0 ?_
    ((Heap.extends_allocWeightMap _ _).extTrans hf)
  intro kv hkv
  rw [h0.weightMaps hW] at hkv
  refine hv _ ?_
  right; right
  exact List.mem_map_of_mem (fun kv => kv.2) hkv

/-- What `Clone` returns: the heap only grew, every object reachable from the clone was
allocated by the call, and the clone reads as the original does. -/
theorem Heap.Clone_spec (σ : Heap) (g : GraphRef) :
    σ.Extends (σ.Clone g).1 ∧
      (σ.nodeMaps.length ≤ (σ.Clone g).2.Nodes ∧
        (σ.Clone g).2.Nodes < (σ.Clone g).1.nodeMaps.length) ∧
      (σ.edgeMaps.length ≤ (σ.Clone g).2.Edges ∧
        (σ.Clone g).2.Edges < (σ.Clone g).1.edgeMaps.length) ∧
      (σ.weightMaps.length ≤ (σ.Clone g).2.Weights ∧
        (σ.Clone g).2.Weights < (σ.Clone g).1.weightMaps.length) ∧
      (∀ a ∈ (σ.Clone g).1.intsOf (σ.Clone g).2,
        σ.intMaps.length ≤ a ∧ a < (σ.Clone g).1.intMaps.length) ∧
      (∀ a ∈ (σ.Clone g).1.arrsOf (σ.Clone g).2,
        σ.arrays.length ≤ a ∧ a < (σ.Clone g).1.arrays.length) ∧
      (σ.Valid g →
        ((σ.Clone g).1.content (σ.Clone g).2).Nodes = (σ.content g).Nodes ∧
        ((σ.Clone g).1.content (σ.Clone g).2).Edges = (σ.content g).Edges ∧
        ((σ.Clone g).1.content (σ.Clone g).2).Weights = (σ.content g).Weights ∧
        ((σ.Clone g).1.content (σ.Clone g).2).InDegree = (σ.content g).InDegree ∧
        ((σ.Clone g).1.content (σ.Clone g).2).OutDegree = (σ.content g).OutDegree) := by
  -- the stages of the call, in order
  have e0 := Heap.extends_GraphNew σ
  obtain ⟨en, n1, n2, n3⟩ := Heap.NodesClone_spec σ.GraphNew.1 g
  obtain ⟨ee, ed1, ed2, ed3, ed4⟩ := Heap.EdgesClone_spec (σ.GraphNew.1.NodesClone g).1 g
  obtain ⟨ew, w1, w2, w3, w4⟩ :=
    Heap.WeightsClone_spec ((σ.GraphNew.1.NodesClone g).1.EdgesClone g).1 g
  obtain ⟨ei, i1, i2, i3⟩ := Heap.InDegreeClone_spec
    (((σ.GraphNew.1.NodesClone g).1.EdgesClone g).1.WeightsClone g).1 g
  obtain ⟨eo, o1, o2, o3⟩ := Heap.OutDegreeClone_spec
    ((((σ.GraphNew.1.NodesClone g).1.EdgesClone g).1.WeightsClone g).1.InDegreeClone g).1 g
  have eso := Heap.extends_cloneSlice
    (((((σ.GraphNew.1.NodesClone g).1.EdgesClone g).1.WeightsClone g).1.InDegreeClone
      g).1.OutDegreeClone g).1 g.Source
  have esi := Heap.extends_cloneSlice
    ((((((σ.GraphNew.1.NodesClone g).1.EdgesClone g).1.WeightsClone g).1.InDegreeClone
      g).1.OutDegreeClone g).1.cloneSlice g.Source).1 g.Sink
  -- every stage's heap is extended to the final heap
  have fo : Heap.Extends _ (σ.Clone g).1 := eso.extTrans esi
  have fi : Heap.Extends _ (σ.Clone g).1 := eo.extTrans fo
  have fw : Heap.Extends _ (σ.Clone g).1 := ei.extTrans fi
  have fe : Heap.Extends _ (σ.Clone g).1 := ew.extTrans fw
  have fn : Heap.Extends _ (σ.Clone g).1 := ee.extTrans fe
  have f0 : Heap.Extends _ (σ.Clone g).1 := en.extTrans fn
  -- and extends the initial heap
  have sn := e0.extTrans en
  have se := sn.extTrans ee
  have sw := se.extTrans ew
  have si := sw.extTrans ei
  refine ⟨e0.extTrans f0, ⟨le_trans e0.le.2.1 n1, lt_of_lt_of_le n2 fn.le.2.1⟩,
    ⟨le_trans sn.le.2.2.2.1 ed1, lt_of_lt_of_le ed2 fe.le.2.2.2.1⟩,
    ⟨le_trans se.le.2.2.2.2 w1, lt_of_lt_of_le w2 fw.le.2.2.2.2⟩, ?_, ?_, ?_⟩
  · intro a ha
    have ha1 : a = (σ.Clone g).2.InDegree ∨ a = (σ.Clone g).2.OutDegree ∨
        a ∈ ((σ.Clone g).1.weightMaps.getD (σ.Clone g).2.Weights []).map
          (fun kv => kv.2) := by
      simpa [Heap.intsOf] using ha
    rcases ha1 with h | h | h
    · rw [h]
      exact ⟨le_trans sw.le.2.2.1 i1, lt_of_lt_of_le i2 fi.le.2.2.1⟩
    · rw [h]
      exact ⟨le_trans si.le.2.2.1 o1, lt_of_lt_of_le o2 fo.le.2.2.1⟩
    · have hm : (σ.Clone g).1.weightMaps.getD (σ.Clone g).2.Weights [] = _ :=
        (fw.weightMaps w2).trans w3
      rw [hm] at h
      obtain ⟨kv, hkv, rfl⟩ := List.mem_map.1 h
      have hb := w4 kv hkv
      exact ⟨le_trans se.le.2.2.1 hb.1, lt_of_lt_of_le hb.2 fw.le.2.2.1⟩
  · intro a ha
    have hm : (σ.Clone g).1.edgeMaps.getD (σ.Clone g).2.Edges [] = _ :=
      (fe.edgeMaps ed2).trans ed3
    have ha1 : a ∈ ((σ.Clone g).1.edgeMaps.getD (σ.Clone g).2.Edges []).map
        (fun kv => kv.2.arr) := ha
    rw [hm] at ha1
    obtain ⟨kv, hkv, rfl⟩ := List.mem_map.1 ha1
    have hb := ed4 kv hkv
    exact ⟨le_trans sn.le.1 hb.1, lt_of_lt_of_le hb.2 fe.le.1⟩
  · intro hv
    refine ⟨?_, ?_, ?_, ?_, ?_⟩
    · exact ((fn.nodeMaps n2).trans n3).trans (e0.nodeMaps hv.1)
    · exact Heap.EdgesClone_content σ _ _ g sn hv.2.1 hv.2.2.2.2 fe
    · exact Heap.WeightsClone_content σ _ _ g se hv.2.2.1 hv.2.2.2.1 fw
    · exact ((fi.intMaps i2).trans i3).trans
        (sw.intMaps (hv.2.2.2.1 _ (List.mem_cons_self _ _)))
    · exact ((fo.intMaps o2).trans o3).trans
        (si.intMaps (hv.2.2.2.1 _ (List.mem_cons_of_mem _ (List.mem_cons_self _ _))))

/-! ### Every graph that the package builds is valid -/

theorem Heap.Valid.of_le {σ σ1 : Heap} {t : GraphRef} (hv : σ.Valid t) (hle : σ.Le σ1)
    (hi : ∀ a ∈ σ1.intsOf t, a ∈ σ.intsOf t ∨ a < σ1.intMaps.length)
    (ha : ∀ a ∈ σ1.arrsOf t, a ∈ σ.arrsOf t ∨ a < σ1.arrays.length) : σ1.Valid t := by
  refine ⟨lt_of_lt_of_le hv.1 hle.2.1, lt_of_lt_of_le hv.2.1 hle.2.2.2.1,
    lt_of_lt_of_le hv.2.2.1 hle.2.2.2.2, ?_, ?_⟩
  · intro a h
    rcases hi a h with h1 | h1
    · exact lt_of_lt_of_le (hv.2.2.2.1 a h1) hle.2.2.1
    · exact h1
  · intro a h
    rcases ha a h with h1 | h1
    · exact lt_of_lt_of_le (hv.2.2.2.2 a h1) hle.1
    · exact h1

theorem Heap.valid_GraphNew (σ : Heap) : σ.GraphNew.1.Valid σ.GraphNew.2 := by
  refine ⟨?_, ?_, ?_, ?_, ?_⟩
  · simp [Heap.GraphNew, Heap.allocNodeMap, Heap.allocEdgeMap, Heap.allocWeightMap,
      Heap.allocIntMap]
  · simp [Heap.GraphNew, Heap.allocNodeMap, Heap.allocEdgeMap, Heap.allocWeightMap,
      Heap.allocIntMap]
  · simp [Heap.GraphNew, Heap.allocNodeMap, Heap.allocEdgeMap, Heap.allocWeightMap,
      Heap.allocIntMap]
  · intro a ha
    have hw : σ.GraphNew.1.weightMaps.getD σ.GraphNew.2.Weights [] = [] :=
      getD_append_length σ.weightMaps [] [] []
    simp only [Heap.intsOf, hw, List.map_nil, List.mem_cons, List.mem_nil_iff,
      or_false] at ha
    have hl : σ.GraphNew.1.intMaps.length = σ.intMaps.length + 2 := by
      simp [Heap.GraphNew, Heap.allocNodeMap, Heap.allocEdgeMap, Heap.allocWeightMap,
        Heap.allocIntMap]
    rw [hl]
    rcases ha with h | h
    · rw [h]; show σ.intMaps.length < σ.intMaps.length + 2; omega
    · rw [h]; show σ.intMaps.length + 1 < σ.intMaps.length + 2; omega
  · intro a ha
    have he : σ.GraphNew.1.edgeMaps.getD σ.GraphNew.2.Edges [] = [] :=
      getD_append_length σ.edgeMaps [] [] []
    simp only [Heap.arrsOf, he, List.map_nil, List.mem_nil_iff] at ha

theorem Heap.valid_addCounters (σ : Heap) (t : GraphRef) (src dst : Node) (hv : σ.Valid t) :
    (σ.addCounters t src dst).Valid t :=
  hv.of_le (Heap.mutates_addCounters σ t src dst).le (fun _ h => Or.inl h)
    (fun _ h => Or.inl h)

theorem Heap.valid_subCounters (σ : Heap) (t : GraphRef) (src dst : Node) (hv : σ.Valid t) :
    (σ.subCounters t src dst).Valid t :=
  hv.of_le (Heap.mutates_subCounters σ t src dst).le (fun _ h => Or.inl h)
    (fun _ h => Or.inl h)

theorem Heap.valid_addToEdges (grow : Nat → Nat) (σ : Heap) (t : GraphRef) (src dst : Node)
    (hv : σ.Valid t) : (σ.addToEdges grow t src dst).Valid t := by
  refine hv.of_le (Heap.mutates_addToEdges grow σ t src dst).le ?_ ?_
  · intro a h
    refine Or.inl ?_
    unfold Heap.addToEdges Heap.append at h
    by_cases hc : (GoMap.getD (σ.edgeMaps.getD t.Edges []) src Slice.nil).len
        < (GoMap.getD (σ.edgeMaps.getD t.Edges []) src Slice.nil).cap
    · simp only [hc, if_true] at h
      exact h
    · simp only [hc, if_false] at h
      exact h
  · intro a h
    have hle := (Heap.mutates_addToEdges grow σ t src dst).le.1
    revert h hle
    unfold Heap.addToEdges Heap.append
    by_cases hc : (GoMap.getD (σ.edgeMaps.getD t.Edges []) src Slice.nil).len
        < (GoMap.getD (σ.edgeMaps.getD t.Edges []) src Slice.nil).cap
    · have hmem := Heap.lookup_arr_mem hc
      simp only [hc, if_true]
      intro ha _
      rcases Heap.mem_arrsOf_setEdgeMap ha with h | h
      · obtain ⟨kv, hkv, rfl⟩ := List.mem_map.1 h
        rcases GoMap.mem_set hkv with e | e
        · subst e
          exact Or.inl hmem
        · exact Or.inl (List.mem_map_of_mem (fun kv => kv.2.arr) e)
      · exact Or.inl h
    · simp only [hc, if_false]
      intro ha _
      rcases Heap.mem_arrsOf_setEdgeMap ha with h | h
      · obtain ⟨kv, hkv, rfl⟩ := List.mem_map.1 h
        rcases GoMap.mem_set hkv with e | e
        · subst e
          refine Or.inr ?_
          simp [Heap.setEdgeMap, Heap.allocArray]
        · exact Or.inl (List.mem_map_of_mem (fun kv => kv.2.arr) e)
      · exact Or.inl h

theorem Heap.valid_addWeight (σ : Heap) (t : GraphRef) (src dst : Node) (weight : Int)
    (hv : σ.Valid t) : (σ.addWeight t src dst weight).Valid t := by
  refine hv.of_le (Heap.mutates_addWeight σ t src dst weight).le ?_ ?_
  · intro a
    unfold Heap.addWeight
    cases hg : GoMap.get? (σ.weightMaps.getD t.Weights []) src with
    | none =>
      simp only []
      intro ha
      rcases Heap.mem_intsOf_setWeightMap ha with h | h
      · obtain ⟨kv, hkv, rfl⟩ := List.mem_map.1 h
        rcases GoMap.mem_set hkv with e | e
        · subst e
          refine Or.inr ?_
          simp [Heap.setWeightMap, Heap.allocIntMap]
        · refine Or.inl ?_
          simp only [Heap.intsOf, List.mem_cons]
          exact Or.inr (Or.inr (List.mem_map_of_mem (fun kv => kv.2) e))
      · exact Or.inl h
    | some a0 =>
      simp only []
      intro ha
      exact Or.inl ha
  · intro a
    unfold Heap.addWeight
    cases hg : GoMap.get? (σ.weightMaps.getD t.Weights []) src with
    | none =>
      simp only []
      intro ha
      exact Or.inl ha
    | some a0 =>
      simp only []
      intro ha
      exact Or.inl ha

theorem Heap.valid_AddEdge (grow : Nat → Nat) (σ : Heap) (t : GraphRef) (src dst : Node)
    (opts : List Int) (hv : σ.Valid t) : (σ.AddEdge grow t src dst opts).Valid t := by
  unfold Heap.AddEdge
  exact Heap.valid_addWeight _ t src dst _
    (Heap.valid_addToEdges grow _ t src dst (Heap.valid_addCounters σ t src dst hv))

theorem Heap.valid_removeFromEdges (σ : Heap) (t : GraphRef) (src dst : Node)
    (hv : σ.Valid t) : (σ.removeFromEdges t src dst).1.Valid t := by
  refine hv.of_le (Heap.mutates_removeFromEdges σ t src dst).le ?_ ?_
  · intro a
    unfold Heap.removeFromEdges
    simp only []
    split
    · intro ha; exact Or.inl ha
    · intro ha; exact Or.inl ha
  · intro a
    unfold Heap.removeFromEdges
    simp only []
    split
    · intro ha; exact Or.inl ha
    · intro ha
      rcases Heap.mem_arrsOf_setEdgeMap ha with h | h
      · obtain ⟨kv, hkv, rfl⟩ := List.mem_map.1 h
        split at hkv
        · exact Or.inl (List.mem_map_of_mem (fun kv => kv.2.arr) (GoMap.mem_del hkv))
        · rcases GoMap.mem_set hkv with e | e
          · subst e
            refine Or.inr ?_
            simp [Heap.setEdgeMap, Heap.allocArray]
          · exact Or.inl (List.mem_map_of_mem (fun kv => kv.2.arr) e)
      · exact Or.inl h

theorem Heap.valid_RemoveEdge (σ : Heap) (t : GraphRef) (src dst : Node) (hv : σ.Valid t) :
    (σ.RemoveEdge t src dst).1.Valid t := by
  have h := Heap.valid_removeFromEdges σ t src dst hv
  unfold Heap.RemoveEdge
  cases hr : σ.removeFromEdges t src dst with
  | mk σ1 f =>
    rw [hr] at h
    cases f with
    | none => exact Heap.valid_subCounters σ1 t src dst h
    | some f => exact h

/-- A graph stays valid under any run of calls on it. -/
theorem Heap.valid_run (grow : Nat → Nat) (t : GraphRef) (ops : List Op) :
    ∀ σ : Heap, σ.Valid t → (σ.run grow t ops).Valid t := by
  induction ops with
  | nil => intro σ hv; exact hv
  | cons op ops ih =>
    intro σ hv
    cases op with
    | add src dst opts =>
      exact ih _ (Heap.valid_AddEdge grow σ t src dst opts hv)
    | remove src dst =>
      have h := Heap.valid_RemoveEdge σ t src dst hv
      simp only [Heap.run]
      cases hr : σ.RemoveEdge t src dst with
      | mk σ1 f =>
        rw [hr] at h
        cases f with
        | none => exact ih σ1 h
        | some f => exact h

/-- After `Clone` the original reads as before, and each of the two graphs is out of
reach of the other. -/
theorem Heap.Clone_frames (σ : Heap) (g : GraphRef) (hv : σ.Valid g) :
    σ.Same (σ.Clone g).1 g ∧ (σ.Clone g).1.Frame (σ.Clone g).2 g ∧
      (σ.Clone g).1.Frame g (σ.Clone g).2 := by
  obtain ⟨hext, hN, hE, hW, hI, hA, _⟩ := Heap.Clone_spec σ g
  have hs := hext.same hv
  have hgi : ∀ a ∈ (σ.Clone g).1.intsOf g, a < σ.intMaps.length := by
    intro a ha
    rw [hs.intsOf] at ha
    exact hv.2.2.2.1 a ha
  have hga : ∀ a ∈ (σ.Clone g).1.arrsOf g, a < σ.arrays.length := by
    intro a ha
    rw [hs.arrsOf] at ha
    exact hv.2.2.2.2 a ha
  refine ⟨hs, ⟨?_, ?_, ?_, ?_, ?_, ?_, ?_⟩, ⟨?_, ?_, ?_, ?_, ?_, ?_, ?_⟩⟩
  · exact fun a ha => lt_of_lt_of_le (hgi a ha) hext.le.2.2.1
  · exact fun a ha => lt_of_lt_of_le (hga a ha) hext.le.1
  · exact fun e => absurd (lt_of_lt_of_le hv.1 hN.1) (by rw [e]; exact lt_irrefl _)
  · exact fun e => absurd (lt_of_lt_of_le hv.2.1 hE.1) (by rw [e]; exact lt_irrefl _)
  · exact fun e => absurd (lt_of_lt_of_le hv.2.2.1 hW.1) (by rw [e]; exact lt_irrefl _)
  · exact fun a ha hb => absurd (lt_of_lt_of_le (hgi a hb) (hI a ha).1) (lt_irrefl _)
  · exact fun a ha hb => absurd (lt_of_lt_of_le (hga a hb) (hA a ha).1) (lt_irrefl _)
  · exact fun a ha => (hI a ha).2
  · exact fun a ha => (hA a ha).2
  · exact fun e => absurd (lt_of_lt_of_le hv.1 hN.1) (by rw [← e]; exact lt_irrefl _)
  · exact fun e => absurd (lt_of_lt_of_le hv.2.1 hE.1) (by rw [← e]; exact lt_irrefl _)
  · exact fun e => absurd (lt_of_lt_of_le hv.2.2.1 hW.1) (by rw [← e]; exact lt_irrefl _)
  · exact fun a ha hb => absurd (lt_of_lt_of_le (hgi a ha) (hI a hb).1) (lt_irrefl _)
  · exact fun a ha hb => absurd (lt_of_lt_of_le (hga a ha) (hA a hb).1) (lt_irrefl _)

/-- The clone is a valid graph of the heap that `Clone` returns, and so is the
original. -/
theorem Heap.valid_Clone (σ : Heap) (g : GraphRef) (hv : σ.Valid g) :
    (σ.Clone g).1.Valid (σ.Clone g).2 ∧ (σ.Clone g).1.Valid g := by
  obtain ⟨hext, hN, hE, hW, hI, hA, _⟩ := Heap.Clone_spec σ g
  obtain ⟨hs, hf1, _⟩ := Heap.Clone_frames σ g hv
  exact ⟨⟨hN.2, hE.2, hW.2, fun a ha => (hI a ha).2, fun a ha => (hA a ha).2⟩,
    ⟨lt_of_lt_of_le hv.1 hext.le.2.1, lt_of_lt_of_le hv.2.1 hext.le.2.2.2.1,
      lt_of_lt_of_le hv.2.2.1 hext.le.2.2.2.2, hf1.ints, hf1.arrs⟩⟩

theorem heapTwo_valid : heapTwo.1.Valid heapTwo.2 :=
  Heap.valid_AddEdge _ _ _ _ _ _
    (Heap.valid_AddEdge _ _ _ _ _ _ (Heap.valid_GraphNew Heap.empty))

/-- The graph of `heapTwo` reads as the graph that the same calls build in the model
without references. -/
theorem heapTwo_content :
    heapTwo.1.content heapTwo.2 = (GraphNew.AddEdge nA nB [2]).AddEdge nA nC [1] := by
  rfl

/-- A run of calls on a graph is seen through every reference to that graph: the frame
property is a property of `Clone`, not of the model. -/
theorem run_seen_through_alias :
    ((heapTwo.1.run growExample heapTwo.2 opsExample).content heapTwo.2).Edges
      ≠ (heapTwo.1.content heapTwo.2).Edges := by
  decide

/-- C14. Clone independence, in the model with references. Let `g` be a valid graph of
the heap `σ` and let `Clone` return the heap `σc` and the graph `h`. Then for every growth
policy of `append` and every list `ops` of `AddEdge`/`RemoveEdge` calls (a panic of
`RemoveEdge` ends the run): after the run on `h` the edges, weights, inDegree and
outDegree of `g` read exactly as before `Clone`; after the run on `g` those of `h` read
exactly as right after `Clone`; and no map object, backing array of an adjacency list,
degree map or inner weight map is reachable from both graphs, neither right after `Clone`
nor after either run. -/
theorem Clone_independence (grow : Nat → Nat) (σ σc : Heap) (g h : GraphRef)
    (ops : List Op) (hv : σ.Valid g) (hc : σ.Clone g = (σc, h)) :
    (((σc.run grow h ops).content g).Edges = (σ.content g).Edges ∧
      ((σc.run grow h ops).content g).Weights = (σ.content g).Weights ∧
      ((σc.run grow h ops).content g).InDegree = (σ.content g).InDegree ∧
      ((σc.run grow h ops).content g).OutDegree = (σ.content g).OutDegree) ∧
    (((σc.run grow g ops).content h).Edges = (σc.content h).Edges ∧
      ((σc.run grow g ops).content h).Weights = (σc.content h).Weights ∧
      ((σc.run grow g ops).content h).InDegree = (σc.content h).InDegree ∧
      ((σc.run grow g ops).content h).OutDegree = (σc.content h).OutDegree) ∧
    σc.Disjoint h g ∧ (σc.run grow h ops).Disjoint h g ∧
    (σc.run grow g ops).Disjoint g h := by
  obtain ⟨hs, hf1, hf2⟩ := Heap.Clone_frames σ g hv
  rw [hc] at hs hf1 hf2
  obtain ⟨hs1, hf1a⟩ := (Heap.mutates_run grow h ops σc).frame hf1
  obtain ⟨hs2, hf2a⟩ := (Heap.mutates_run grow g ops σc).frame hf2
  have c1 := (hs.sameTrans hs1).content
  have c2 := hs2.content
  exact ⟨⟨c1.2.1, c1.2.2.1, c1.2.2.2.1, c1.2.2.2.2⟩,
    ⟨c2.2.1, c2.2.2.1, c2.2.2.2.1, c2.2.2.2.2⟩, hf1.disjoint, hf1a.disjoint, hf2a.disjoint⟩

theorem Clone_independence_witness :
    (heapTwo.1.Valid heapTwo.2 ∧ heapTwo.1.Clone heapTwo.2 = (cloneTwo.1, cloneTwo.2)) ∧
    ((cloneTwo.1.run growExample cloneTwo.2 opsExample).content heapTwo.2).Edges
      = (heapTwo.1.content heapTwo.2).Edges ∧
    ((cloneTwo.1.run growExample heapTwo.2 opsExample).content cloneTwo.2).Weights
      = (cloneTwo.1.content cloneTwo.2).Weights ∧
    cloneTwo.1.Disjoint cloneTwo.2 heapTwo.2 :=
  ⟨⟨heapTwo_valid, rfl⟩,
    (Clone_independence growExample heapTwo.1 cloneTwo.1 heapTwo.2 cloneTwo.2 opsExample
      heapTwo_valid rfl).1.1,
    (Clone_independence growExample heapTwo.1 cloneTwo.1 heapTwo.2 cloneTwo.2 opsExample
      heapTwo_valid rfl).2.1.2.1,
    (Clone_independence growExample heapTwo.1 cloneTwo.1 heapTwo.2 cloneTwo.2 opsExample
      heapTwo_valid rfl).2.2.1⟩

/-- The run of the example on the clone gives, read through the clone, the graph that the
same calls give in the model without references. -/
theorem cloneTwo_run_content :
    (cloneTwo.1.run growExample cloneTwo.2 opsExample).content cloneTwo.2
      = ((((GraphNew.AddEdge nA nB [2]).AddEdge nA nC [1]).AddEdge nA nD
          [3]).afterRemoveEdge nA nB).AddEdge nB nC [] := by
  rfl

/-! ## `LongestPath` is not monotone in the weights -/

theorem heavyChain_wf : WellFormed heavyChain :=
  WellFormed.addEdge _ _ _ (WellFormed.addEdge _ _ _ WellFormed.new)

theorem heavyChain_acyclic : Acyclic heavyChain := by
  rcases @TopoSort_cases heavyChain [nA, nB, nC] heavyChain_wf (List.Perm.refl _) with
    ⟨ts1, _, _, hfw⟩ | ⟨h1, _⟩
  · exact hfw.acyclic
  · have h2 : (heavyChain.TopoSort [nA, nB, nC]).2 = Except.ok [nA, nB, nC] := rfl
    rw [h2] at h1
    cases h1

set_option maxRecDepth 100000 in
theorem heavyChain_LongestPath :
    (heavyChain.LongestPath [nA, nB, nC] nA nC).2
      = Except.ok (9223372036854775807, [nA, nB, nC]) := rfl

set_option maxRecDepth 100000 in
theorem heavyChain_raised_LongestPath :
    ((heavyChain.setWeight nB nC 1).LongestPath [nA, nB, nC] nA nC).2
      = Except.ok (0, [Node.nil, nC]) := rfl

/-- C7 (failing inputs): `LongestPath` is not monotone in the edge weights.
First input: in the well-formed acyclic graph `detour` (C→B (1), B→D (5), A→D (1)) the
call `LongestPath(A, D)` returns the length 6 when the node map is visited in the order
A, C, B, D; after the stored weight of the edge A→D has been raised from 1 to 2, the same
call returns the length 5 when the node map is visited in the order C, B, D, A (the
length depends on the visiting order because nodes that cannot be reached from `src`
enter the dynamic program).
Second input, with the same visiting order in both calls: in the well-formed acyclic
graph A→B (9223372036854775807), B→C (0) the call `LongestPath(A, C)` returns
9223372036854775807; after the stored weight of B→C has been raised from 0 to 1 it
returns 0, because the 64 bit addition wraps. -/
theorem LongestPath_not_monotone :
    (WellFormed detour ∧ Acyclic detour ∧ detour.HasEdge nA nD = true ∧
      GoMap.getD (GoMap.getD detour.Weights nA []) nD 0 = 1 ∧
      [nA, nC, nB, nD].Perm (GoMap.keys detour.Nodes) ∧
      [nC, nB, nD, nA].Perm (GoMap.keys (detour.setWeight nA nD 2).Nodes) ∧
      (detour.LongestPath [nA, nC, nB, nD] nA nD).2
        = Except.ok (6, [Node.nil, nC, nB, nD]) ∧
      ((detour.setWeight nA nD 2).LongestPath [nC, nB, nD, nA] nA nD).2
        = Except.ok (5, [Node.nil, nB, nD])) ∧
    (WellFormed heavyChain ∧ Acyclic heavyChain ∧ heavyChain.HasEdge nB nC = true ∧
      GoMap.getD (GoMap.getD heavyChain.Weights nB []) nC 0 = 0 ∧
      [nA, nB, nC].Perm (GoMap.keys heavyChain.Nodes) ∧
      (heavyChain.LongestPath [nA, nB, nC] nA nC).2
        = Except.ok (9223372036854775807, [nA, nB, nC]) ∧
      ((heavyChain.setWeight nB nC 1).LongestPath [nA, nB, nC] nA nC).2
        = Except.ok (0, [Node.nil, nC])) :=
  ⟨⟨detour_wf, detour_acyclic, rfl, rfl, by decide, by decide, rfl, rfl⟩,
    ⟨heavyChain_wf, heavyChain_acyclic, rfl, rfl, by decide, heavyChain_LongestPath,
      heavyChain_raised_LongestPath⟩⟩

/-! ## `TopoSort` writes only to what it allocates -/

theorem Heap.Extends.setArray {σ0 σ : Heap} (h : σ0.Extends σ) {a : Addr}
    (ha : σ0.arrays.length ≤ a) (v : List Node) : σ0.Extends (σ.setArray a v) := by
  obtain ⟨⟨t, ht⟩, h2, h3, h4, h5⟩ := h
  refine ⟨⟨t.set (a - σ0.arrays.length) v, ?_⟩, h2, h3, h4, h5⟩
  show σ.arrays.set a v = _
  rw [ht, List.set_append_right _ _ ha]

theorem Heap.Extends.setIntMap {σ0 σ : Heap} (h : σ0.Extends σ) {a : Addr}
    (ha : σ0.intMaps.length ≤ a) (v : intMap) : σ0.Extends (σ.setIntMap a v) := by
  obtain ⟨h1, h2, ⟨t, ht⟩, h4, h5⟩ := h
  refine ⟨h1, h2, ⟨t.set (a - σ0.intMaps.length) v, ?_⟩, h4, h5⟩
  show σ.intMaps.set a v = _
  rw [ht, List.set_append_right _ _ ha]

theorem Heap.Extends.setEdgeMap {σ0 σ : Heap} (h : σ0.Extends σ) {a : Addr}
    (ha : σ0.edgeMaps.length ≤ a) (v : GoMap Slice) : σ0.Extends (σ.setEdgeMap a v) := by
  obtain ⟨h1, h2, h3, ⟨t, ht⟩, h5⟩ := h
  refine ⟨h1, h2, h3, ⟨t.set (a - σ0.edgeMaps.length) v, ?_⟩, h5⟩
  show σ.edgeMaps.set a v = _
  rw [ht, List.set_append_right _ _ ha]

/-- An `append` to a slice that is fresh for `σ0` leaves the objects of `σ0` alone, and
the slice it returns is fresh for `σ0`. -/
theorem Heap.extends_append (grow : Nat → Nat) {σ0 σ : Heap} (h : σ0.Extends σ) {s : Slice}
    (hs : Slice.Fresh σ0 s) (x : Node) :
    σ0.Extends (σ.append grow s x).1 ∧ Slice.Fresh σ0 (σ.append grow s x).2 := by
  unfold Heap.append
  by_cases hc : s.len < s.cap
  · have hfr : σ0.arrays.length ≤ s.arr := by
      rcases hs with h1 | h1
      · omega
      · exact h1
    simp only [hc, if_true]
    exact ⟨h.setArray hfr _, Or.inr hfr⟩
  · simp only [hc, if_false]
    exact ⟨h.extTrans (Heap.extends_allocArray σ _), Or.inr h.le.1⟩

theorem Slice.Fresh.tail {σ0 : Heap} {s : Slice} (hs : Slice.Fresh σ0 s) :
    Slice.Fresh σ0 s.tail := by
  rcases hs with h | h
  · left
    show s.cap - 1 ≤ s.len - 1
    omega
  · exact Or.inr h

theorem Slice.fresh_nil (σ0 : Heap) : Slice.Fresh σ0 Slice.nil := Or.inl (le_refl _)

/-- `RemoveEdge` on a graph whose edge map and degree maps were allocated after `σ0`
leaves the objects of `σ0` alone, also when it panics. -/
theorem Heap.extends_RemoveEdge {σ0 σ : Heap} (h : σ0.Extends σ) (t : GraphRef)
    (hE : σ0.edgeMaps.length ≤ t.Edges) (hI : σ0.intMaps.length ≤ t.InDegree)
    (hO : σ0.intMaps.length ≤ t.OutDegree) (src dst : Node) :
    σ0.Extends (σ.RemoveEdge t src dst).1 := by
  have h1 : σ0.Extends (σ.removeFromEdges t src dst).1 := by
    unfold Heap.removeFromEdges
    simp only []
    split
    · exact h.extTrans (Heap.extends_allocArray σ _)
    · exact (h.extTrans (Heap.extends_allocArray σ _)).setEdgeMap hE _
  unfold Heap.RemoveEdge
  cases hr : σ.removeFromEdges t src dst with
  | mk σ1 f =>
    rw [hr] at h1
    cases f with
    | none => exact (Heap.Extends.setIntMap h1 hI _).setIntMap hO _
    | some f => exact h1

theorem Heap.extends_topoInner (grow : Nat → Nat) {σ0 : Heap} (t : GraphRef)
    (hE : σ0.edgeMaps.length ≤ t.Edges) (hI : σ0.intMaps.length ≤ t.InDegree)
    (hO : σ0.intMaps.length ≤ t.OutDegree) (n : Node) (e : Slice) :
    ∀ (c k : Nat) (σ : Heap) (s : Slice), σ0.Extends σ → Slice.Fresh σ0 s →
      σ0.Extends (Heap.topoInner grow t n e c k σ s).1 ∧
        Slice.Fresh σ0 (Heap.topoInner grow t n e c k σ s).2.1 := by
  intro c
  induction c with
  | zero => intro k σ s h hs; exact ⟨h, hs⟩
  | succ c ih =>
    intro k σ s h hs
    have h1 := Heap.extends_RemoveEdge h t hE hI hO n (σ.index e k)
    unfold Heap.topoInner
    cases hr : σ.RemoveEdge t n (σ.index e k) with
    | mk σ1 f =>
      rw [hr] at h1
      cases f with
      | some f => exact ⟨h1, hs⟩
      | none =>
        simp only []
        by_cases hz : GoMap.getD (σ1.intMaps.getD t.InDegree []) (σ.index e k) 0 = 0
        · simp only [hz, if_true]
          obtain ⟨h2, hs2⟩ := Heap.extends_append grow h1 hs (σ.index e k)
          exact ih (k + 1) _ _ h2 hs2
        · simp only [hz, if_false]
          exact ih (k + 1) _ _ h1 hs

theorem Heap.extends_topoLoop (grow : Nat → Nat) {σ0 : Heap} (g t : GraphRef)
    (hE : σ0.edgeMaps.length ≤ t.Edges) (hI : σ0.intMaps.length ≤ t.InDegree)
    (hO : σ0.intMaps.length ≤ t.OutDegree) :
    ∀ (fuel : Nat) (σ : Heap) (s ts : Slice), σ0.Extends σ → Slice.Fresh σ0 s →
      Slice.Fresh σ0 ts → σ0.Extends (Heap.topoLoop grow g t fuel σ s ts).1 := by
  intro fuel
  induction fuel with
  | zero =>
    intro σ s ts h _ _
    unfold Heap.topoLoop
    split <;> exact h
  | succ fuel ih =>
    intro σ s ts h hs hts
    unfold Heap.topoLoop
    by_cases hz : s.len = 0
    · simp only [hz, if_true]
      exact h
    · simp only [hz, if_false]
      obtain ⟨h1, hts1⟩ := Heap.extends_append grow h hts (σ.index s 0)
      obtain ⟨h2, hs2⟩ := Heap.extends_topoInner grow t hE hI hO (σ.index s 0)
        (GoMap.getD ((σ.append grow ts (σ.index s 0)).1.edgeMaps.getD g.Edges [])
          (σ.index s 0) Slice.nil)
        (GoMap.getD ((σ.append grow ts (σ.index s 0)).1.edgeMaps.getD g.Edges [])
          (σ.index s 0) Slice.nil).len 0 _ _ h1 hs.tail
      cases hr : Heap.topoInner grow t (σ.index s 0)
        (GoMap.getD ((σ.append grow ts (σ.index s 0)).1.edgeMaps.getD g.Edges [])
          (σ.index s 0) Slice.nil)
        (GoMap.getD ((σ.append grow ts (σ.index s 0)).1.edgeMaps.getD g.Edges [])
          (σ.index s 0) Slice.nil).len 0 (σ.append grow ts (σ.index s 0)).1 s.tail with
      | mk σ1 r =>
        obtain ⟨s1, f⟩ := r
        rw [hr] at h2 hs2
        cases f with
        | some f => exact h2
        | none => exact ih σ1 s1 _ h2 hs2 hts1

theorem Heap.extends_sourceSinkStep (grow : Nat → Nat) {σ0 : Heap} (g : GraphRef)
    (st : Heap × Slice × Slice) (n : Node) (h : σ0.Extends st.1)
    (h1 : Slice.Fresh σ0 st.2.1) (h2 : Slice.Fresh σ0 st.2.2) :
    σ0.Extends (Heap.sourceSinkStep grow g st n).1 ∧
      Slice.Fresh σ0 (Heap.sourceSinkStep grow g st n).2.1 ∧
      Slice.Fresh σ0 (Heap.sourceSinkStep grow g st n).2.2 := by
  unfold Heap.sourceSinkStep
  by_cases hi : GoMap.getD (st.1.intMaps.getD g.InDegree []) n 0 = 0
  · obtain ⟨ha, hb⟩ := Heap.extends_append grow h h1 n
    simp only [hi, if_true]
    by_cases ho : GoMap.getD ((st.1.append grow st.2.1 n).1.intMaps.getD g.OutDegree []) n 0 = 0
    · obtain ⟨hc, hd⟩ := Heap.extends_append grow ha h2 n
      simp only [ho, if_true]
      exact ⟨hc, hb, hd⟩
    · simp only [ho, if_false]
      exact ⟨ha, hb, h2⟩
  · simp only [hi, if_false]
    by_cases ho : GoMap.getD (st.1.intMaps.getD g.OutDegree []) n 0 = 0
    · obtain ⟨hc, hd⟩ := Heap.extends_append grow h h2 n
      simp only [ho, if_true]
      exact ⟨hc, h1, hd⟩
    · simp only [ho, if_false]
      exact ⟨h, h1, h2⟩

theorem Heap.extends_ComputeSourceAndSink (grow : Nat → Nat) (σ : Heap) (g : GraphRef)
    (it : List Node) : σ.Extends (σ.ComputeSourceAndSink grow g it).1 := by
  unfold Heap.ComputeSourceAndSink
  have key : σ.Extends (it.foldl (Heap.sourceSinkStep grow g) (σ, Slice.nil, Slice.nil)).1 ∧
      Slice.Fresh σ (it.foldl (Heap.sourceSinkStep grow g) (σ, Slice.nil, Slice.nil)).2.1 ∧
      Slice.Fresh σ (it.foldl (Heap.sourceSinkStep grow g) (σ, Slice.nil, Slice.nil)).2.2 := by
    apply foldl_inv (fun st : Heap × Slice × Slice =>
      σ.Extends st.1 ∧ Slice.Fresh σ st.2.1 ∧ Slice.Fresh σ st.2.2)
    · exact ⟨Heap.Extends.extRefl σ, Slice.fresh_nil σ, Slice.fresh_nil σ⟩
    · intro st n _ hst
      exact Heap.extends_sourceSinkStep grow g st n hst.1 hst.2.1 hst.2.2
  exact key.1

/-- Every object that exists when `TopoSort` is called is left as it is: the call only
allocates and writes to what it has allocated (the clone, the queue, the result, and the
new `Source` and `Sink` slices of the receiver). -/
theorem Heap.extends_TopoSort (grow : Nat → Nat) (σ : Heap) (g : GraphRef) (it : List Node)
    (fuel : Nat) : σ.Extends (σ.TopoSort grow g it fuel).1 := by
  obtain ⟨hext, _, hE, _, hI, _, _⟩ := Heap.Clone_spec σ g
  have hIn : σ.intMaps.length ≤ (σ.Clone g).2.InDegree :=
    (hI _ (List.mem_cons_self _ _)).1
  have hOut : σ.intMaps.length ≤ (σ.Clone g).2.OutDegree :=
    (hI _ (List.mem_cons_of_mem _ (List.mem_cons_self _ _))).1
  have h1 : σ.Extends ((σ.Clone g).1.ComputeSourceAndSink grow g it).1 :=
    hext.extTrans (Heap.extends_ComputeSourceAndSink grow _ g it)
  have h2 : σ.Extends (((σ.Clone g).1.ComputeSourceAndSink grow g it).1.cloneSlice
      ((σ.Clone g).1.ComputeSourceAndSink grow g it).2.Source).1 :=
    h1.extTrans (Heap.extends_cloneSlice _ _)
  exact Heap.extends_topoLoop grow _ (σ.Clone g).2 hE.1 hIn hOut fuel _ _ _ h2
    (Or.inl (le_refl _)) (Slice.fresh_nil σ)

/-- C18. `TopoSort` leaves the caller's graph untouched, in the model with references.
Let `g` be a valid graph of the heap `σ`. For every growth policy of `append`, every order
`it` in which the node map is visited and every number `fuel` of passes of the outer loop,
whether the call returns or panics: every object of `σ` is unchanged in the heap after the
call (the call only allocates, and it writes only to what it has allocated, so every
`RemoveEdge` of the loop works on the clone); the receiver still refers to the same node
map, edge map, weight map and degree maps; and its nodes, edges (every adjacency list in
its order), weights, inDegree and outDegree read after the call as before it. -/
theorem TopoSort_frame (grow : Nat → Nat) (σ : Heap) (g : GraphRef) (it : List Node)
    (fuel : Nat) (hv : σ.Valid g) :
    σ.Extends (σ.TopoSort grow g it fuel).1 ∧
    ((σ.TopoSort grow g it fuel).2.1.Nodes = g.Nodes ∧
      (σ.TopoSort grow g it fuel).2.1.Edges = g.Edges ∧
      (σ.TopoSort grow g it fuel).2.1.Weights = g.Weights ∧
      (σ.TopoSort grow g it fuel).2.1.InDegree = g.InDegree ∧
      (σ.TopoSort grow g it fuel).2.1.OutDegree = g.OutDegree) ∧
    (((σ.TopoSort grow g it fuel).1.content (σ.TopoSort grow g it fuel).2.1).Nodes
        = (σ.content g).Nodes ∧
      ((σ.TopoSort grow g it fuel).1.content (σ.TopoSort grow g it fuel).2.1).Edges
        = (σ.content g).Edges ∧
      ((σ.TopoSort grow g it fuel).1.content (σ.TopoSort grow g it fuel).2.1).Weights
        = (σ.content g).Weights ∧
      ((σ.TopoSort grow g it fuel).1.content (σ.TopoSort grow g it fuel).2.1).InDegree
        = (σ.content g).InDegree ∧
      ((σ.TopoSort grow g it fuel).1.content (σ.TopoSort grow g it fuel).2.1).OutDegree
        = (σ.content g).OutDegree) := by
  have hext := Heap.extends_TopoSort grow σ g it fuel
  have hc := (hext.same hv).content
  exact ⟨hext, ⟨rfl, rfl, rfl, rfl, rfl⟩, hc⟩

theorem heapDiamond_valid : heapDiamond.1.Valid heapDiamond.2 :=
  Heap.valid_AddEdge _ _ _ _ _ _ (Heap.valid_AddEdge _ _ _ _ _ _
    (Heap.valid_AddEdge _ _ _ _ _ _ (Heap.valid_AddEdge _ _ _ _ _ _
      (Heap.valid_GraphNew Heap.empty))))

/-- The graph of `heapDiamond` reads as `diamond`. -/
theorem heapDiamond_content : heapDiamond.1.content heapDiamond.2 = diamond := by
  rfl

/-- On `heapDiamond` the call of `TopoSort` runs its loop to the end and returns the
order that `TopoSort` returns in the model without references. -/
theorem heapDiamond_TopoSort :
    (heapDiamond.1.TopoSort growExample heapDiamond.2 [nA, nB, nD, nC] 10).2.2
        = Except.ok { arr := 16, off := 0, len := 4, cap := 6 } ∧
      (heapDiamond.1.TopoSort growExample heapDiamond.2 [nA, nB, nD, nC] 10).1.readSlice
          { arr := 16, off := 0, len := 4, cap := 6 } = [nA, nB, nC, nD] ∧
      (diamond.TopoSort [nA, nB, nD, nC]).2 = Except.ok [nA, nB, nC, nD] := by
  refine ⟨?_, ?_, ?_⟩ <;> rfl

theorem TopoSort_frame_witness :
    heapDiamond.1.Valid heapDiamond.2 ∧
    ((heapDiamond.1.TopoSort growExample heapDiamond.2 [nA, nB, nD, nC] 10).1.content
        (heapDiamond.1.TopoSort growExample heapDiamond.2 [nA, nB, nD, nC] 10).2.1).Edges
      = (heapDiamond.1.content heapDiamond.2).Edges ∧
    ((heapDiamond.1.TopoSort growExample heapDiamond.2 [nA, nB, nD, nC] 10).1.content
        (heapDiamond.1.TopoSort growExample heapDiamond.2 [nA, nB, nD, nC] 10).2.1).InDegree
      = (heapDiamond.1.content heapDiamond.2).InDegree :=
  ⟨heapDiamond_valid,
    (TopoSort_frame growExample heapDiamond.1 heapDiamond.2 [nA, nB, nD, nC] 10
      heapDiamond_valid).2.2.2.1,
    (TopoSort_frame growExample heapDiamond.1 heapDiamond.2 [nA, nB, nD, nC] 10
      heapDiamond_valid).2.2.2.2.2.1⟩

/-- On a heap with the graph `twoCycle` the call of `TopoSort` panics, as it does in the
model without references; the frame property covers this outcome as well. -/
theorem heapCycle_TopoSort :
    heapCycle.1.content heapCycle.2 = twoCycle ∧
      (heapCycle.1.TopoSort growExample heapCycle.2 [nA, nB] 10).2.2
        = Except.error Fault.notDAG ∧
      (twoCycle.TopoSort [nA, nB]).2 = Except.error Fault.notDAG := by
  refine ⟨?_, ?_, ?_⟩ <;> rfl

end Graphs
